import Mathlib

/-!
# Hack assembler (`hackc.cpp`): shallow embedding and verified properties

The C++ program is a two-pass assembler for the Hack machine language.  A
`std::string` is modelled as a list of characters (`Str`), a
`std::vector<std::string>` as a list of `Str`, the `std::map` tables as
association lists read with `List.lookup`, and the global mutable variables
`SYMBOLS`, `NEXT_SYMBOL_VALUE` and `BINARY` as the fields of an explicit
`State` that is threaded through the two passes.

`unsigned` arithmetic is taken modulo `2 ^ 32`.  Operations whose behaviour the
C++ standard leaves undefined (indexing a vector outside its bounds, overflow
of the signed line counter) end the run with a dedicated error value.
-/

namespace HackC

/-- A `std::string`: a sequence of `char`. -/
abbrev Str := List Char

/-! ## Character classification (`<cctype>`, "C" locale) -/

/-- The C function `isspace`: space, and the control characters `\t \n \v \f \r`
(codes 9 to 13). -/
def isspace (c : Char) : Bool :=
  c.toNat == 32 || (9 ≤ c.toNat && c.toNat ≤ 13)

/-- The C function `isdigit`: the characters `0` to `9` (codes 48 to 57). -/
def isdigit (c : Char) : Bool :=
  48 ≤ c.toNat && c.toNat ≤ 57

/-- The regex range `a-zA-Z`. -/
def isLetter (c : Char) : Bool :=
  (97 ≤ c.toNat && c.toNat ≤ 122) || (65 ≤ c.toNat && c.toNat ≤ 90)

/-- The regex character class `[a-zA-Z.:$_]`. -/
def identStart (c : Char) : Bool :=
  isLetter c || c == '.' || c == ':' || c == '$' || c == '_'

/-- The regex character class `[a-zA-Z0-9.:$_]`. -/
def identChar (c : Char) : Bool :=
  isLetter c || isdigit c || c == '.' || c == ':' || c == '$' || c == '_'

/-- The regex atom `.` (ECMAScript grammar on `char`): every character except
the line terminators `\n` (10) and `\r` (13). -/
def anyChar (c : Char) : Bool :=
  !(c.toNat == 10 || c.toNat == 13)

/-! ## Regular expressions (`std::regex`, `std::regex_match`) -/

/-- The fragment of ECMAScript regular expressions used by the program.
`star` and `none` only arise as derivatives of the other forms. -/
inductive Regex where
  | none : Regex
  | eps : Regex
  | cls (p : Char → Bool) : Regex
  | seq (a b : Regex) : Regex
  | alt (a b : Regex) : Regex
  | star (a : Regex) : Regex
  | plus (a : Regex) : Regex

namespace Regex

/-- Whether the expression accepts the empty string. -/
def nullable : Regex → Bool
  | none => false
  | eps => true
  | cls _ => false
  | seq a b => a.nullable && b.nullable
  | alt a b => a.nullable || b.nullable
  | star _ => true
  | plus a => a.nullable

/-- Brzozowski derivative: the expression accepting `s` exactly when the
original accepts `c :: s`. -/
def deriv : Regex → Char → Regex
  | none, _ => none
  | eps, _ => none
  | cls p, c => if p c then eps else none
  | seq a b, c =>
      if a.nullable then alt (seq (a.deriv c) b) (b.deriv c) else seq (a.deriv c) b
  | alt a b, c => alt (a.deriv c) (b.deriv c)
  | star a, c => seq (a.deriv c) (star a)
  | plus a, c => seq (a.deriv c) (star a)

/-- A literal character. -/
def chr (c : Char) : Regex := cls (fun x => x == c)

/-- The assertion `$`.  Under `std::regex_match` the whole input must be
consumed, and every `$` of the program stands at the very end of its
alternative, where it holds exactly when the input is exhausted. -/
def eol : Regex := eps

end Regex

/-- The call `std::regex_match(s, std::regex(r))`: the whole of `s` is accepted by `r`. -/
def regex_match : Str → Regex → Bool
  | [], r => r.nullable
  | c :: cs, r => regex_match cs (r.deriv c)

open Regex in
/-- The pattern `\/\/.+$`. -/
def commentRx : Regex :=
  seq (chr '/') (seq (chr '/') (seq (plus (cls anyChar)) eol))

open Regex in
/-- The pattern `(\([a-zA-Z.:$_]+\)$|\([a-zA-Z.:$_][a-zA-Z0-9.:$_]+\)$)`. -/
def labelRx : Regex :=
  alt (seq (chr '(') (seq (plus (cls identStart)) (seq (chr ')') eol)))
      (seq (chr '(') (seq (cls identStart) (seq (plus (cls identChar)) (seq (chr ')') eol))))

open Regex in
/-- The pattern `(@[a-zA-Z.:$_]+$|@[a-zA-Z.:$_][a-zA-Z0-9.:$_]+$|@[0-9]+$)`. -/
def addressRx : Regex :=
  alt (seq (chr '@') (seq (plus (cls identStart)) eol))
    (alt (seq (chr '@') (seq (cls identStart) (seq (plus (cls identChar)) eol)))
         (seq (chr '@') (seq (plus (cls isdigit)) eol)))

open Regex in
/-- The pattern `.+=.+;.+`. -/
def destCompJumpRx : Regex :=
  seq (plus (cls anyChar)) (seq (chr '=') (seq (plus (cls anyChar))
    (seq (chr ';') (plus (cls anyChar)))))

open Regex in
/-- The pattern `.+=.+`. -/
def destCompRx : Regex :=
  seq (plus (cls anyChar)) (seq (chr '=') (plus (cls anyChar)))

open Regex in
/-- The pattern `.+;.+`. -/
def compJumpRx : Regex :=
  seq (plus (cls anyChar)) (seq (chr ';') (plus (cls anyChar)))

/-! ## String helpers -/

/-- The idiom `line.erase(std::remove_if(line.begin(), line.end(), isspace), line.end())`. -/
def Strip (line : Str) : Str :=
  line.filter (fun c => !isspace c)

/-- The call `str.substr(pos, len)` for `pos ≤ str.size()`. -/
def substr (str : Str) (pos len : Nat) : Str :=
  (str.drop pos).take len

/-- Search of `delim` in the text `rest` that starts at index `i` of the whole string. -/
def findAux (delim : Str) : Str → Nat → Option Nat
  | [], i => if delim.isEmpty then some i else Option.none
  | c :: cs, i => if delim.isPrefixOf (c :: cs) then some i else findAux delim cs (i + 1)

/-- The call `str.find(delim, pos)`; `Option.none` stands for `std::string::npos`. -/
def find (str delim : Str) (pos : Nat) : Option Nat :=
  if pos ≤ str.length then findAux delim (str.drop pos) pos else Option.none

/-- The `do ... while` loop of `Split_String`, with the loop variables `prev`
and `tokens`.  The first argument bounds the number of iterations; the loop
advances `prev` by at least `delim.length` per iteration, so that
`str.length + 1` iterations always suffice for a non-empty delimiter. -/
def Split_String.loop (str delim : Str) : Nat → Nat → List Str → List Str
  | 0, _, tokens => tokens
  | fuel + 1, prev, tokens =>
    let pos := (find str delim prev).getD str.length
    let token := substr str prev (pos - prev)
    let tokens := if token.isEmpty then tokens else tokens ++ [token]
    let prev := pos + delim.length
    if pos < str.length && prev < str.length then
      Split_String.loop str delim fuel prev tokens
    else tokens

/-- The function `Split_String(str, delim)`: the non-empty pieces of `str` between
occurrences of `delim`. -/
def Split_String (str delim : Str) : List Str :=
  Split_String.loop str delim (str.length + 1) 0 []

/-- The function `Is_String_Number`. -/
def Is_String_Number (str : Str) : Bool :=
  str.all isdigit

/-- Decimal value of a string of digits. -/
def decimalValue (str : Str) : Nat :=
  str.foldl (fun acc c => 10 * acc + (c.toNat - 48)) 0

/-- The assignment `number = std::atoi(symbol.c_str())` for a `symbol` made of
digits, as computed by glibc: `strtol` saturates at `LONG_MAX`, the result is
cut to `int` and converted to `unsigned`. -/
def atoi (symbol : Str) : Nat :=
  (min (decimalValue symbol) (2 ^ 63 - 1)) % 2 ^ 32

/-- The expression `std::bitset<15>(number).to_string()`: the 15 low bits of
`number`, most significant first. -/
def bitset15 (number : Nat) : Str :=
  (List.range 15).reverse.map (fun i => if number / 2 ^ i % 2 = 1 then '1' else '0')

/-- The expression `std::to_string(line_number)`. -/
def to_string (n : Nat) : Str :=
  (Nat.repr n).toList

/-! ## The static tables -/

/-- The table `DESTINATIONS`. -/
def DESTINATIONS : List (Str × Str) :=
  [ ("NULL".toList, "000".toList), ("M".toList, "001".toList), ("D".toList, "010".toList),
    ("MD".toList, "011".toList), ("A".toList, "100".toList), ("AM".toList, "101".toList),
    ("AD".toList, "110".toList), ("AMD".toList, "111".toList) ]

/-- The table `JUMPS`. -/
def JUMPS : List (Str × Str) :=
  [ ("NULL".toList, "000".toList), ("JGT".toList, "001".toList), ("JEQ".toList, "010".toList),
    ("JGE".toList, "011".toList), ("JLT".toList, "100".toList), ("JNE".toList, "101".toList),
    ("JLE".toList, "110".toList), ("JMP".toList, "111".toList) ]

/-- The table `COMPUTATIONS`. -/
def COMPUTATIONS : List (Str × Str) :=
  [ ("0".toList, "0101010".toList), ("1".toList, "0111111".toList),
    ("-1".toList, "0111010".toList), ("D".toList, "0001100".toList),
    ("A".toList, "0110000".toList), ("!D".toList, "0001101".toList),
    ("!A".toList, "0110001".toList), ("-D".toList, "0001111".toList),
    ("-A".toList, "0110011".toList), ("D+1".toList, "0011111".toList),
    ("A+1".toList, "0110111".toList), ("D-1".toList, "0001110".toList),
    ("A-1".toList, "0110010".toList), ("D+A".toList, "0000010".toList),
    ("D-A".toList, "0010011".toList), ("A-D".toList, "0000111".toList),
    ("D&A".toList, "0000000".toList), ("D|A".toList, "0010101".toList),
    ("M".toList, "1110000".toList), ("!M".toList, "1110001".toList),
    ("-M".toList, "1110011".toList), ("M+1".toList, "1110111".toList),
    ("M-1".toList, "1110010".toList), ("D+M".toList, "1000010".toList),
    ("D-M".toList, "1010011".toList), ("M-D".toList, "1000111".toList),
    ("D&M".toList, "1000000".toList), ("D|M".toList, "1010101".toList),
    ("M+D".toList, "1000010".toList) ]

/-- The initial contents of the table `SYMBOLS`. -/
def SYMBOLS : List (Str × Nat) :=
  [ ("R0".toList, 0), ("R1".toList, 1), ("R2".toList, 2), ("R3".toList, 3),
    ("R4".toList, 4), ("R5".toList, 5), ("R6".toList, 6), ("R7".toList, 7),
    ("R8".toList, 8), ("R9".toList, 9), ("R10".toList, 10), ("R11".toList, 11),
    ("R12".toList, 2), ("R13".toList, 13), ("R14".toList, 14), ("R15".toList, 15),
    ("THAT".toList, 4), ("THIS".toList, 3), ("SCREEN".toList, 16384),
    ("KBD".toList, 24576), ("SP".toList, 0), ("LCL".toList, 1), ("ARG".toList, 2) ]

/-- The expression `TABLE[key]` on one of the three mnemonic tables:
`std::map::operator[]` yields the stored code, and the empty string for a key
that is absent.  (It also records the absent key with that empty string; every
such miss is followed by the `throw` that ends the run, so the tables are kept
constant.) -/
def tableAt (table : List (Str × Str)) (key : Str) : Str :=
  (table.lookup key).getD []

/-! ## The mutable state -/

/-- The global variables `SYMBOLS`, `NEXT_SYMBOL_VALUE` and `BINARY`. -/
structure State where
  SYMBOLS : List (Str × Nat)
  NEXT_SYMBOL_VALUE : Nat
  BINARY : List Str
  deriving DecidableEq, Repr

/-- The state at program start. -/
def State.initial : State :=
  ⟨HackC.SYMBOLS, 16, []⟩

/-- Ways in which a pass stops early. -/
inductive Err where
  /-- The `throw` of `Compile_Hack_Code`, with its message. -/
  | SyntaxError (message : Str) : Err
  /-- Indexing `operator[]` of a `std::vector` at or past its size. -/
  | OutOfRange : Err
  /-- Incrementing the `int` line counter past `INT_MAX`. -/
  | IntOverflow : Err
  deriving DecidableEq, Repr

/-- The function `Add_New_Symbol(symbol, value)`; the C++ default argument is
`value = -1`.  A stored value is converted to `unsigned`. -/
def Add_New_Symbol (st : State) (symbol : Str) (value : Int) : State :=
  if (st.SYMBOLS.lookup symbol).isSome then st
  else if value > -1 then
    ⟨st.SYMBOLS ++ [(symbol, (value % 2 ^ 32).toNat)], st.NEXT_SYMBOL_VALUE, st.BINARY⟩
  else
    ⟨st.SYMBOLS ++ [(symbol, st.NEXT_SYMBOL_VALUE)], (st.NEXT_SYMBOL_VALUE + 1) % 2 ^ 32,
      st.BINARY⟩

/-- The string `"//"`. -/
def slashes : Str := ['/', '/']

/-- The loop of `Process_Labels`, with the loop variable `PC` (an `unsigned`). -/
def Process_Labels.loop : Nat → State → List Str → Except Err State
  | _, st, [] => .ok st
  | PC, st, line :: rest =>
    let line := Strip line
    if regex_match line commentRx || line.isEmpty then
      Process_Labels.loop PC st rest
    else
      match (Split_String line slashes)[0]? with
      | Option.none => .error Err.OutOfRange
      | some line =>
        if regex_match line labelRx then
          Process_Labels.loop PC
            (Add_New_Symbol st (substr line 1 (line.length - 2)) (PC : Int)) rest
        else
          Process_Labels.loop ((PC + 1) % 2 ^ 32) st rest

/-- The function `Process_Labels(hack_code)` (pass 1). -/
def Process_Labels (st : State) (hack_code : List Str) : Except Err State :=
  Process_Labels.loop 0 st hack_code

/-- The message `"Error on line: " + std::to_string(line_number) + " => " + fill_line`. -/
def errorMessage (line_number : Nat) (fill_line : Str) : Str :=
  "Error on line: ".toList ++ to_string line_number ++ " => ".toList ++ fill_line

/-- The three strings `destination`, `computation`, `jump` recovered from a
compute instruction; a string that the matching branch does not assign stays empty. -/
def parseCompute (line_number : Nat) (fill_line line : Str) : Except Err (Str × Str × Str) :=
  if regex_match line destCompJumpRx then
    match (Split_String line ['='])[0]?, (Split_String line ['='])[1]? with
    | some destination, some splits =>
      match (Split_String splits [';'])[0]?, (Split_String splits [';'])[1]? with
      | some computation, some jump => .ok (destination, computation, jump)
      | _, _ => .error Err.OutOfRange
    | _, _ => .error Err.OutOfRange
  else if regex_match line destCompRx then
    let splits := Split_String line ['=']
    match splits[0]?, splits[1]? with
    | some destination, some computation => .ok (destination, computation, [])
    | _, _ => .error Err.OutOfRange
  else if regex_match line compJumpRx then
    let splits := Split_String line [';']
    match splits[0]?, splits[1]? with
    | some computation, some jump => .ok ([], computation, jump)
    | _, _ => .error Err.OutOfRange
  else .error (Err.SyntaxError (errorMessage line_number fill_line))

/-- The end of the compute branch of `Compile_Hack_Code`: the three table
look-ups, the test for a missing mnemonic and the emission of the word. -/
def encodeCompute (line_number : Nat) (st : State) (fill_line : Str)
    (destination computation jump : Str) : Except Err State :=
  let destination_bin :=
    if destination.isEmpty then tableAt DESTINATIONS "NULL".toList
    else tableAt DESTINATIONS destination
  let computation_bin :=
    if computation.isEmpty then tableAt COMPUTATIONS "NULL".toList
    else tableAt COMPUTATIONS computation
  let jump_bin :=
    if jump.isEmpty then tableAt JUMPS "NULL".toList else tableAt JUMPS jump
  if destination_bin.isEmpty || computation_bin.isEmpty || jump_bin.isEmpty then
    .error (Err.SyntaxError (errorMessage line_number fill_line))
  else
    .ok ⟨st.SYMBOLS, st.NEXT_SYMBOL_VALUE,
      st.BINARY ++ ["111".toList ++ computation_bin ++ destination_bin ++ jump_bin]⟩

/-- The body of the loop of `Compile_Hack_Code` for one source line, up to but
not including the statement `line_number += 1` that ends each of its
non-throwing paths. -/
def Compile_Line (line_number : Nat) (st : State) (fill_line : Str) : Except Err State :=
  let line := Strip fill_line
  if regex_match line commentRx || line.isEmpty || regex_match line labelRx then
    .ok st
  else
    match (Split_String line slashes)[0]? with
    | Option.none => .error Err.OutOfRange
    | some line =>
      if regex_match line addressRx then
        let symbol := substr line 1 line.length
        if Is_String_Number symbol then
          .ok ⟨st.SYMBOLS, st.NEXT_SYMBOL_VALUE, st.BINARY ++ ['0' :: bitset15 (atoi symbol)]⟩
        else
          let st := Add_New_Symbol st symbol (-1)
          let number := (st.SYMBOLS.lookup symbol).getD 0
          .ok ⟨st.SYMBOLS, st.NEXT_SYMBOL_VALUE, st.BINARY ++ ['0' :: bitset15 number]⟩
      else
        match parseCompute line_number fill_line line with
        | .error e => .error e
        | .ok (destination, computation, jump) =>
          encodeCompute line_number st fill_line destination computation jump

/-- The largest value of the type `int`. -/
def INT_MAX : Nat := 2147483647

/-- The loop of `Compile_Hack_Code`, with the loop variable `line_number`.  The
result is the state reached (the globals keep what was written before a
failure) and the error that stopped the loop, if any.  After a line that does
not throw, the statement `line_number += 1` is executed; at `INT_MAX` it
overflows the `int` counter, which C++ leaves undefined, and the run ends with
`Err.IntOverflow`. -/
def Compile_Hack_Code.loop : Nat → State → List Str → State × Option Err
  | _, st, [] => (st, Option.none)
  | line_number, st, line :: rest =>
    match Compile_Line line_number st line with
    | .error e => (st, some e)
    | .ok st =>
      if line_number < INT_MAX then Compile_Hack_Code.loop (line_number + 1) st rest
      else (st, some Err.IntOverflow)

/-- The function `Compile_Hack_Code(hack_code)` (pass 2). -/
def Compile_Hack_Code (st : State) (hack_code : List Str) : State × Option Err :=
  Compile_Hack_Code.loop 1 st hack_code

/-- The two calls `Process_Labels(hack_code); Compile_Hack_Code(hack_code);` of `main`.
Pass 1 works on a copy of the lines, so pass 2 sees the original lines. -/
def mainPasses (st : State) (hack_code : List Str) : State × Option Err :=
  match Process_Labels st hack_code with
  | .error e => (st, some e)
  | .ok st1 => Compile_Hack_Code st1 hack_code

/-- The expression `Split_String(hack_file, ".")[0] + ".hack"` of `main`: the path of
the output file. -/
def outputPath (hack_file : Str) : Except Err Str :=
  match (Split_String hack_file ['.'])[0]? with
  | Option.none => .error Err.OutOfRange
  | some base => .ok (base ++ ".hack".toList)

/-! ## Specification-side notions -/

/-- The text of a stripped line in front of its trailing comment: everything
before the first occurrence of `//`. -/
def beforeComment : Str → Str
  | [] => []
  | c :: cs => if slashes.isPrefixOf (c :: cs) then [] else c :: beforeComment cs

/-- A mnemonic as it can stand in a stripped compute instruction: non-empty,
without white space and without any of the characters `=`, `;`, `/`. -/
def plainToken (t : Str) : Bool :=
  !t.isEmpty && t.all (fun ch => !isspace ch && ch != '=' && ch != ';' && ch != '/')

/-- A stripped line is a comment when it begins with `//`. -/
def isComment (s : Str) : Bool :=
  slashes.isPrefixOf s

/-- A stripped line is a label definition when it has the form `(name)`, as
recognised by the label pattern. -/
def isLabelDefinition (s : Str) : Bool :=
  regex_match s labelRx

/-- A real instruction: a source line whose stripped content is non-empty, is not a
comment and is not a label definition. -/
def realInstruction (raw : Str) : Bool :=
  !(Strip raw).isEmpty && !isComment (Strip raw) && !isLabelDefinition (Strip raw)

/-- The number of real instructions among the given lines. -/
def realCount (lines : List Str) : Nat :=
  lines.countP realInstruction

/-- The target `t` of an address instruction `@t`: the line, without white space
and trailing comment, matches the address pattern. -/
def addressTarget (raw : Str) : Option Str :=
  if regex_match (beforeComment (Strip raw)) addressRx then
    some ((beforeComment (Strip raw)).drop 1)
  else Option.none

/-- The identifier referenced by an address instruction, if the line is an address
instruction whose target is not a number. -/
def referencedIdentifier (raw : Str) : Option Str :=
  (addressTarget raw).filter (fun t => !Is_String_Number t)

/-- The distinct identifiers referenced by address instructions of the program that
are not among the `known` names, in the order of their first reference. -/
def newVariables : List Str → List Str → List Str
  | _, [] => []
  | known, raw :: rest =>
    match referencedIdentifier raw with
    | some x =>
      if x ∈ known then newVariables known rest else x :: newVariables (known ++ [x]) rest
    | Option.none => newVariables known rest

/-- A valid identifier: non-empty, made only of letters, digits, `.`, `:`, `$`, `_`,
and not starting with a digit. -/
def validIdentifier (s : Str) : Bool :=
  !s.isEmpty && s.all identChar &&
    !(match s with
      | c :: _ => isdigit c
      | [] => false)

/-- The kinds of source line that the passes tell apart; `Fault` is the line on
which `Split_String(line, "//")` has no element `[0]`. -/
inductive LineClass where
  | Skip : LineClass
  | LabelDef : LineClass
  | Real : LineClass
  | Fault : LineClass
  deriving DecidableEq, Repr

/-- The branch that the loop body of `Process_Labels` takes on a line. -/
def pass1Class (raw : Str) : LineClass :=
  if regex_match (Strip raw) commentRx || (Strip raw).isEmpty then LineClass.Skip
  else
    match (Split_String (Strip raw) slashes)[0]? with
    | Option.none => LineClass.Fault
    | some line => if regex_match line labelRx then LineClass.LabelDef else LineClass.Real

/-- The branch that the loop body of `Compile_Hack_Code` takes on a line; the three
tests of its first condition are evaluated in their order. -/
def pass2Class (raw : Str) : LineClass :=
  if regex_match (Strip raw) commentRx || (Strip raw).isEmpty then LineClass.Skip
  else if regex_match (Strip raw) labelRx then LineClass.LabelDef
  else
    match (Split_String (Strip raw) slashes)[0]? with
    | Option.none => LineClass.Fault
    | some _ => LineClass.Real

/-- Whether the loop body of `Compile_Hack_Code` takes its address-instruction branch. -/
def isAddressInstruction (raw : Str) : Bool :=
  if regex_match (Strip raw) commentRx || (Strip raw).isEmpty ||
      regex_match (Strip raw) labelRx then false
  else
    match (Split_String (Strip raw) slashes)[0]? with
    | Option.none => false
    | some line => regex_match line addressRx

/-- Two runs end alike: both complete, or both stop with the same kind of error; two
syntax errors name the same line number and quote lines that are equal once white
space is removed. -/
def sameFailure : Option Err → Option Err → Prop
  | Option.none, Option.none => True
  | some (Err.SyntaxError m1), some (Err.SyntaxError m2) =>
    ∃ k l1 l2, m1 = errorMessage k l1 ∧ m2 = errorMessage k l2 ∧ Strip l1 = Strip l2
  | some Err.OutOfRange, some Err.OutOfRange => True
  | some Err.IntOverflow, some Err.IntOverflow => True
  | _, _ => False

/-- The result of a line with the quoted line of a syntax error replaced. -/
def relabel {α : Type} (n : Nat) (fill : Str) : Except Err α → Except Err α
  | .error (Err.SyntaxError _) => .error (Err.SyntaxError (errorMessage n fill))
  | r => r

/-- The bindings that give consecutive values, from `start` on, to the given names. -/
def allocated : Nat → List Str → List (Str × Nat)
  | _, [] => []
  | start, x :: rest => (x, start) :: allocated (start + 1) rest

/-- The name inside a label definition `(name)`. -/
def labelName (s : Str) : Str :=
  (s.drop 1).dropLast

/-- A binary word: exactly 16 characters, each `0` or `1`. -/
def wellFormedWord (w : Str) : Prop :=
  w.length = 16 ∧ ∀ ch ∈ w, ch = '0' ∨ ch = '1'

/-- The number written by a string of binary digits, most significant first. -/
def bitsValue (w : Str) : Nat :=
  w.foldl (fun acc ch => 2 * acc + (if ch = '1' then 1 else 0)) 0

/-- The language of a regular expression: `Matches r s` says that the whole of `s`
is a word of `r`. -/
inductive Matches : Regex → Str → Prop
  | eps : Matches Regex.eps []
  | cls {p : Char → Bool} {c : Char} : p c = true → Matches (Regex.cls p) [c]
  | seq {a b : Regex} {u v : Str} :
      Matches a u → Matches b v → Matches (Regex.seq a b) (u ++ v)
  | altL {a b : Regex} {u : Str} : Matches a u → Matches (Regex.alt a b) u
  | altR {a b : Regex} {u : Str} : Matches b u → Matches (Regex.alt a b) u
  | starNil {a : Regex} : Matches (Regex.star a) []
  | starCons {a : Regex} {u v : Str} :
      Matches a u → Matches (Regex.star a) v → Matches (Regex.star a) (u ++ v)
  | plus {a : Regex} {u v : Str} :
      Matches a u → Matches (Regex.star a) v → Matches (Regex.plus a) (u ++ v)

end HackC

namespace HackC

/-! ## Correctness of the matcher -/

theorem Matches.nil_iff_nullable (r : Regex) : Matches r [] ↔ r.nullable = true := by
  induction r with
  | none => exact ⟨fun h => (by cases h), fun h => (by simp [Regex.nullable] at h)⟩
  | eps => exact ⟨fun _ => rfl, fun _ => Matches.eps⟩
  | cls p => exact ⟨fun h => (by cases h), fun h => (by simp [Regex.nullable] at h)⟩
  | seq a b iha ihb =>
    constructor
    · intro h
      generalize hs : ([] : Str) = s at h
      cases h with
      | seq ha hb =>
        obtain ⟨hu, hv⟩ := List.append_eq_nil.mp hs.symm
        subst hu; subst hv
        simp [Regex.nullable, iha.mp ha, ihb.mp hb]
    · intro h
      simp only [Regex.nullable, Bool.and_eq_true] at h
      exact Matches.seq (u := []) (v := []) (iha.mpr h.1) (ihb.mpr h.2)
  | alt a b iha ihb =>
    constructor
    · intro h
      cases h with
      | altL ha => simp [Regex.nullable, iha.mp ha]
      | altR hb => simp [Regex.nullable, ihb.mp hb]
    · intro h
      simp only [Regex.nullable, Bool.or_eq_true] at h
      rcases h with h | h
      · exact Matches.altL (iha.mpr h)
      · exact Matches.altR (ihb.mpr h)
  | star a _ => exact ⟨fun _ => rfl, fun _ => Matches.starNil⟩
  | plus a iha =>
    constructor
    · intro h
      generalize hs : ([] : Str) = s at h
      cases h with
      | plus ha hb =>
        obtain ⟨hu, _⟩ := List.append_eq_nil.mp hs.symm
        subst hu
        simpa [Regex.nullable] using iha.mp ha
    · intro h
      exact Matches.plus (u := []) (v := []) (iha.mpr (by simpa [Regex.nullable] using h))
        Matches.starNil

theorem Matches.of_deriv (r : Regex) (c : Char) (s : Str) :
    Matches (r.deriv c) s → Matches r (c :: s) := by
  induction r generalizing s with
  | none => intro h; cases h
  | eps => intro h; cases h
  | cls p =>
    intro h
    by_cases hp : p c = true
    · simp only [Regex.deriv, hp, if_true] at h
      cases h
      exact Matches.cls hp
    · simp only [Regex.deriv, hp] at h
      cases h
  | seq a b iha ihb =>
    intro h
    by_cases hn : a.nullable = true
    · simp only [Regex.deriv, hn, if_true] at h
      cases h with
      | altL h1 =>
        cases h1 with
        | seq ha hb => exact Matches.seq (iha _ ha) hb
      | altR h2 =>
        exact Matches.seq (u := []) ((Matches.nil_iff_nullable a).mpr hn) (ihb _ h2)
    · simp only [Regex.deriv, hn] at h
      cases h with
      | seq ha hb => exact Matches.seq (iha _ ha) hb
  | alt a b iha ihb =>
    intro h
    cases h with
    | altL h1 => exact Matches.altL (iha _ h1)
    | altR h2 => exact Matches.altR (ihb _ h2)
  | star a iha =>
    intro h
    cases h with
    | seq ha hb => exact Matches.starCons (iha _ ha) hb
  | plus a iha =>
    intro h
    cases h with
    | seq ha hb => exact Matches.plus (iha _ ha) hb

theorem Matches.deriv_of {r : Regex} {t : Str} (h : Matches r t) :
    ∀ (c : Char) (s : Str), t = c :: s → Matches (r.deriv c) s := by
  induction h with
  | eps => intro c s hs; cases hs
  | cls hp =>
    intro c s hs
    cases hs
    simp only [Regex.deriv, hp, if_true]
    exact Matches.eps
  | @seq a b u v ha hb iha ihb =>
    intro c s hs
    cases u with
    | nil =>
      have hn : a.nullable = true := (Matches.nil_iff_nullable a).mp ha
      simp only [Regex.deriv, hn, if_true]
      exact Matches.altR (ihb c s hs)
    | cons x u =>
      cases hs
      by_cases hn : a.nullable = true
      · simp only [Regex.deriv, hn, if_true]
        exact Matches.altL (Matches.seq (iha _ _ rfl) hb)
      · simp only [Regex.deriv, hn]
        exact Matches.seq (iha _ _ rfl) hb
  | altL _ ih => intro c s hs; exact Matches.altL (ih c s hs)
  | altR _ ih => intro c s hs; exact Matches.altR (ih c s hs)
  | starNil => intro c s hs; cases hs
  | @starCons a u v ha hb iha ihb =>
    intro c s hs
    cases u with
    | nil => exact ihb c s hs
    | cons x u =>
      cases hs
      exact Matches.seq (iha _ _ rfl) hb
  | @plus a u v ha hb iha ihb =>
    intro c s hs
    cases u with
    | nil =>
      have := ihb c s hs
      simpa [Regex.deriv] using this
    | cons x u =>
      cases hs
      exact Matches.seq (iha _ _ rfl) hb

/-- The derivative-based matcher decides membership in the language. -/
theorem regex_match_iff (s : Str) (r : Regex) : regex_match s r = true ↔ Matches r s := by
  induction s generalizing r with
  | nil => exact (Matches.nil_iff_nullable r).symm
  | cons c s ih =>
    simp only [regex_match]
    rw [ih]
    exact ⟨Matches.of_deriv r c s, fun h => h.deriv_of c s rfl⟩

end HackC

namespace HackC

/-! ## Languages of the patterns of the program -/

theorem Matches.star_cls_iff (p : Char → Bool) (s : Str) :
    Matches (Regex.star (Regex.cls p)) s ↔ ∀ c ∈ s, p c = true := by
  constructor
  · intro h
    generalize hr : Regex.star (Regex.cls p) = r at h
    induction h with
    | eps => cases hr
    | cls _ => cases hr
    | seq _ _ _ _ => cases hr
    | altL _ _ => cases hr
    | altR _ _ => cases hr
    | starNil => simp
    | starCons ha _ _ ihb =>
      cases hr
      cases ha with
      | cls hp =>
        intro c hc
        rcases List.mem_cons.mp hc with rfl | hc
        · exact hp
        · exact ihb rfl c hc
    | plus _ _ _ _ => cases hr
  · intro h
    induction s with
    | nil => exact Matches.starNil
    | cons c s ih =>
      exact Matches.starCons (u := [c]) (Matches.cls (h c (List.mem_cons_self _ _)))
        (ih (fun x hx => h x (List.mem_cons_of_mem _ hx)))

theorem Matches.plus_cls_iff (p : Char → Bool) (s : Str) :
    Matches (Regex.plus (Regex.cls p)) s ↔ s ≠ [] ∧ ∀ c ∈ s, p c = true := by
  constructor
  · intro h
    cases h with
    | plus ha hb =>
      cases ha with
      | cls hp =>
        refine ⟨by simp, ?_⟩
        intro c hc
        rcases List.mem_cons.mp hc with rfl | hc
        · exact hp
        · exact (Matches.star_cls_iff p _).mp hb c hc
  · rintro ⟨hne, h⟩
    cases s with
    | nil => exact absurd rfl hne
    | cons c s =>
      exact Matches.plus (u := [c]) (Matches.cls (h c (List.mem_cons_self _ _)))
        ((Matches.star_cls_iff p s).mpr (fun x hx => h x (List.mem_cons_of_mem _ hx)))

theorem Matches.seq_iff (a b : Regex) (s : Str) :
    Matches (Regex.seq a b) s ↔ ∃ u v, s = u ++ v ∧ Matches a u ∧ Matches b v := by
  constructor
  · intro h
    cases h with
    | seq ha hb => exact ⟨_, _, rfl, ha, hb⟩
  · rintro ⟨u, v, rfl, ha, hb⟩
    exact Matches.seq ha hb

theorem Matches.alt_iff (a b : Regex) (s : Str) :
    Matches (Regex.alt a b) s ↔ Matches a s ∨ Matches b s := by
  constructor
  · intro h
    cases h with
    | altL ha => exact Or.inl ha
    | altR hb => exact Or.inr hb
  · rintro (h | h)
    · exact Matches.altL h
    · exact Matches.altR h

theorem Matches.cls_iff (p : Char → Bool) (s : Str) :
    Matches (Regex.cls p) s ↔ ∃ c, s = [c] ∧ p c = true := by
  constructor
  · intro h
    cases h with
    | cls hp => exact ⟨_, rfl, hp⟩
  · rintro ⟨c, rfl, hp⟩
    exact Matches.cls hp

theorem Matches.eps_iff (s : Str) : Matches Regex.eps s ↔ s = [] := by
  constructor
  · intro h
    cases h
    rfl
  · rintro rfl
    exact Matches.eps

/-- A literal character followed by `r`. -/
theorem Matches.chr_seq_iff (c : Char) (r : Regex) (s : Str) :
    Matches (Regex.seq (Regex.chr c) r) s ↔ ∃ t, s = c :: t ∧ Matches r t := by
  rw [Matches.seq_iff]
  constructor
  · rintro ⟨u, v, rfl, hu, hv⟩
    obtain ⟨x, rfl, hx⟩ := (Matches.cls_iff _ _).mp hu
    have : x = c := by simpa using hx
    subst this
    exact ⟨v, rfl, hv⟩
  · rintro ⟨t, rfl, ht⟩
    exact ⟨[c], t, rfl, (Matches.cls_iff _ _).mpr ⟨c, rfl, by simp⟩, ht⟩

theorem Matches.plus_cls_seq_iff (p : Char → Bool) (r : Regex) (s : Str) :
    Matches (Regex.seq (Regex.plus (Regex.cls p)) r) s ↔
      ∃ u v, s = u ++ v ∧ (u ≠ [] ∧ ∀ c ∈ u, p c = true) ∧ Matches r v := by
  rw [Matches.seq_iff]
  simp only [Matches.plus_cls_iff]

theorem Matches.cls_seq_iff (p : Char → Bool) (r : Regex) (s : Str) :
    Matches (Regex.seq (Regex.cls p) r) s ↔ ∃ c t, s = c :: t ∧ p c = true ∧ Matches r t := by
  rw [Matches.seq_iff]
  constructor
  · rintro ⟨u, v, rfl, hu, hv⟩
    obtain ⟨x, rfl, hx⟩ := (Matches.cls_iff _ _).mp hu
    exact ⟨x, v, rfl, hx, hv⟩
  · rintro ⟨c, t, rfl, hc, ht⟩
    exact ⟨[c], t, rfl, (Matches.cls_iff _ _).mpr ⟨c, rfl, hc⟩, ht⟩

/-- The comment pattern accepts exactly `//` followed by one or more characters
other than line terminators. -/
theorem commentRx_iff (s : Str) :
    regex_match s commentRx = true ↔
      ∃ t, s = '/' :: '/' :: t ∧ t ≠ [] ∧ ∀ c ∈ t, anyChar c = true := by
  rw [regex_match_iff, commentRx, Matches.chr_seq_iff]
  simp only [Matches.chr_seq_iff, Matches.plus_cls_seq_iff, Regex.eol, Matches.eps_iff]
  constructor
  · rintro ⟨t, rfl, t2, rfl, u, v, rfl, ⟨hne, hall⟩, rfl⟩
    exact ⟨u, by simp, hne, hall⟩
  · rintro ⟨t, rfl, hne, hall⟩
    exact ⟨_, rfl, _, rfl, t, [], by simp, ⟨hne, hall⟩, rfl⟩

/-- The label pattern accepts exactly `(`, an identifier, `)`. -/
theorem labelRx_iff (s : Str) :
    regex_match s labelRx = true ↔
      ∃ c t, s = '(' :: c :: (t ++ [')']) ∧ identStart c = true ∧
        ∀ x ∈ t, identChar x = true := by
  have hsub : ∀ x, identStart x = true → identChar x = true := by
    intro x hx
    simp only [identStart, identChar, Bool.or_eq_true] at hx ⊢
    tauto
  rw [regex_match_iff, labelRx, Matches.alt_iff]
  simp only [Matches.chr_seq_iff, Matches.plus_cls_seq_iff, Matches.cls_seq_iff, Regex.eol,
    Matches.eps_iff]
  constructor
  · rintro (⟨t, rfl, u, v, rfl, ⟨hne, hall⟩, w, rfl, rfl⟩ |
      ⟨t, rfl, c, v, rfl, hc, u2, v2, rfl, ⟨hne, hall⟩, w, rfl, rfl⟩)
    · cases u with
      | nil => exact absurd rfl hne
      | cons c u =>
        exact ⟨c, u, by simp, hall c (List.mem_cons_self _ _),
          fun x hx => hsub x (hall x (List.mem_cons_of_mem _ hx))⟩
    · exact ⟨c, u2, by simp, hc, hall⟩
  · rintro ⟨c, t, rfl, hc, hall⟩
    cases t with
    | nil =>
      left
      exact ⟨_, rfl, [c], [')'], by simp, ⟨by simp, by simpa using hc⟩, [], rfl, rfl⟩
    | cons d t =>
      right
      exact ⟨_, rfl, c, d :: t ++ [')'], by simp, hc, d :: t, [')'], by simp,
        ⟨by simp, hall⟩, [], rfl, rfl⟩

/-- The address pattern accepts exactly `@` followed by an identifier or by one
or more digits. -/
theorem addressRx_iff (s : Str) :
    regex_match s addressRx = true ↔
      ∃ t, s = '@' :: t ∧
        ((∃ c u, t = c :: u ∧ identStart c = true ∧ ∀ x ∈ u, identChar x = true) ∨
         (t ≠ [] ∧ ∀ x ∈ t, isdigit x = true)) := by
  have hsub : ∀ x, identStart x = true → identChar x = true := by
    intro x hx
    simp only [identStart, identChar, Bool.or_eq_true] at hx ⊢
    tauto
  rw [regex_match_iff, addressRx, Matches.alt_iff, Matches.alt_iff]
  simp only [Matches.chr_seq_iff, Matches.plus_cls_seq_iff, Matches.cls_seq_iff, Regex.eol,
    Matches.eps_iff]
  constructor
  · rintro (⟨t, rfl, u, v, rfl, ⟨hne, hall⟩, rfl⟩ |
      ⟨t, rfl, c, v, rfl, hc, u2, v2, rfl, ⟨hne, hall⟩, rfl⟩ |
      ⟨t, rfl, u, v, rfl, ⟨hne, hall⟩, rfl⟩)
    · cases u with
      | nil => exact absurd rfl hne
      | cons c u =>
        exact ⟨_, rfl, Or.inl ⟨c, u, by simp, hall c (List.mem_cons_self _ _),
          fun x hx => hsub x (hall x (List.mem_cons_of_mem _ hx))⟩⟩
    · exact ⟨_, rfl, Or.inl ⟨c, u2, by simp, hc, hall⟩⟩
    · exact ⟨_, rfl, Or.inr ⟨by simpa using hne, by simpa using hall⟩⟩
  · rintro ⟨t, rfl, (⟨c, u, rfl, hc, hall⟩ | ⟨hne, hall⟩)⟩
    · cases u with
      | nil =>
        left
        exact ⟨_, rfl, [c], [], by simp, ⟨by simp, by simpa using hc⟩, rfl⟩
      | cons d u =>
        right; left
        exact ⟨_, rfl, c, d :: u, by simp, hc, d :: u, [], by simp,
          ⟨by simp, hall⟩, rfl⟩
    · right; right
      exact ⟨_, rfl, t, [], by simp, ⟨hne, hall⟩, rfl⟩

end HackC

namespace HackC

/-- The pattern `.+=.+;.+` accepts exactly the strings `a=b;c` with non-empty parts. -/
theorem destCompJumpRx_iff (s : Str) :
    regex_match s destCompJumpRx = true ↔
      ∃ a b c, s = a ++ '=' :: (b ++ ';' :: c) ∧
        (a ≠ [] ∧ ∀ x ∈ a, anyChar x = true) ∧ (b ≠ [] ∧ ∀ x ∈ b, anyChar x = true) ∧
        (c ≠ [] ∧ ∀ x ∈ c, anyChar x = true) := by
  rw [regex_match_iff, destCompJumpRx]
  simp only [Matches.chr_seq_iff, Matches.plus_cls_seq_iff, Matches.plus_cls_iff]
  constructor
  · rintro ⟨a, v, rfl, ha, t, rfl, b, w, rfl, hb, c, rfl, hc⟩
    exact ⟨a, b, c, rfl, ha, hb, hc⟩
  · rintro ⟨a, b, c, rfl, ha, hb, hc⟩
    exact ⟨a, _, rfl, ha, _, rfl, b, _, rfl, hb, c, rfl, hc⟩

/-- The pattern `.+=.+` accepts exactly the strings `a=b` with non-empty parts. -/
theorem destCompRx_iff (s : Str) :
    regex_match s destCompRx = true ↔
      ∃ a b, s = a ++ '=' :: b ∧
        (a ≠ [] ∧ ∀ x ∈ a, anyChar x = true) ∧ (b ≠ [] ∧ ∀ x ∈ b, anyChar x = true) := by
  rw [regex_match_iff, destCompRx]
  simp only [Matches.chr_seq_iff, Matches.plus_cls_seq_iff, Matches.plus_cls_iff]
  constructor
  · rintro ⟨a, v, rfl, ha, b, rfl, hb⟩
    exact ⟨a, b, rfl, ha, hb⟩
  · rintro ⟨a, b, rfl, ha, hb⟩
    exact ⟨a, _, rfl, ha, b, rfl, hb⟩

/-- The pattern `.+;.+` accepts exactly the strings `a;b` with non-empty parts. -/
theorem compJumpRx_iff (s : Str) :
    regex_match s compJumpRx = true ↔
      ∃ a b, s = a ++ ';' :: b ∧
        (a ≠ [] ∧ ∀ x ∈ a, anyChar x = true) ∧ (b ≠ [] ∧ ∀ x ∈ b, anyChar x = true) := by
  rw [regex_match_iff, compJumpRx]
  simp only [Matches.chr_seq_iff, Matches.plus_cls_seq_iff, Matches.plus_cls_iff]
  constructor
  · rintro ⟨a, v, rfl, ha, b, rfl, hb⟩
    exact ⟨a, b, rfl, ha, hb⟩
  · rintro ⟨a, b, rfl, ha, hb⟩
    exact ⟨a, _, rfl, ha, b, rfl, hb⟩

theorem destCompJumpRx_false_of_not_mem_semi (s : Str) (h : ';' ∉ s) :
    regex_match s destCompJumpRx = false := by
  apply Bool.eq_false_iff.mpr
  intro hm
  obtain ⟨a, b, c, rfl, -⟩ := (destCompJumpRx_iff s).mp hm
  exact h (by simp)

theorem destCompJumpRx_false_of_not_mem_eq (s : Str) (h : '=' ∉ s) :
    regex_match s destCompJumpRx = false := by
  apply Bool.eq_false_iff.mpr
  intro hm
  obtain ⟨a, b, c, rfl, -⟩ := (destCompJumpRx_iff s).mp hm
  exact h (by simp)

theorem destCompRx_false_of_not_mem (s : Str) (h : '=' ∉ s) :
    regex_match s destCompRx = false := by
  apply Bool.eq_false_iff.mpr
  intro hm
  obtain ⟨a, b, rfl, -⟩ := (destCompRx_iff s).mp hm
  exact h (by simp)

theorem compJumpRx_false_of_not_mem (s : Str) (h : ';' ∉ s) :
    regex_match s compJumpRx = false := by
  apply Bool.eq_false_iff.mpr
  intro hm
  obtain ⟨a, b, rfl, -⟩ := (compJumpRx_iff s).mp hm
  exact h (by simp)

/-! ## `Split_String` -/

theorem findAux_single_none (x : Char) (a : Str) (i : Nat) (h : x ∉ a) :
    findAux [x] a i = Option.none := by
  induction a generalizing i with
  | nil => simp [findAux]
  | cons c a ih =>
    have hc : x ≠ c := fun e => h (by simp [e])
    have ha : x ∉ a := fun e => h (List.mem_cons_of_mem _ e)
    simp [findAux, List.isPrefixOf, hc, ih _ ha]

theorem findAux_single_some (x : Char) (a b : Str) (i : Nat) (h : x ∉ a) :
    findAux [x] (a ++ x :: b) i = some (i + a.length) := by
  induction a generalizing i with
  | nil => simp [findAux, List.isPrefixOf]
  | cons c a ih =>
    have hc : x ≠ c := fun e => h (by simp [e])
    have ha : x ∉ a := fun e => h (List.mem_cons_of_mem _ e)
    simp [findAux, List.isPrefixOf, hc, ih _ ha]
    omega

/-- The tokens gathered so far stay in front of the result. -/
theorem Split_String.loop_tokens (str delim : Str) (fuel prev : Nat) (tokens : List Str) :
    Split_String.loop str delim fuel prev tokens =
      tokens ++ Split_String.loop str delim fuel prev [] := by
  induction fuel generalizing prev tokens with
  | zero => simp [Split_String.loop]
  | succ n ih =>
    simp only [Split_String.loop]
    split
    · rw [ih]
      conv_rhs => rw [ih]
      split <;> simp
    · split <;> simp

/-- A string without the delimiter character is its own single token. -/
theorem Split_String_single_none (x : Char) (a : Str) (hne : a ≠ []) (h : x ∉ a) :
    Split_String a [x] = [a] := by
  cases a with
  | nil => exact absurd rfl hne
  | cons c a =>
    simp [Split_String, Split_String.loop, find, findAux_single_none x _ _ h, substr]

/-- Splitting `a ++ x :: b` at the character `x` that neither part contains. -/
theorem Split_String_single_two (x : Char) (a b : Str) (ha : a ≠ []) (hb : b ≠ [])
    (hxa : x ∉ a) (hxb : x ∉ b) :
    Split_String (a ++ x :: b) [x] = [a, b] := by
  have hlen : (a ++ x :: b).length + 1 = (a.length + b.length) + 1 + 1 := by
    simp; omega
  have hb0 : 0 < b.length := List.length_pos.mpr hb
  have hfind2 : find (a ++ x :: b) [x] (a.length + 1) = Option.none := by
    have : List.drop (a.length + 1) (a ++ x :: b) = b := by
      rw [List.drop_append_eq_append_drop]
      simp
    simp [find, this, findAux_single_none x _ _ hxb]
  rw [Split_String, hlen, Split_String.loop]
  have hfind1 : find (a ++ x :: b) [x] 0 = some a.length := by
    simp [find, findAux_single_some x a b 0 hxa]
  simp only [hfind1, Option.getD_some, substr, List.drop_zero, Nat.sub_zero,
    List.take_left, List.isEmpty_eq_true, ha, if_false, List.nil_append, List.length_singleton,
    List.length_append, List.length_cons, List.length_nil, Nat.zero_add]
  have h1 : (a.length < a.length + (b.length + 1) && a.length + 1 < a.length + (b.length + 1))
      = true := by
    simp; omega
  rw [h1, if_pos rfl, Split_String.loop]
  simp only [hfind2, Option.getD_none, List.length_append, List.length_cons]
  have hdrop : List.drop (a.length + 1) (a ++ x :: b) = b := by
    rw [List.drop_append_eq_append_drop]
    simp
  have htake : List.take (a.length + (b.length + 1) - (a.length + 1)) b = b := by
    apply List.take_of_length_le
    omega
  simp [substr, hdrop, htake, hb]

end HackC

namespace HackC

/-! ## Stripping and comment removal -/

theorem Strip_eq_self (l : Str) (h : ∀ c ∈ l, isspace c = false) : Strip l = l := by
  unfold Strip
  apply List.filter_eq_self.mpr
  intro c hc
  simp [h c hc]

theorem isspace_of_mem_Strip (l : Str) : ∀ c ∈ Strip l, isspace c = false := by
  intro c hc
  have := (List.mem_filter.mp hc).2
  simpa using this

theorem Strip_Strip (l : Str) : Strip (Strip l) = Strip l :=
  Strip_eq_self _ (isspace_of_mem_Strip l)

theorem anyChar_of_not_isspace (c : Char) (h : isspace c = false) : anyChar c = true := by
  simp only [isspace, anyChar, Bool.or_eq_false_iff, beq_eq_false_iff_ne, Bool.and_eq_false_iff,
    decide_eq_false_iff_not, Bool.not_eq_true', Bool.or_eq_false_iff] at *
  omega

theorem beforeComment_eq_self (s : Str) (h : '/' ∉ s) : beforeComment s = s := by
  induction s with
  | nil => rfl
  | cons c s ih =>
    have hc : '/' ≠ c := fun e => h (e ▸ List.mem_cons_self _ _)
    have hs : '/' ∉ s := fun e => h (List.mem_cons_of_mem _ e)
    simp [beforeComment, slashes, List.isPrefixOf, hc, ih hs]

theorem findAux_slashes (s : Str) (i : Nat) :
    (findAux slashes s i).getD (i + s.length) = i + (beforeComment s).length := by
  induction s generalizing i with
  | nil => simp [findAux, slashes, beforeComment]
  | cons c s ih =>
    by_cases hp : slashes.isPrefixOf (c :: s) = true
    · simp [findAux, beforeComment, hp]
    · simp only [findAux, beforeComment, hp, if_false, List.length_cons, Bool.false_eq_true]
      have := ih (i + 1)
      rw [show i + 1 + s.length = i + (s.length + 1) by omega] at this
      rw [this]
      omega

theorem beforeComment_take (s : Str) : s.take (beforeComment s).length = beforeComment s := by
  induction s with
  | nil => rfl
  | cons c s ih =>
    by_cases hp : slashes.isPrefixOf (c :: s) = true
    · simp [beforeComment, hp]
    · simp [beforeComment, hp, ih]

/-- The first token of `Split_String(line, "//")` is the text in front of the comment. -/
theorem Split_String_slashes_head (s : Str) (h : beforeComment s ≠ []) :
    (Split_String s slashes)[0]? = some (beforeComment s) := by
  have hpos : (find s slashes 0).getD s.length = (beforeComment s).length := by
    have := findAux_slashes s 0
    simpa [find] using this
  rw [Split_String, Split_String.loop]
  simp only [hpos, substr, List.drop_zero, Nat.sub_zero, beforeComment_take,
    List.isEmpty_eq_true, h, if_false, List.nil_append]
  split
  · rw [Split_String.loop_tokens]
    simp
  · rfl

/-- A stripped line that is just `//` has no token at all. -/
theorem Split_String_slashes_bare : Split_String slashes slashes = [] := by
  decide

theorem beforeComment_eq_nil_iff (s : Str) :
    beforeComment s = [] ↔ s = [] ∨ slashes.isPrefixOf s = true := by
  cases s with
  | nil => simp [beforeComment]
  | cons c s =>
    by_cases hp : slashes.isPrefixOf (c :: s) = true
    · simp [beforeComment, hp]
    · simp [beforeComment, hp]

theorem slashes_isPrefixOf_iff (s : Str) :
    slashes.isPrefixOf s = true ↔ ∃ t, s = '/' :: '/' :: t := by
  constructor
  · intro h
    match s, h with
    | [], h => simp [slashes, List.isPrefixOf] at h
    | [_], h => simp [slashes, List.isPrefixOf] at h
    | c :: d :: t, h =>
      simp only [slashes, List.isPrefixOf, Bool.and_eq_true, beq_iff_eq, Bool.and_true] at h
      exact ⟨t, by rw [← h.1, ← h.2]⟩
  · rintro ⟨t, rfl⟩
    simp [slashes, List.isPrefixOf]

end HackC

namespace HackC

/-! ## Compute instructions -/

theorem plainToken_iff (t : Str) :
    plainToken t = true ↔
      t ≠ [] ∧ (∀ ch ∈ t, isspace ch = false) ∧ '=' ∉ t ∧ ';' ∉ t ∧ '/' ∉ t := by
  simp only [plainToken, Bool.and_eq_true, Bool.not_eq_true', List.isEmpty_eq_false,
    List.all_eq_true, bne_iff_ne, ne_eq]
  constructor
  · rintro ⟨hne, h⟩
    exact ⟨hne, fun ch hc => (h ch hc).1.1.1, fun hm => (h _ hm).1.1.2 rfl,
      fun hm => (h _ hm).1.2 rfl, fun hm => (h _ hm).2 rfl⟩
  · rintro ⟨hne, hws, h1, h2, h3⟩
    refine ⟨hne, fun ch hc => ⟨⟨⟨hws ch hc, ?_⟩, ?_⟩, ?_⟩⟩
    · rintro rfl; exact h1 hc
    · rintro rfl; exact h2 hc
    · rintro rfl; exact h3 hc

theorem labelRx_false_of_mem (s : Str) (x : Char) (hx : x ∈ s) (h1 : x ≠ '(') (h2 : x ≠ ')')
    (h3 : identChar x = false) : regex_match s labelRx = false := by
  apply Bool.eq_false_iff.mpr
  intro hm
  obtain ⟨c, t, rfl, hc, ht⟩ := (labelRx_iff s).mp hm
  have hsub : identStart c = true → identChar c = true := by
    intro h
    simp only [identStart, identChar, Bool.or_eq_true] at h ⊢
    tauto
  simp only [List.mem_cons, List.mem_append, List.mem_singleton, List.not_mem_nil,
    or_false] at hx
  rcases hx with rfl | rfl | hx | rfl
  · exact h1 rfl
  · rw [hsub hc] at h3; cases h3
  · rw [ht x hx] at h3; cases h3
  · exact h2 rfl

theorem addressRx_false_of_mem (s : Str) (x : Char) (hx : x ∈ s) (h1 : x ≠ '@')
    (h3 : identChar x = false) : regex_match s addressRx = false := by
  apply Bool.eq_false_iff.mpr
  intro hm
  have hsub : ∀ c, identStart c = true → identChar c = true := by
    intro c h
    simp only [identStart, identChar, Bool.or_eq_true] at h ⊢
    tauto
  have hdig : ∀ c, isdigit c = true → identChar c = true := by
    intro c h
    simp only [identChar, Bool.or_eq_true] at h ⊢
    tauto
  obtain ⟨t, rfl, ht⟩ := (addressRx_iff s).mp hm
  rcases List.mem_cons.mp hx with rfl | hx
  · exact h1 rfl
  · rcases ht with ⟨c, u, rfl, hc, hu⟩ | ⟨_, hd⟩
    · rcases List.mem_cons.mp hx with rfl | hx
      · rw [hsub _ hc] at h3; cases h3
      · rw [hu x hx] at h3; cases h3
    · rw [hdig _ (hd x hx)] at h3; cases h3

theorem commentRx_false_of_not_mem (s : Str) (h : '/' ∉ s) : regex_match s commentRx = false := by
  apply Bool.eq_false_iff.mpr
  intro hm
  obtain ⟨t, rfl, -⟩ := (commentRx_iff s).mp hm
  exact h (by simp)

/-- A stripped line without `/` that holds `=` or `;` reaches the compute branch. -/
theorem Compile_Line_compute (n : Nat) (st : State) (line : Str)
    (hws : ∀ c ∈ line, isspace c = false) (hslash : '/' ∉ line)
    (hsep : '=' ∈ line ∨ ';' ∈ line) :
    Compile_Line n st line =
      match parseCompute n line line with
      | .error e => .error e
      | .ok (destination, computation, jump) =>
        encodeCompute n st line destination computation jump := by
  have hne : line ≠ [] := by
    rintro rfl
    simp at hsep
  have hlab : regex_match line labelRx = false := by
    rcases hsep with h | h
    · exact labelRx_false_of_mem line _ h (by decide) (by decide) (by decide)
    · exact labelRx_false_of_mem line _ h (by decide) (by decide) (by decide)
  have hadr : regex_match line addressRx = false := by
    rcases hsep with h | h
    · exact addressRx_false_of_mem line _ h (by decide) (by decide)
    · exact addressRx_false_of_mem line _ h (by decide) (by decide)
  have hsplit : (Split_String line slashes)[0]? = some line := by
    have := Split_String_slashes_head line (by rw [beforeComment_eq_self line hslash]; exact hne)
    rwa [beforeComment_eq_self line hslash] at this
  have hemp : line.isEmpty = false := by
    cases line with
    | nil => exact absurd rfl hne
    | cons _ _ => rfl
  unfold Compile_Line
  simp only [Strip_eq_self line hws, commentRx_false_of_not_mem line hslash, hlab, hemp,
    Bool.or_false, Bool.false_eq_true, if_false, hsplit, hadr]

theorem parseCompute_dest_comp_jump (n : Nat) (fill d c j : Str)
    (hd : plainToken d = true) (hc : plainToken c = true) (hj : plainToken j = true) :
    parseCompute n fill (d ++ '=' :: (c ++ ';' :: j)) = .ok (d, c, j) := by
  obtain ⟨hd0, hdw, hd1, hd2, -⟩ := (plainToken_iff d).mp hd
  obtain ⟨hc0, hcw, hc1, hc2, -⟩ := (plainToken_iff c).mp hc
  obtain ⟨hj0, hjw, hj1, hj2, -⟩ := (plainToken_iff j).mp hj
  have hm : regex_match (d ++ '=' :: (c ++ ';' :: j)) destCompJumpRx = true :=
    (destCompJumpRx_iff _).mpr ⟨d, c, j, rfl,
      ⟨hd0, fun x hx => anyChar_of_not_isspace x (hdw x hx)⟩,
      ⟨hc0, fun x hx => anyChar_of_not_isspace x (hcw x hx)⟩,
      ⟨hj0, fun x hx => anyChar_of_not_isspace x (hjw x hx)⟩⟩
  have hs1 : Split_String (d ++ '=' :: (c ++ ';' :: j)) ['='] = [d, c ++ ';' :: j] :=
    Split_String_single_two '=' d _ hd0 (by simp) hd1 (by simp [hc1, hj1])
  have hs2 : Split_String (c ++ ';' :: j) [';'] = [c, j] :=
    Split_String_single_two ';' c j hc0 hj0 hc2 hj2
  simp [parseCompute, hm, hs1, hs2]

theorem parseCompute_dest_comp (n : Nat) (fill d c : Str)
    (hd : plainToken d = true) (hc : plainToken c = true) :
    parseCompute n fill (d ++ '=' :: c) = .ok (d, c, []) := by
  obtain ⟨hd0, hdw, hd1, hd2, -⟩ := (plainToken_iff d).mp hd
  obtain ⟨hc0, hcw, hc1, hc2, -⟩ := (plainToken_iff c).mp hc
  have hm1 : regex_match (d ++ '=' :: c) destCompJumpRx = false :=
    destCompJumpRx_false_of_not_mem_semi _ (by simp [hd2, hc2])
  have hm : regex_match (d ++ '=' :: c) destCompRx = true :=
    (destCompRx_iff _).mpr ⟨d, c, rfl,
      ⟨hd0, fun x hx => anyChar_of_not_isspace x (hdw x hx)⟩,
      ⟨hc0, fun x hx => anyChar_of_not_isspace x (hcw x hx)⟩⟩
  have hs1 : Split_String (d ++ '=' :: c) ['='] = [d, c] :=
    Split_String_single_two '=' d c hd0 hc0 hd1 hc1
  simp [parseCompute, hm, hm1, hs1]

theorem parseCompute_comp_jump (n : Nat) (fill c j : Str)
    (hc : plainToken c = true) (hj : plainToken j = true) :
    parseCompute n fill (c ++ ';' :: j) = .ok ([], c, j) := by
  obtain ⟨hc0, hcw, hc1, hc2, -⟩ := (plainToken_iff c).mp hc
  obtain ⟨hj0, hjw, hj1, hj2, -⟩ := (plainToken_iff j).mp hj
  have hm1 : regex_match (c ++ ';' :: j) destCompJumpRx = false :=
    destCompJumpRx_false_of_not_mem_eq _ (by simp [hc1, hj1])
  have hm2 : regex_match (c ++ ';' :: j) destCompRx = false :=
    destCompRx_false_of_not_mem _ (by simp [hc1, hj1])
  have hm : regex_match (c ++ ';' :: j) compJumpRx = true :=
    (compJumpRx_iff _).mpr ⟨c, j, rfl,
      ⟨hc0, fun x hx => anyChar_of_not_isspace x (hcw x hx)⟩,
      ⟨hj0, fun x hx => anyChar_of_not_isspace x (hjw x hx)⟩⟩
  have hs1 : Split_String (c ++ ';' :: j) [';'] = [c, j] :=
    Split_String_single_two ';' c j hc0 hj0 hc2 hj2
  simp [parseCompute, hm, hm1, hm2, hs1]

end HackC

namespace HackC

theorem DESTINATIONS_entries :
    ∀ p ∈ DESTINATIONS, plainToken p.1 = true ∧ DESTINATIONS.lookup p.1 = some p.2 ∧
      p.2.isEmpty = false := by
  decide

theorem JUMPS_entries :
    ∀ p ∈ JUMPS, plainToken p.1 = true ∧ JUMPS.lookup p.1 = some p.2 ∧ p.2.isEmpty = false := by
  decide

theorem COMPUTATIONS_entries :
    ∀ p ∈ COMPUTATIONS, plainToken p.1 = true ∧ COMPUTATIONS.lookup p.1 = some p.2 ∧
      p.2.isEmpty = false := by
  decide

theorem plainToken_isEmpty (t : Str) (h : plainToken t = true) : t.isEmpty = false := by
  simp only [plainToken, Bool.and_eq_true, Bool.not_eq_true'] at h
  exact h.1

/-- The encoding step when all three mnemonics are present in their tables. -/
theorem encodeCompute_ok (n : Nat) (st : State) (fill d db c cb j jb : Str)
    (hd : (d, db) ∈ DESTINATIONS) (hc : (c, cb) ∈ COMPUTATIONS) (hj : (j, jb) ∈ JUMPS) :
    encodeCompute n st fill d c j =
      .ok ⟨st.SYMBOLS, st.NEXT_SYMBOL_VALUE, st.BINARY ++ ["111".toList ++ cb ++ db ++ jb]⟩ := by
  obtain ⟨hd1, hd2, hd3⟩ := DESTINATIONS_entries _ hd
  obtain ⟨hc1, hc2, hc3⟩ := COMPUTATIONS_entries _ hc
  obtain ⟨hj1, hj2, hj3⟩ := JUMPS_entries _ hj
  simp only at hd1 hd2 hd3 hc1 hc2 hc3 hj1 hj2 hj3
  simp only [encodeCompute, plainToken_isEmpty d hd1, plainToken_isEmpty c hc1,
    plainToken_isEmpty j hj1, tableAt, hd2, hc2, hj2, Option.getD_some, hd3, hc3, hj3,
    Bool.false_eq_true, if_false, Bool.or_false]

/-- Claim C1 (compute-instruction encoding).  For every entry `(d, db)` of `DESTINATIONS`,
`(c, cb)` of `COMPUTATIONS` and `(j, jb)` of `JUMPS`, in every state and at every line
number, the line `d=c;j` appends exactly the word `111 ++ cb ++ db ++ jb`, the line `d=c`
appends `111 ++ cb ++ db ++ 000`, and the line `c;j` appends `111 ++ cb ++ 000 ++ jb`;
nothing else of the state changes. -/
theorem compute_instruction_encoding (n : Nat) (st : State) (d db c cb j jb : Str)
    (hd : (d, db) ∈ DESTINATIONS) (hc : (c, cb) ∈ COMPUTATIONS) (hj : (j, jb) ∈ JUMPS) :
    Compile_Line n st (d ++ '=' :: (c ++ ';' :: j)) =
        .ok ⟨st.SYMBOLS, st.NEXT_SYMBOL_VALUE,
          st.BINARY ++ ["111".toList ++ cb ++ db ++ jb]⟩ ∧
    Compile_Line n st (d ++ '=' :: c) =
        .ok ⟨st.SYMBOLS, st.NEXT_SYMBOL_VALUE,
          st.BINARY ++ ["111".toList ++ cb ++ db ++ "000".toList]⟩ ∧
    Compile_Line n st (c ++ ';' :: j) =
        .ok ⟨st.SYMBOLS, st.NEXT_SYMBOL_VALUE,
          st.BINARY ++ ["111".toList ++ cb ++ "000".toList ++ jb]⟩ := by
  have hd1 := (DESTINATIONS_entries _ hd).1
  have hc1 := (COMPUTATIONS_entries _ hc).1
  have hj1 := (JUMPS_entries _ hj).1
  simp only at hd1 hc1 hj1
  obtain ⟨hd0, hdw, hde, hds, hdl⟩ := (plainToken_iff d).mp hd1
  obtain ⟨hc0, hcw, hce, hcs, hcl⟩ := (plainToken_iff c).mp hc1
  obtain ⟨hj0, hjw, hje, hjs, hjl⟩ := (plainToken_iff j).mp hj1
  refine ⟨?_, ?_, ?_⟩
  · rw [Compile_Line_compute n st _ ?_ ?_ (Or.inl (by simp)),
      parseCompute_dest_comp_jump n _ d c j hd1 hc1 hj1]
    · exact encodeCompute_ok n st _ d db c cb j jb hd hc hj
    · intro x hx
      simp only [List.mem_append, List.mem_cons] at hx
      rcases hx with hx | rfl | hx | rfl | hx
      · exact hdw x hx
      · decide
      · exact hcw x hx
      · decide
      · exact hjw x hx
    · simp [hdl, hcl, hjl]
  · rw [Compile_Line_compute n st _ ?_ ?_ (Or.inl (by simp)),
      parseCompute_dest_comp n _ d c hd1 hc1]
    · simp only [encodeCompute, plainToken_isEmpty d hd1, plainToken_isEmpty c hc1, tableAt,
        (DESTINATIONS_entries _ hd).2.1, (COMPUTATIONS_entries _ hc).2.1, Option.getD_some,
        (DESTINATIONS_entries _ hd).2.2, (COMPUTATIONS_entries _ hc).2.2,
        Bool.false_eq_true, if_false, Bool.or_false, List.isEmpty_nil, if_true]
      rfl
    · intro x hx
      simp only [List.mem_append, List.mem_cons] at hx
      rcases hx with hx | rfl | hx
      · exact hdw x hx
      · decide
      · exact hcw x hx
    · simp [hdl, hcl]
  · rw [Compile_Line_compute n st _ ?_ ?_ (Or.inr (by simp)),
      parseCompute_comp_jump n _ c j hc1 hj1]
    · simp only [encodeCompute, plainToken_isEmpty j hj1, plainToken_isEmpty c hc1, tableAt,
        (JUMPS_entries _ hj).2.1, (COMPUTATIONS_entries _ hc).2.1, Option.getD_some,
        (JUMPS_entries _ hj).2.2, (COMPUTATIONS_entries _ hc).2.2,
        Bool.false_eq_true, if_false, Bool.or_false, List.isEmpty_nil, if_true]
      rfl
    · intro x hx
      simp only [List.mem_append, List.mem_cons] at hx
      rcases hx with hx | rfl | hx
      · exact hcw x hx
      · decide
      · exact hjw x hx
    · simp [hcl, hjl]

/-- Witness for claim C1: `D=A` gives `1110110000010000` and `0;JMP` gives `1110101010000111`. -/
theorem compute_instruction_encoding_witness :
    Compile_Line 1 State.initial "D=A".toList =
        .ok ⟨SYMBOLS, 16, ["1110110000010000".toList]⟩ ∧
    Compile_Line 1 State.initial "0;JMP".toList =
        .ok ⟨SYMBOLS, 16, ["1110101010000111".toList]⟩ :=
  ⟨(compute_instruction_encoding 1 State.initial "D".toList "010".toList "A".toList
      "0110000".toList "JMP".toList "111".toList (by decide) (by decide) (by decide)).2.1,
   (compute_instruction_encoding 1 State.initial "D".toList "010".toList "0".toList
      "0101010".toList "JMP".toList "111".toList (by decide) (by decide) (by decide)).2.2⟩

end HackC

namespace HackC

/-- The encoding step when one of the mnemonics is absent from its table. -/
theorem encodeCompute_error (n : Nat) (st : State) (fill d c j : Str)
    (h : (d ≠ [] ∧ d ∉ DESTINATIONS.map Prod.fst) ∨ (c ≠ [] ∧ c ∉ COMPUTATIONS.map Prod.fst) ∨
      (j ≠ [] ∧ j ∉ JUMPS.map Prod.fst)) :
    encodeCompute n st fill d c j = .error (Err.SyntaxError (errorMessage n fill)) := by
  have key : ∀ (T : List (Str × Str)) (k : Str), k ≠ [] → k ∉ T.map Prod.fst →
      (if k.isEmpty then tableAt T "NULL".toList else tableAt T k).isEmpty = true := by
    intro T k hk hmem
    have hnone : T.lookup k = Option.none := by
      rw [List.lookup_eq_none_iff]
      intro p hp
      simp only [bne_iff_ne, ne_eq]
      rintro rfl
      exact hmem (List.mem_map_of_mem _ hp)
    have hke : k.isEmpty = false := by
      cases k with
      | nil => exact absurd rfl hk
      | cons _ _ => rfl
    simp [hke, tableAt, hnone]
  unfold encodeCompute
  rcases h with ⟨h1, h2⟩ | ⟨h1, h2⟩ | ⟨h1, h2⟩
  · simp only [key _ _ h1 h2, Bool.true_or, if_true]
  · simp only [key _ _ h1 h2, Bool.true_or, Bool.or_true, if_true]
  · simp only [key _ _ h1 h2, Bool.or_true, if_true]

theorem plainToken_line_isspace (l : Str) (x : Char) (r : Str)
    (hl : plainToken l = true) (hx : isspace x = false) (hr : ∀ ch ∈ r, isspace ch = false) :
    ∀ ch ∈ l ++ x :: r, isspace ch = false := by
  intro ch hch
  rcases List.mem_append.mp hch with h | h
  · exact ((plainToken_iff l).mp hl).2.1 ch h
  · rcases List.mem_cons.mp h with rfl | h
    · exact hx
    · exact hr ch h

/-- Claim C8 (unknown mnemonic).  Let `d`, `c`, `j` be non-empty strings without white
space and without `=`, `;`, `/`.  In every state, at every line number and whatever
lines follow: the line `d=c;j` with `d`, `c` or `j` absent from its table, the line
`d=c` with `d` or `c` absent, and the line `c;j` with `c` or `j` absent each stop
pass 2 with the `SyntaxError` of that line number and leave the state, hence the
output sequence, as it was. -/
theorem unknown_mnemonic_error (n : Nat) (st : State) (d c j : Str) (rest : List Str)
    (hd : plainToken d = true) (hc : plainToken c = true) (hj : plainToken j = true) :
    ((d ∉ DESTINATIONS.map Prod.fst ∨ c ∉ COMPUTATIONS.map Prod.fst ∨ j ∉ JUMPS.map Prod.fst) →
      Compile_Hack_Code.loop n st ((d ++ '=' :: (c ++ ';' :: j)) :: rest) =
        (st, some (Err.SyntaxError ("Error on line: ".toList ++ to_string n ++ " => ".toList ++
          (d ++ '=' :: (c ++ ';' :: j)))))) ∧
    ((d ∉ DESTINATIONS.map Prod.fst ∨ c ∉ COMPUTATIONS.map Prod.fst) →
      Compile_Hack_Code.loop n st ((d ++ '=' :: c) :: rest) =
        (st, some (Err.SyntaxError ("Error on line: ".toList ++ to_string n ++ " => ".toList ++
          (d ++ '=' :: c))))) ∧
    ((c ∉ COMPUTATIONS.map Prod.fst ∨ j ∉ JUMPS.map Prod.fst) →
      Compile_Hack_Code.loop n st ((c ++ ';' :: j) :: rest) =
        (st, some (Err.SyntaxError ("Error on line: ".toList ++ to_string n ++ " => ".toList ++
          (c ++ ';' :: j))))) := by
  obtain ⟨hd0, hdw, hde, hds, hdl⟩ := (plainToken_iff d).mp hd
  obtain ⟨hc0, hcw, hce, hcs, hcl⟩ := (plainToken_iff c).mp hc
  obtain ⟨hj0, hjw, hje, hjs, hjl⟩ := (plainToken_iff j).mp hj
  refine ⟨?_, ?_, ?_⟩
  · intro h
    have hline : Compile_Line n st (d ++ '=' :: (c ++ ';' :: j)) =
        .error (Err.SyntaxError (errorMessage n (d ++ '=' :: (c ++ ';' :: j)))) := by
      rw [Compile_Line_compute n st _
          (plainToken_line_isspace d _ _ hd (by decide)
            (plainToken_line_isspace c _ _ hc (by decide) hjw))
          (by simp [hdl, hcl, hjl]) (Or.inl (by simp)),
        parseCompute_dest_comp_jump n _ d c j hd hc hj]
      apply encodeCompute_error
      rcases h with h | h | h
      · exact Or.inl ⟨hd0, h⟩
      · exact Or.inr (Or.inl ⟨hc0, h⟩)
      · exact Or.inr (Or.inr ⟨hj0, h⟩)
    simp only [Compile_Hack_Code.loop, hline]
    rfl
  · intro h
    have hline : Compile_Line n st (d ++ '=' :: c) =
        .error (Err.SyntaxError (errorMessage n (d ++ '=' :: c))) := by
      rw [Compile_Line_compute n st _ (plainToken_line_isspace d _ _ hd (by decide) hcw)
          (by simp [hdl, hcl]) (Or.inl (by simp)),
        parseCompute_dest_comp n _ d c hd hc]
      apply encodeCompute_error
      rcases h with h | h
      · exact Or.inl ⟨hd0, h⟩
      · exact Or.inr (Or.inl ⟨hc0, h⟩)
    simp only [Compile_Hack_Code.loop, hline]
    rfl
  · intro h
    have hline : Compile_Line n st (c ++ ';' :: j) =
        .error (Err.SyntaxError (errorMessage n (c ++ ';' :: j))) := by
      rw [Compile_Line_compute n st _ (plainToken_line_isspace c _ _ hc (by decide) hjw)
          (by simp [hcl, hjl]) (Or.inr (by simp)),
        parseCompute_comp_jump n _ c j hc hj]
      apply encodeCompute_error
      rcases h with h | h
      · exact Or.inr (Or.inl ⟨hc0, h⟩)
      · exact Or.inr (Or.inr ⟨hj0, h⟩)
    simp only [Compile_Hack_Code.loop, hline]
    rfl

/-- Witness for claim C8: the line `X=A;JMP` as line 3, with the unknown destination `X`. -/
theorem unknown_mnemonic_error_witness :
    Compile_Hack_Code.loop 3 State.initial ["X=A;JMP".toList, "@1".toList] =
      (State.initial, some (Err.SyntaxError "Error on line: 3 => X=A;JMP".toList)) :=
  (unknown_mnemonic_error 3 State.initial "X".toList "A".toList "JMP".toList ["@1".toList]
    (by decide) (by decide) (by decide)).1 (Or.inl (by decide))

end HackC

namespace HackC

/-! ## The loop of pass 2 -/

/-- Running pass 2 over `pre ++ rest` when `pre` is processed without error. -/
theorem Compile_Hack_Code.loop_append (pre rest : List Str) (n : Nat) (st st' : State)
    (h : Compile_Hack_Code.loop n st pre = (st', Option.none)) :
    Compile_Hack_Code.loop n st (pre ++ rest) =
      Compile_Hack_Code.loop (n + pre.length) st' rest := by
  induction pre generalizing n st with
  | nil =>
    simp only [Compile_Hack_Code.loop, Prod.mk.injEq, and_true] at h
    subst h
    rfl
  | cons l pre ih =>
    simp only [Compile_Hack_Code.loop, List.cons_append] at h ⊢
    cases hl : Compile_Line n st l with
    | error e => simp [hl] at h
    | ok st1 =>
      simp only [hl] at h ⊢
      by_cases hn : n < INT_MAX
      · simp only [hn, if_true] at h ⊢
        have := ih _ _ h
        rw [show (l :: pre).length = pre.length + 1 from rfl,
          show n + (pre.length + 1) = n + 1 + pre.length by omega]
        exact this
      · simp [hn] at h

theorem labelRx_not_mem_slash (s : Str) (h : regex_match s labelRx = true) : '/' ∉ s := by
  intro hm
  have := labelRx_false_of_mem s '/' hm (by decide) (by decide) (by decide)
  rw [h] at this
  cases this

theorem commentRx_isPrefixOf (s : Str) (h : regex_match s commentRx = true) :
    slashes.isPrefixOf s = true := by
  obtain ⟨t, rfl, -⟩ := (commentRx_iff s).mp h
  simp [slashes, List.isPrefixOf]

/-- A line whose text in front of the comment is neither a label, nor an address
instruction, and holds neither `=` nor `;`, fails with the syntax error. -/
theorem Compile_Line_malformed (n : Nat) (st : State) (line : Str)
    (hne : beforeComment (Strip line) ≠ [])
    (hlab : regex_match (beforeComment (Strip line)) labelRx = false)
    (hadr : regex_match (beforeComment (Strip line)) addressRx = false)
    (heq : '=' ∉ beforeComment (Strip line)) (hsemi : ';' ∉ beforeComment (Strip line)) :
    Compile_Line n st line = .error (Err.SyntaxError (errorMessage n line)) := by
  have hnil : ¬ (Strip line = [] ∨ slashes.isPrefixOf (Strip line) = true) :=
    fun h => hne ((beforeComment_eq_nil_iff _).mpr h)
  have hemp : (Strip line).isEmpty = false := by
    cases hs : Strip line with
    | nil => exact absurd (Or.inl hs) hnil
    | cons _ _ => rfl
  have hcom : regex_match (Strip line) commentRx = false := by
    apply Bool.eq_false_iff.mpr
    intro h
    exact hnil (Or.inr (commentRx_isPrefixOf _ h))
  have hlab2 : regex_match (Strip line) labelRx = false := by
    apply Bool.eq_false_iff.mpr
    intro h
    rw [beforeComment_eq_self _ (labelRx_not_mem_slash _ h), h] at hlab
    cases hlab
  unfold Compile_Line
  simp only [hcom, hemp, hlab2, Bool.or_false, Bool.false_eq_true, if_false,
    Split_String_slashes_head _ hne, hadr, parseCompute,
    destCompJumpRx_false_of_not_mem_eq _ heq, destCompRx_false_of_not_mem _ heq,
    compJumpRx_false_of_not_mem _ hsemi]

/-- Claim C7 (malformed grammar).  If the lines `pre` (lines `1 .. k-1`) are processed by
pass 2 without error, and the text of the next line `line` (line `k`), after removal of
white space and of a trailing comment, is non-empty, is neither a label definition nor
an address instruction and holds neither `=` nor `;`, then pass 2 stops at that line with
the `SyntaxError` whose text is `Error on line: k => ` followed by the unstripped
`line`, where `k = pre.length + 1` counts every source line. -/
theorem malformed_grammar_error (st st' : State) (pre rest : List Str) (line : Str)
    (hpre : Compile_Hack_Code st pre = (st', Option.none))
    (hne : beforeComment (Strip line) ≠ [])
    (hlab : regex_match (beforeComment (Strip line)) labelRx = false)
    (hadr : regex_match (beforeComment (Strip line)) addressRx = false)
    (heq : '=' ∉ beforeComment (Strip line)) (hsemi : ';' ∉ beforeComment (Strip line)) :
    Compile_Hack_Code st (pre ++ line :: rest) =
      (st', some (Err.SyntaxError
        ("Error on line: ".toList ++ (Nat.repr (pre.length + 1)).toList ++ " => ".toList ++
          line))) := by
  unfold Compile_Hack_Code at hpre ⊢
  rw [Compile_Hack_Code.loop_append pre _ 1 st st' hpre, Compile_Hack_Code.loop,
    Compile_Line_malformed _ st' line hne hlab hadr heq hsemi, Nat.add_comm 1]
  rfl

/-- Witness for claim C7: the line ` D+A // sum` as line 4, after a comment, a label and
an instruction. -/
theorem malformed_grammar_error_witness :
    Compile_Hack_Code State.initial
        ["// start".toList, "(LOOP)".toList, "@2".toList, " D+A // sum".toList, "D=A".toList] =
      (⟨SYMBOLS, 16, ["0000000000000010".toList]⟩,
        some (Err.SyntaxError "Error on line: 4 =>  D+A // sum".toList)) :=
  malformed_grammar_error State.initial ⟨SYMBOLS, 16, ["0000000000000010".toList]⟩
    ["// start".toList, "(LOOP)".toList, "@2".toList] ["D=A".toList] " D+A // sum".toList
    (by decide) (by decide) (by decide) (by decide) (by decide) (by decide)

end HackC

namespace HackC

/-! ## Decimal literals and binary words -/

theorem decimalValue_append_singleton (l : Str) (d : Char) :
    decimalValue (l ++ [d]) = 10 * decimalValue l + (d.toNat - 48) := by
  simp [decimalValue, List.foldl_append]

theorem digitChar_toNat : ∀ k < 10, (Nat.digitChar k).toNat = 48 + k := by
  decide

/-- The digits that `Nat.toDigitsCore` puts in front of its accumulator write the number. -/
theorem toDigitsCore_spec (fuel n : Nat) (ds : Str) (h : n < fuel) :
    ∃ l, Nat.toDigitsCore 10 fuel n ds = l ++ ds ∧ l ≠ [] ∧
      (∀ x ∈ l, isdigit x = true) ∧ decimalValue l = n := by
  induction fuel generalizing n ds with
  | zero => omega
  | succ fuel ih =>
    have hlt : n % 10 < 10 := Nat.mod_lt _ (by decide)
    have hdig : isdigit (Nat.digitChar (n % 10)) = true := by
      simp only [isdigit, digitChar_toNat _ hlt, Bool.and_eq_true, decide_eq_true_eq]
      omega
    simp only [Nat.toDigitsCore]
    by_cases h0 : n / 10 = 0
    · refine ⟨[Nat.digitChar (n % 10)], by simp [h0], by simp, by simpa using hdig, ?_⟩
      simp only [decimalValue, List.foldl, digitChar_toNat _ hlt]
      omega
    · obtain ⟨l, hl, _, hld, hlv⟩ := ih (n / 10) (Nat.digitChar (n % 10) :: ds) (by omega)
      refine ⟨l ++ [Nat.digitChar (n % 10)], by simp [h0, hl], by simp, ?_, ?_⟩
      · intro x hx
        rcases List.mem_append.mp hx with hx | hx
        · exact hld x hx
        · rw [List.mem_singleton.mp hx]
          exact hdig
      · rw [decimalValue_append_singleton, hlv, digitChar_toNat _ hlt]
        omega

/-- The decimal numeral printed for `n` is a non-empty string of digits that writes `n`. -/
theorem repr_spec (n : Nat) :
    (Nat.repr n).toList ≠ [] ∧ (∀ x ∈ (Nat.repr n).toList, isdigit x = true) ∧
      decimalValue (Nat.repr n).toList = n := by
  obtain ⟨l, hl, hne, hd, hv⟩ := toDigitsCore_spec (n + 1) n [] (by omega)
  have : (Nat.repr n).toList = l := by
    simp [Nat.repr, Nat.toDigits, hl, List.asString]
  rw [this]
  exact ⟨hne, hd, hv⟩

/-- Leading zeros do not change the value of a decimal literal. -/
theorem decimalValue_zeros (z : Nat) (l : Str) :
    decimalValue (List.replicate z '0' ++ l) = decimalValue l := by
  induction z with
  | zero => rfl
  | succ z ih =>
    simp only [decimalValue, List.replicate_succ, List.cons_append, List.foldl_cons] at ih ⊢
    exact ih

theorem bitset15_length (n : Nat) : (bitset15 n).length = 15 := by
  simp [bitset15]

theorem bitset15_chars (n : Nat) : ∀ ch ∈ bitset15 n, ch = '0' ∨ ch = '1' := by
  intro ch hch
  simp only [bitset15, List.mem_map] at hch
  obtain ⟨i, -, rfl⟩ := hch
  split
  · exact Or.inr rfl
  · exact Or.inl rfl

theorem bitsValue_bits (n w : Nat) :
    bitsValue ((List.range w).reverse.map
      (fun i => if n / 2 ^ i % 2 = 1 then '1' else '0')) = n % 2 ^ w := by
  induction w with
  | zero => simp [bitsValue, Nat.mod_one]
  | succ w ih =>
    have hfold : ∀ (l : Str) (a : Nat),
        List.foldl (fun acc ch => 2 * acc + (if ch = '1' then 1 else 0)) a l =
          a * 2 ^ l.length +
            List.foldl (fun acc ch => 2 * acc + (if ch = '1' then 1 else 0)) 0 l := by
      intro l
      induction l with
      | nil => intro a; simp
      | cons c l ihl =>
        intro a
        simp only [List.foldl_cons, List.length_cons]
        rw [ihl, ihl (2 * 0 + _)]
        ring
    simp only [bitsValue] at ih ⊢
    rw [List.range_succ, List.reverse_append, List.reverse_singleton, List.singleton_append,
      List.map_cons, List.foldl_cons, hfold, ih]
    simp only [List.length_map, List.length_reverse, List.length_range]
    have hmod : n % 2 ^ (w + 1) = n % 2 ^ w + 2 ^ w * (n / 2 ^ w % 2) := Nat.mod_pow_succ
    rw [hmod]
    rcases Nat.mod_two_eq_zero_or_one (n / 2 ^ w) with h | h
    · simp [h]
    · simp [h]
      ring

/-- The word of `std::bitset<15>` writes `n` modulo `2 ^ 15`. -/
theorem bitsValue_bitset15 (n : Nat) : bitsValue (bitset15 n) = n % 2 ^ 15 :=
  bitsValue_bits n 15

end HackC

namespace HackC

/-! ## Address instructions -/

theorem beforeComment_append (s : Str) :
    s = beforeComment s ++ s.drop (beforeComment s).length := by
  conv_lhs => rw [← List.take_append_drop (beforeComment s).length s, beforeComment_take]

/-- The classification of a line whose text in front of the comment is not empty:
it is not skipped as blank or comment, and it is a label line only if that text
is the whole stripped line. -/
theorem Strip_facts_of_beforeComment (raw : Str) (hne : beforeComment (Strip raw) ≠ []) :
    (Strip raw).isEmpty = false ∧ regex_match (Strip raw) commentRx = false ∧
      (Split_String (Strip raw) slashes)[0]? = some (beforeComment (Strip raw)) ∧
      (regex_match (Strip raw) labelRx = true →
        beforeComment (Strip raw) = Strip raw) := by
  have hnil : ¬ (Strip raw = [] ∨ slashes.isPrefixOf (Strip raw) = true) :=
    fun h => hne ((beforeComment_eq_nil_iff _).mpr h)
  refine ⟨?_, ?_, Split_String_slashes_head _ hne, ?_⟩
  · cases hs : Strip raw with
    | nil => exact absurd (Or.inl hs) hnil
    | cons _ _ => rfl
  · apply Bool.eq_false_iff.mpr
    intro h
    exact hnil (Or.inr (commentRx_isPrefixOf _ h))
  · intro h
    exact beforeComment_eq_self _ (labelRx_not_mem_slash _ h)

/-- The address branch of pass 2, for a line whose text in front of the comment is
`@t` and matches the address pattern. -/
theorem Compile_Line_address (n : Nat) (st : State) (raw t : Str)
    (ht : beforeComment (Strip raw) = '@' :: t)
    (hm : regex_match ('@' :: t) addressRx = true) :
    Compile_Line n st raw =
      if Is_String_Number t then
        .ok ⟨st.SYMBOLS, st.NEXT_SYMBOL_VALUE, st.BINARY ++ ['0' :: bitset15 (atoi t)]⟩
      else
        .ok ⟨(Add_New_Symbol st t (-1)).SYMBOLS, (Add_New_Symbol st t (-1)).NEXT_SYMBOL_VALUE,
          (Add_New_Symbol st t (-1)).BINARY ++
            ['0' :: bitset15 (((Add_New_Symbol st t (-1)).SYMBOLS.lookup t).getD 0)]⟩ := by
  have hne : beforeComment (Strip raw) ≠ [] := by simp [ht]
  obtain ⟨hemp, hcom, hsplit, hlabel⟩ := Strip_facts_of_beforeComment raw hne
  have hlab : regex_match (Strip raw) labelRx = false := by
    apply Bool.eq_false_iff.mpr
    intro h
    have h2 := hlabel h
    rw [← h2, ht] at h
    have := labelRx_false_of_mem ('@' :: t) '@' (by simp) (by decide) (by decide) (by decide)
    rw [h] at this
    cases this
  have hsub : substr ('@' :: t) 1 ('@' :: t).length = t := by
    simp [substr]
  unfold Compile_Line
  simp only [hcom, hemp, hlab, Bool.or_false, Bool.false_eq_true, if_false, hsplit, ht, hm,
    if_true, hsub]

theorem Is_String_Number_iff (t : Str) :
    Is_String_Number t = true ↔ ∀ x ∈ t, isdigit x = true := by
  simp [Is_String_Number, List.all_eq_true]

/-- Claim C2 (literal address instruction).  For every number `n ≤ 32767`, written in
decimal with `z` leading zeros, the line `@n` in any state appends exactly the word
`0` followed by `bitset15 n` and leaves the symbol table and the allocation counter
alone (the word does not depend on the table); and `bitset15 n` is the 15-digit
binary numeral of `n`, most significant digit first. -/
theorem literal_address_encoding (ln : Nat) (st : State) (z n : Nat) (hn : n ≤ 32767) :
    Compile_Line ln st ('@' :: (List.replicate z '0' ++ (Nat.repr n).toList)) =
        .ok ⟨st.SYMBOLS, st.NEXT_SYMBOL_VALUE, st.BINARY ++ ['0' :: bitset15 n]⟩ ∧
      (bitset15 n).length = 15 ∧ (∀ ch ∈ bitset15 n, ch = '0' ∨ ch = '1') ∧
      bitsValue (bitset15 n) = n := by
  obtain ⟨hne, hdig, hval⟩ := repr_spec n
  have hdigits : ∀ x ∈ List.replicate z '0' ++ (Nat.repr n).toList, isdigit x = true := by
    intro x hx
    rcases List.mem_append.mp hx with hx | hx
    · rw [(List.mem_replicate.mp hx).2]
      decide
    · exact hdig x hx
  have hne2 : List.replicate z '0' ++ (Nat.repr n).toList ≠ [] := by
    intro h
    exact hne (List.append_eq_nil.mp h).2
  have hdws : ∀ x, isdigit x = true → isspace x = false ∧ x ≠ '/' := by
    intro x hx
    simp only [isdigit, Bool.and_eq_true, decide_eq_true_eq] at hx
    refine ⟨?_, ?_⟩
    · simp only [isspace, Bool.or_eq_false_iff, beq_eq_false_iff_ne, Bool.and_eq_false_iff,
        decide_eq_false_iff_not]
      omega
    · rintro rfl
      simp at hx
  have hstrip : Strip ('@' :: (List.replicate z '0' ++ (Nat.repr n).toList)) =
      '@' :: (List.replicate z '0' ++ (Nat.repr n).toList) := by
    apply Strip_eq_self
    intro c hc
    rcases List.mem_cons.mp hc with rfl | hc
    · decide
    · exact (hdws c (hdigits c hc)).1
  have hbc : beforeComment (Strip ('@' :: (List.replicate z '0' ++ (Nat.repr n).toList))) =
      '@' :: (List.replicate z '0' ++ (Nat.repr n).toList) := by
    rw [hstrip]
    apply beforeComment_eq_self
    intro hc
    rcases List.mem_cons.mp hc with h | hc
    · exact absurd h (by decide)
    · exact (hdws _ (hdigits _ hc)).2 rfl
  have hm : regex_match ('@' :: (List.replicate z '0' ++ (Nat.repr n).toList)) addressRx
      = true :=
    (addressRx_iff _).mpr ⟨_, rfl, Or.inr ⟨hne2, hdigits⟩⟩
  have hatoi : atoi (List.replicate z '0' ++ (Nat.repr n).toList) = n := by
    simp only [atoi, decimalValue_zeros, hval]
    omega
  refine ⟨?_, bitset15_length n, bitset15_chars n, ?_⟩
  · rw [Compile_Line_address ln st _ _ hbc hm, (Is_String_Number_iff _).mpr hdigits, if_pos rfl,
      hatoi]
  · rw [bitsValue_bitset15]
    omega

/-- Witness for claim C2: `@2` gives `0000000000000010`, and so does `@002`. -/
theorem literal_address_encoding_witness :
    Compile_Line 1 State.initial "@2".toList =
        .ok ⟨SYMBOLS, 16, ["0000000000000010".toList]⟩ ∧
    Compile_Line 7 State.initial "@002".toList =
        .ok ⟨SYMBOLS, 16, ["0000000000000010".toList]⟩ :=
  ⟨(literal_address_encoding 1 State.initial 0 2 (by decide)).1,
   (literal_address_encoding 7 State.initial 2 2 (by decide)).1⟩

end HackC

namespace HackC

/-! ## Symbol table -/

/-- Claim C9 (first definition wins).  In every state, for every name and value (the
label-binding call with a value `≥ 0` as well as the variable-allocating call with the
default `-1`), `Add_New_Symbol` leaves the value of every name that is present
unchanged; and a call on a name that is present changes nothing at all, neither the
table nor `NEXT_SYMBOL_VALUE`. -/
theorem symbol_immutability (st : State) (symbol : Str) (value : Int) :
    (∀ name v, st.SYMBOLS.lookup name = some v →
        (Add_New_Symbol st symbol value).SYMBOLS.lookup name = some v) ∧
      ((st.SYMBOLS.lookup symbol).isSome = true → Add_New_Symbol st symbol value = st) := by
  refine ⟨?_, ?_⟩
  · intro name v h
    unfold Add_New_Symbol
    split
    · exact h
    · split <;> simp [List.lookup_append, h]
  · intro h
    simp [Add_New_Symbol, h]

/-- Witness for claim C9: a label `(SCREEN)` at program counter 7 and a variable
reference `@SCREEN` both leave `SCREEN` at 16384 and the state as it is. -/
theorem symbol_immutability_witness :
    (Add_New_Symbol State.initial "SCREEN".toList 7).SYMBOLS.lookup "SCREEN".toList = some 16384 ∧
      Add_New_Symbol State.initial "SCREEN".toList 7 = State.initial ∧
      Add_New_Symbol State.initial "SCREEN".toList (-1) = State.initial :=
  ⟨(symbol_immutability State.initial "SCREEN".toList 7).1 "SCREEN".toList 16384 (by decide),
   (symbol_immutability State.initial "SCREEN".toList 7).2 (by decide),
   (symbol_immutability State.initial "SCREEN".toList (-1)).2 (by decide)⟩

/-- Claim C10, evaluated at the failing input.  The one-line program `//` (an empty
comment) consists of comment lines only, yet both passes index the empty result of
`Split_String(line, "//")` at `[0]`: neither pass completes normally. -/
theorem bare_comment_out_of_range :
    isComment (Strip "//".toList) = true ∧
      Split_String (Strip "//".toList) slashes = [] ∧
      Process_Labels State.initial ["//".toList] = .error Err.OutOfRange ∧
      Compile_Hack_Code State.initial ["//".toList] = (State.initial, some Err.OutOfRange) :=
  ⟨by decide, by decide, rfl, by decide⟩

end HackC

namespace HackC

/-! ## What one line of pass 2 does -/

theorem tableAt_mem (T : List (Str × Str)) (k : Str) (h : (tableAt T k).isEmpty = false) :
    (k, tableAt T k) ∈ T := by
  unfold tableAt at h ⊢
  cases hl : T.lookup k with
  | none => simp [hl] at h
  | some v =>
    obtain ⟨l1, l2, rfl, -⟩ := List.lookup_eq_some_iff.mp hl
    simp

theorem DESTINATIONS_codes :
    ∀ p ∈ DESTINATIONS, p.2.length = 3 ∧ ∀ ch ∈ p.2, ch = '0' ∨ ch = '1' := by
  decide

theorem JUMPS_codes : ∀ p ∈ JUMPS, p.2.length = 3 ∧ ∀ ch ∈ p.2, ch = '0' ∨ ch = '1' := by
  decide

theorem COMPUTATIONS_codes :
    ∀ p ∈ COMPUTATIONS, p.2.length = 7 ∧ ∀ ch ∈ p.2, ch = '0' ∨ ch = '1' := by
  decide

theorem wellFormedWord_compute (kd kc kj : Str) (hd : (tableAt DESTINATIONS kd).isEmpty = false)
    (hc : (tableAt COMPUTATIONS kc).isEmpty = false) (hj : (tableAt JUMPS kj).isEmpty = false) :
    wellFormedWord ("111".toList ++ tableAt COMPUTATIONS kc ++ tableAt DESTINATIONS kd ++
      tableAt JUMPS kj) := by
  obtain ⟨d1, d2⟩ := DESTINATIONS_codes _ (tableAt_mem _ _ hd)
  obtain ⟨c1, c2⟩ := COMPUTATIONS_codes _ (tableAt_mem _ _ hc)
  obtain ⟨j1, j2⟩ := JUMPS_codes _ (tableAt_mem _ _ hj)
  simp only at d1 d2 c1 c2 j1 j2
  refine ⟨by simp [d1, c1, j1], ?_⟩
  intro ch hch
  simp only [List.mem_append] at hch
  rcases hch with ((hch | hch) | hch) | hch
  · revert ch
    decide
  · exact c2 ch hch
  · exact d2 ch hch
  · exact j2 ch hch

theorem wellFormedWord_address (number : Nat) : wellFormedWord ('0' :: bitset15 number) := by
  refine ⟨by simp [bitset15_length], ?_⟩
  intro ch hch
  rcases List.mem_cons.mp hch with rfl | hch
  · exact Or.inl rfl
  · exact bitset15_chars number ch hch

/-- A successful encoding step appends one well-formed word and nothing else. -/
theorem encodeCompute_ok_inv (n : Nat) (st st1 : State) (fill d c j : Str)
    (h : encodeCompute n st fill d c j = .ok st1) :
    ∃ w, wellFormedWord w ∧ st1 = ⟨st.SYMBOLS, st.NEXT_SYMBOL_VALUE, st.BINARY ++ [w]⟩ := by
  unfold encodeCompute at h
  have hkd : ∃ kd, (if d.isEmpty then tableAt DESTINATIONS "NULL".toList
      else tableAt DESTINATIONS d) = tableAt DESTINATIONS kd := by
    split
    · exact ⟨_, rfl⟩
    · exact ⟨_, rfl⟩
  have hkc : ∃ kc, (if c.isEmpty then tableAt COMPUTATIONS "NULL".toList
      else tableAt COMPUTATIONS c) = tableAt COMPUTATIONS kc := by
    split
    · exact ⟨_, rfl⟩
    · exact ⟨_, rfl⟩
  have hkj : ∃ kj, (if j.isEmpty then tableAt JUMPS "NULL".toList
      else tableAt JUMPS j) = tableAt JUMPS kj := by
    split
    · exact ⟨_, rfl⟩
    · exact ⟨_, rfl⟩
  obtain ⟨kd, hkd⟩ := hkd
  obtain ⟨kc, hkc⟩ := hkc
  obtain ⟨kj, hkj⟩ := hkj
  simp only [hkd, hkc, hkj] at h
  split at h
  · cases h
  · rename_i hne
    simp only [Bool.or_eq_true, not_or, Bool.not_eq_true] at hne
    injection h with h
    exact ⟨_, wellFormedWord_compute kd kc kj hne.1.1 hne.1.2 hne.2, h.symm⟩

theorem realInstruction_iff (raw : Str) :
    realInstruction raw = true ↔
      beforeComment (Strip raw) ≠ [] ∧ regex_match (Strip raw) labelRx = false := by
  simp only [realInstruction, isComment, isLabelDefinition, Bool.and_eq_true,
    Bool.not_eq_true', ne_eq, beforeComment_eq_nil_iff, not_or, List.isEmpty_eq_false,
    Bool.not_eq_true]

theorem addressRx_head (s : Str) (h : regex_match s addressRx = true) :
    ∃ t, s = '@' :: t := by
  obtain ⟨t, rfl, -⟩ := (addressRx_iff s).mp h
  exact ⟨t, rfl⟩

theorem labelRx_head (s : Str) (h : regex_match s labelRx = true) :
    ∃ t, s = '(' :: t := by
  obtain ⟨c, t, rfl, -⟩ := (labelRx_iff s).mp h
  exact ⟨_, rfl⟩

/-- A line that is not a real instruction references no identifier. -/
theorem referencedIdentifier_of_not_real (raw : Str) (h : realInstruction raw = false) :
    referencedIdentifier raw = Option.none := by
  have hno : regex_match (beforeComment (Strip raw)) addressRx = false := by
    apply Bool.eq_false_iff.mpr
    intro hm
    obtain ⟨t, ht⟩ := addressRx_head _ hm
    have hne : beforeComment (Strip raw) ≠ [] := by simp [ht]
    have hlab : regex_match (Strip raw) labelRx = true := by
      by_contra hl
      have := (realInstruction_iff raw).mpr ⟨hne, by simpa using hl⟩
      rw [h] at this
      cases this
    obtain ⟨u, hu⟩ := labelRx_head _ hlab
    rw [beforeComment_eq_self _ (labelRx_not_mem_slash _ hlab), hu] at ht
    cases ht
  simp [referencedIdentifier, addressTarget, hno]

/-- The effect of a line that pass 2 processes without error: a line that is not a
real instruction changes nothing; a real instruction appends exactly one well-formed
word, and changes the symbol state only by the call `Add_New_Symbol(x)` when it is an
address instruction on an identifier `x`, whose word is then the value bound to `x`. -/
theorem Compile_Line_ok_spec (n : Nat) (st st1 : State) (raw : Str)
    (h : Compile_Line n st raw = .ok st1) :
    (realInstruction raw = false → st1 = st) ∧
    (realInstruction raw = true →
      ∃ w, wellFormedWord w ∧ st1.BINARY = st.BINARY ++ [w] ∧
        match referencedIdentifier raw with
        | some x =>
          st1.SYMBOLS = (Add_New_Symbol st x (-1)).SYMBOLS ∧
          st1.NEXT_SYMBOL_VALUE = (Add_New_Symbol st x (-1)).NEXT_SYMBOL_VALUE ∧
          w = '0' :: bitset15 ((st1.SYMBOLS.lookup x).getD 0)
        | Option.none =>
          st1.SYMBOLS = st.SYMBOLS ∧ st1.NEXT_SYMBOL_VALUE = st.NEXT_SYMBOL_VALUE) := by
  refine ⟨?_, ?_⟩
  · intro hreal
    by_cases hskip : (regex_match (Strip raw) commentRx || (Strip raw).isEmpty ||
        regex_match (Strip raw) labelRx) = true
    · simp only [Compile_Line, hskip, if_true] at h
      injection h with h
      exact h.symm
    · simp only [Compile_Line, hskip, if_false] at h
      simp only [Bool.or_eq_true, not_or, Bool.not_eq_true] at hskip
      obtain ⟨⟨hcom, hemp⟩, hlab⟩ := hskip
      have hbc : beforeComment (Strip raw) = [] := by
        by_contra hne
        have := (realInstruction_iff raw).mpr ⟨hne, hlab⟩
        rw [hreal] at this
        cases this
      rcases (beforeComment_eq_nil_iff _).mp hbc with h0 | hp
      · simp [h0] at hemp
      · obtain ⟨t, ht⟩ := (slashes_isPrefixOf_iff _).mp hp
        have htnil : t = [] := by
          by_contra htne
          have : regex_match (Strip raw) commentRx = true := by
            rw [commentRx_iff]
            refine ⟨t, ht, htne, ?_⟩
            intro c hc
            apply anyChar_of_not_isspace
            apply isspace_of_mem_Strip raw
            rw [ht]
            simp [hc]
          rw [hcom] at this
          cases this
        subst htnil
        rw [ht] at h
        have hs : Split_String ['/', '/'] slashes = [] := Split_String_slashes_bare
        simp [hs] at h
  · intro hreal
    obtain ⟨hne, hlab⟩ := (realInstruction_iff raw).mp hreal
    obtain ⟨hemp, hcom, hsplit, -⟩ := Strip_facts_of_beforeComment raw hne
    by_cases hadr : regex_match (beforeComment (Strip raw)) addressRx = true
    · obtain ⟨t, ht⟩ := addressRx_head _ hadr
      have hadr2 : regex_match ('@' :: t) addressRx = true := ht ▸ hadr
      rw [Compile_Line_address n st raw t ht hadr2] at h
      have htarget : addressTarget raw = some t := by
        simp [addressTarget, ht, hadr2]
      by_cases hnum : Is_String_Number t = true
      · rw [if_pos hnum] at h
        injection h with h
        subst h
        refine ⟨_, wellFormedWord_address _, rfl, ?_⟩
        simp [referencedIdentifier, htarget, Option.filter, hnum]
      · rw [if_neg hnum] at h
        injection h with h
        subst h
        refine ⟨'0' :: bitset15 (((Add_New_Symbol st t (-1)).SYMBOLS.lookup t).getD 0),
          wellFormedWord_address _, ?_, ?_⟩
        · have hb : (Add_New_Symbol st t (-1)).BINARY = st.BINARY := by
            unfold Add_New_Symbol
            split
            · rfl
            · split <;> rfl
          simp only [hb]
        · have hsome : referencedIdentifier raw = some t := by
            simp [referencedIdentifier, htarget, Option.filter, hnum]
          rw [hsome]
          exact ⟨rfl, rfl, rfl⟩
    · have hnone : referencedIdentifier raw = Option.none := by
        simp [referencedIdentifier, addressTarget, hadr]
      rw [hnone]
      unfold Compile_Line at h
      simp only [hcom, hemp, hlab, Bool.or_false, Bool.false_eq_true, if_false, hsplit,
        hadr] at h
      split at h
      · cases h
      · obtain ⟨w, hw, rfl⟩ := encodeCompute_ok_inv _ _ _ _ _ _ _ h
        exact ⟨w, hw, rfl, rfl, rfl⟩

end HackC

namespace HackC

/-! ## The output sequence -/

theorem Compile_Hack_Code.loop_cons_ok (n : Nat) (st st' : State) (l : Str) (rest : List Str)
    (h : Compile_Hack_Code.loop n st (l :: rest) = (st', Option.none)) :
    ∃ st1, Compile_Line n st l = .ok st1 ∧ n < INT_MAX ∧
      Compile_Hack_Code.loop (n + 1) st1 rest = (st', Option.none) := by
  simp only [Compile_Hack_Code.loop] at h
  cases hl : Compile_Line n st l with
  | error e => simp [hl] at h
  | ok st1 =>
    simp only [hl] at h
    by_cases hn : n < INT_MAX
    · simp only [hn, if_true] at h
      exact ⟨st1, rfl, hn, h⟩
    · simp [hn] at h

theorem Compile_Hack_Code.loop_split (pre rest : List Str) (n : Nat) (st st' : State)
    (h : Compile_Hack_Code.loop n st (pre ++ rest) = (st', Option.none)) :
    ∃ st1, Compile_Hack_Code.loop n st pre = (st1, Option.none) ∧
      Compile_Hack_Code.loop (n + pre.length) st1 rest = (st', Option.none) := by
  induction pre generalizing n st with
  | nil => exact ⟨st, rfl, h⟩
  | cons l pre ih =>
    obtain ⟨st1, hl, hn, hrest⟩ := Compile_Hack_Code.loop_cons_ok n st st' l (pre ++ rest) h
    obtain ⟨st2, h1, h2⟩ := ih (n + 1) st1 hrest
    refine ⟨st2, ?_, ?_⟩
    · simp only [Compile_Hack_Code.loop, hl, hn, if_true]
      exact h1
    · rw [show (l :: pre).length = pre.length + 1 from rfl,
        show n + (pre.length + 1) = n + 1 + pre.length by omega]
      exact h2

/-- The words appended by one line that is processed without error. -/
theorem Compile_Line_words (n : Nat) (st st1 : State) (raw : Str)
    (h : Compile_Line n st raw = .ok st1) :
    ∃ new, st1.BINARY = st.BINARY ++ new ∧ (∀ w ∈ new, wellFormedWord w) ∧
      new.length = if realInstruction raw then 1 else 0 := by
  obtain ⟨h1, h2⟩ := Compile_Line_ok_spec n st st1 raw h
  by_cases hreal : realInstruction raw = true
  · obtain ⟨w, hw, hb, -⟩ := h2 hreal
    exact ⟨[w], hb, by simpa using hw, by simp [hreal]⟩
  · have hf : realInstruction raw = false := by simpa using hreal
    exact ⟨[], by simp [h1 hf], by simp, by simp [hf]⟩

theorem Compile_Hack_Code.loop_words (prog : List Str) (n : Nat) (st : State) :
    ∃ new, (Compile_Hack_Code.loop n st prog).1.BINARY = st.BINARY ++ new ∧
      ∀ w ∈ new, wellFormedWord w := by
  induction prog generalizing n st with
  | nil => exact ⟨[], by simp [Compile_Hack_Code.loop], by simp⟩
  | cons l prog ih =>
    simp only [Compile_Hack_Code.loop]
    cases hl : Compile_Line n st l with
    | error e => exact ⟨[], by simp, by simp⟩
    | ok st1 =>
      obtain ⟨new1, hb1, hw1, -⟩ := Compile_Line_words n st st1 l hl
      by_cases hn : n < INT_MAX
      · simp only [hn, if_true]
        obtain ⟨new2, hb2, hw2⟩ := ih (n + 1) st1
        refine ⟨new1 ++ new2, by rw [hb2, hb1, List.append_assoc], ?_⟩
        intro w hw
        rcases List.mem_append.mp hw with hw | hw
        · exact hw1 w hw
        · exact hw2 w hw
      · simp only [hn, if_false]
        exact ⟨new1, hb1, hw1⟩

/-- Claim C6 (output well-formedness).  For every program and every state, whether pass 2
completes or stops at some line, the output sequence it leaves is the one it started
with followed by appended words, and every appended word has exactly 16 characters,
each of them `0` or `1`. -/
theorem output_well_formed (st : State) (hack_code : List Str) :
    ∃ new, (Compile_Hack_Code st hack_code).1.BINARY = st.BINARY ++ new ∧
      ∀ w ∈ new, w.length = 16 ∧ ∀ ch ∈ w, ch = '0' ∨ ch = '1' :=
  Compile_Hack_Code.loop_words hack_code 1 st

theorem Compile_Hack_Code.loop_count (prog : List Str) (n : Nat) (st st' : State)
    (h : Compile_Hack_Code.loop n st prog = (st', Option.none)) :
    ∃ new, st'.BINARY = st.BINARY ++ new ∧ new.length = realCount prog := by
  induction prog generalizing n st with
  | nil =>
    simp only [Compile_Hack_Code.loop, Prod.mk.injEq, and_true] at h
    subst h
    exact ⟨[], by simp, rfl⟩
  | cons l prog ih =>
    obtain ⟨st1, hl, hn, hrest⟩ := Compile_Hack_Code.loop_cons_ok n st st' l prog h
    obtain ⟨new1, hb1, -, hc1⟩ := Compile_Line_words n st st1 l hl
    obtain ⟨new2, hb2, hc2⟩ := ih (n + 1) st1 hrest
    refine ⟨new1 ++ new2, by rw [hb2, hb1, List.append_assoc], ?_⟩
    rw [List.length_append, hc1, hc2, realCount, realCount, List.countP_cons]
    omega

/-- Claim C5 (word count).  If pass 2, started with an empty output sequence, completes
without error, then the number of words in the output equals the number of real
instructions of the program (lines whose stripped content is non-empty, no comment and
no label definition); and the words stand in source order: for every `k`, the output
after the first `k` lines is the initial segment of the final output whose length is
the number of real instructions among those `k` lines. -/
theorem word_count (st st' : State) (hack_code : List Str) (hempty : st.BINARY = [])
    (h : Compile_Hack_Code st hack_code = (st', Option.none)) :
    st'.BINARY.length = realCount hack_code ∧
      ∀ k, ∃ stk, Compile_Hack_Code st (hack_code.take k) = (stk, Option.none) ∧
        stk.BINARY = st'.BINARY.take (realCount (hack_code.take k)) := by
  refine ⟨?_, ?_⟩
  · obtain ⟨new, hb, hc⟩ := Compile_Hack_Code.loop_count hack_code 1 st st' h
    rw [hb, hempty, List.nil_append, hc]
  · intro k
    have hsplit : Compile_Hack_Code.loop 1 st (hack_code.take k ++ hack_code.drop k) =
        (st', Option.none) := by
      rw [List.take_append_drop]
      exact h
    obtain ⟨stk, h1, h2⟩ := Compile_Hack_Code.loop_split _ _ 1 st st' hsplit
    obtain ⟨new1, hb1, hc1⟩ := Compile_Hack_Code.loop_count _ 1 st stk h1
    obtain ⟨new2, hb2, -⟩ := Compile_Hack_Code.loop_count _ _ stk st' h2
    refine ⟨stk, h1, ?_⟩
    rw [hb2, hb1, hempty, List.nil_append, ← hc1, List.take_left]

/-- Witness for claim C5: six source lines, three of them real instructions. -/
theorem word_count_witness :
    Compile_Hack_Code State.initial
        ["// loop".toList, "(LOOP)".toList, " @LOOP".toList, "0;JMP // back".toList,
          "".toList, "D=A".toList] =
      (⟨SYMBOLS ++ [("LOOP".toList, 16)], 17,
        ["0000000000010000".toList, "1110101010000111".toList, "1110110000010000".toList]⟩,
        Option.none) ∧
    (["0000000000010000".toList, "1110101010000111".toList, "1110110000010000".toList] :
        List Str).length =
      realCount ["// loop".toList, "(LOOP)".toList, " @LOOP".toList, "0;JMP // back".toList,
        "".toList, "D=A".toList] :=
  ⟨by decide,
   (word_count State.initial
    ⟨SYMBOLS ++ [("LOOP".toList, 16)], 17,
      ["0000000000010000".toList, "1110101010000111".toList, "1110110000010000".toList]⟩
    ["// loop".toList, "(LOOP)".toList, " @LOOP".toList, "0;JMP // back".toList,
      "".toList, "D=A".toList] rfl (by decide)).1⟩

end HackC

namespace HackC

/-! ## Variable allocation -/

theorem lookup_isSome_iff_mem_keys (T : List (Str × Nat)) (x : Str) :
    (T.lookup x).isSome = true ↔ x ∈ T.map Prod.fst := by
  rw [List.lookup_isSome_iff]
  constructor
  · rintro ⟨p, hp, he⟩
    have : x = p.1 := by simpa using he
    rw [this]
    exact List.mem_map_of_mem _ hp
  · intro h
    obtain ⟨p, hp, rfl⟩ := List.mem_map.mp h
    exact ⟨p, hp, by simp⟩

/-- The variable-allocating call on a name that is absent, while the counter does not wrap. -/
theorem Add_New_Symbol_absent (st : State) (x : Str) (h : x ∉ st.SYMBOLS.map Prod.fst)
    (hn : st.NEXT_SYMBOL_VALUE + 1 < 2 ^ 32) :
    Add_New_Symbol st x (-1) =
      ⟨st.SYMBOLS ++ [(x, st.NEXT_SYMBOL_VALUE)], st.NEXT_SYMBOL_VALUE + 1, st.BINARY⟩ := by
  have hs : (st.SYMBOLS.lookup x).isSome = false := by
    rw [Bool.eq_false_iff]
    exact fun e => h ((lookup_isSome_iff_mem_keys _ _).mp e)
  simp only [Add_New_Symbol, hs, Bool.false_eq_true, if_false]
  rw [if_neg (by decide), Nat.mod_eq_of_lt hn]

/-- A call on a name that is present changes nothing. -/
theorem Add_New_Symbol_present (st : State) (x : Str) (value : Int)
    (h : x ∈ st.SYMBOLS.map Prod.fst) : Add_New_Symbol st x value = st := by
  simp [Add_New_Symbol, (lookup_isSome_iff_mem_keys _ _).mpr h]

/-- Pass 2, when it completes, extends the symbol table by exactly the new variables
of the program, with consecutive values from the counter on. -/
theorem Compile_Hack_Code.loop_symbols (prog : List Str) (n : Nat) (st st' : State)
    (h : Compile_Hack_Code.loop n st prog = (st', Option.none))
    (hbound : st.NEXT_SYMBOL_VALUE + (INT_MAX - n) < 2 ^ 32) :
    st'.SYMBOLS = st.SYMBOLS ++
        allocated st.NEXT_SYMBOL_VALUE (newVariables (st.SYMBOLS.map Prod.fst) prog) ∧
      st'.NEXT_SYMBOL_VALUE =
        st.NEXT_SYMBOL_VALUE + (newVariables (st.SYMBOLS.map Prod.fst) prog).length := by
  induction prog generalizing n st with
  | nil =>
    simp only [Compile_Hack_Code.loop, Prod.mk.injEq, and_true] at h
    subst h
    simp [newVariables, allocated]
  | cons l prog ih =>
    obtain ⟨st1, hl, hn, hrest⟩ := Compile_Hack_Code.loop_cons_ok n st st' l prog h
    obtain ⟨h1, h2⟩ := Compile_Line_ok_spec n st st1 l hl
    have hsame : st1.SYMBOLS = st.SYMBOLS → st1.NEXT_SYMBOL_VALUE = st.NEXT_SYMBOL_VALUE →
        referencedIdentifier l = Option.none ∨
          (∃ x, referencedIdentifier l = some x ∧ x ∈ st.SYMBOLS.map Prod.fst) →
        st'.SYMBOLS = st.SYMBOLS ++
          allocated st.NEXT_SYMBOL_VALUE (newVariables (st.SYMBOLS.map Prod.fst) (l :: prog)) ∧
        st'.NEXT_SYMBOL_VALUE = st.NEXT_SYMBOL_VALUE +
          (newVariables (st.SYMBOLS.map Prod.fst) (l :: prog)).length := by
      intro hs hx href
      have := ih (n + 1) st1 hrest (by rw [hx]; omega)
      rw [hs, hx] at this
      rcases href with href | ⟨x, href, hmem⟩
      · simpa [newVariables, href] using this
      · simpa [newVariables, href, hmem] using this
    by_cases hreal : realInstruction l = true
    · obtain ⟨w, -, -, hsym⟩ := h2 hreal
      cases href : referencedIdentifier l with
      | none =>
        rw [href] at hsym
        exact hsame hsym.1 hsym.2 (Or.inl href)
      | some x =>
        rw [href] at hsym
        obtain ⟨hs, hx, -⟩ := hsym
        by_cases hmem : x ∈ st.SYMBOLS.map Prod.fst
        · rw [Add_New_Symbol_present st x _ hmem] at hs hx
          exact hsame hs hx (Or.inr ⟨x, href, hmem⟩)
        · have hin : INT_MAX - n ≥ 1 := by omega
          rw [Add_New_Symbol_absent st x hmem (by omega)] at hs hx
          simp only at hs hx
          have := ih (n + 1) st1 hrest (by rw [hx]; omega)
          rw [hs, hx] at this
          simp only [List.map_append, List.map_cons, List.map_nil] at this
          simp only [newVariables, href, hmem, if_false, allocated, List.length_cons]
          refine ⟨?_, ?_⟩
          · rw [this.1, List.append_assoc]
            rfl
          · rw [this.2]
            omega
    · have hf : realInstruction l = false := by simpa using hreal
      have hst := h1 hf
      subst hst
      exact hsame rfl rfl (Or.inl (referencedIdentifier_of_not_real l hf))

theorem newVariables_not_known (prog : List Str) (known : List Str) :
    ∀ x ∈ newVariables known prog, x ∉ known := by
  induction prog generalizing known with
  | nil => simp [newVariables]
  | cons l prog ih =>
    intro x hx
    simp only [newVariables] at hx
    cases href : referencedIdentifier l with
    | none =>
      rw [href] at hx
      exact ih known x hx
    | some y =>
      rw [href] at hx
      by_cases hmem : y ∈ known
      · simp only [hmem, if_true] at hx
        exact ih known x hx
      · simp only [hmem, if_false] at hx
        rcases List.mem_cons.mp hx with rfl | hx
        · exact hmem
        · have := ih (known ++ [y]) x hx
          exact fun hk => this (List.mem_append_left _ hk)

theorem newVariables_nodup (prog : List Str) (known : List Str) :
    (newVariables known prog).Nodup := by
  induction prog generalizing known with
  | nil => simp [newVariables]
  | cons l prog ih =>
    simp only [newVariables]
    cases href : referencedIdentifier l with
    | none => exact ih known
    | some y =>
      by_cases hmem : y ∈ known
      · simp only [hmem, if_true]
        exact ih known
      · simp only [hmem, if_false]
        refine List.nodup_cons.mpr ⟨?_, ih _⟩
        intro hy
        exact newVariables_not_known prog (known ++ [y]) y hy (by simp)

theorem lookup_allocated (names : List Str) (start k : Nat) (hnd : names.Nodup)
    (x : Str) (hk : names[k]? = some x) :
    (allocated start names).lookup x = some (start + k) := by
  induction names generalizing start k with
  | nil => simp at hk
  | cons y names ih =>
    cases k with
    | zero =>
      simp only [List.getElem?_cons_zero, Option.some.injEq] at hk
      subst hk
      simp [allocated, List.lookup]
    | succ k =>
      simp only [List.getElem?_cons_succ] at hk
      have hmem : x ∈ names := List.getElem?_mem hk
      have hne : x ≠ y := by
        rintro rfl
        exact (List.nodup_cons.mp hnd).1 hmem
      have hbeq : (x == y) = false := by simpa using hne
      simp only [allocated, List.lookup, hbeq]
      rw [ih (start + 1) k (List.nodup_cons.mp hnd).2 hk]
      congr 1
      omega

/-- Claim C4 (variable allocation).  Start pass 2 with any symbol table `T` (the predefined
symbols and whatever labels pass 1 bound), `NEXT_SYMBOL_VALUE = 16` and any output, and
let it complete.  Then the distinct identifiers referenced by address instructions that
are not names of `T`, taken in the order of their first reference, are pairwise
different, the `k`-th of them (counting from 0) is bound to `16 + k`, and the table is
`T` followed by exactly these bindings; so the values are strictly increasing in
first-reference order and no value is given to two variables.  (For a program that
fails, this describes the lines in front of the failing one.) -/
theorem variable_allocation (T : List (Str × Nat)) (out : List Str) (hack_code : List Str)
    (st' : State) (h : Compile_Hack_Code ⟨T, 16, out⟩ hack_code = (st', Option.none)) :
    (newVariables (T.map Prod.fst) hack_code).Nodup ∧
      st'.SYMBOLS = T ++ allocated 16 (newVariables (T.map Prod.fst) hack_code) ∧
      (∀ k x, (newVariables (T.map Prod.fst) hack_code)[k]? = some x →
        st'.SYMBOLS.lookup x = some (16 + k)) ∧
      (∀ (i j : Nat) (x y : Str), i < j → (newVariables (T.map Prod.fst) hack_code)[i]? = some x →
        (newVariables (T.map Prod.fst) hack_code)[j]? = some y →
        ∃ v w, st'.SYMBOLS.lookup x = some v ∧ st'.SYMBOLS.lookup y = some w ∧ v < w) := by
  have hsym := (Compile_Hack_Code.loop_symbols hack_code 1 ⟨T, 16, out⟩ st' h
    (by simp only [INT_MAX]; omega)).1
  simp only at hsym
  have hnd := newVariables_nodup hack_code (T.map Prod.fst)
  have hval : ∀ k x, (newVariables (T.map Prod.fst) hack_code)[k]? = some x →
      st'.SYMBOLS.lookup x = some (16 + k) := by
    intro k x hk
    have hnot : x ∉ T.map Prod.fst :=
      newVariables_not_known hack_code _ x (List.getElem?_mem hk)
    have hnone : T.lookup x = Option.none := by
      cases hl : T.lookup x with
      | none => rfl
      | some v =>
        exact absurd ((lookup_isSome_iff_mem_keys T x).mp (by simp [hl])) hnot
    rw [hsym, List.lookup_append, hnone, Option.none_or]
    exact lookup_allocated _ 16 k hnd x hk
  refine ⟨hnd, hsym, hval, ?_⟩
  intro i j x y hij hx hy
  exact ⟨16 + i, 16 + j, hval i x hx, hval j y hy, by omega⟩

/-- Witness for claim C4: with the label `LOOP` bound by pass 1, the variables `i` and
`sum` receive 16 and 17. -/
theorem variable_allocation_witness :
    (Compile_Hack_Code ⟨SYMBOLS ++ [("LOOP".toList, 0)], 16, []⟩
        ["(LOOP)".toList, "@i".toList, "@sum".toList, "@i".toList, "@LOOP".toList]).1.SYMBOLS
      = SYMBOLS ++ [("LOOP".toList, 0)] ++ [("i".toList, 16), ("sum".toList, 17)] :=
  (variable_allocation (SYMBOLS ++ [("LOOP".toList, 0)]) []
    ["(LOOP)".toList, "@i".toList, "@sum".toList, "@i".toList, "@LOOP".toList]
    (Compile_Hack_Code ⟨SYMBOLS ++ [("LOOP".toList, 0)], 16, []⟩
      ["(LOOP)".toList, "@i".toList, "@sum".toList, "@i".toList, "@LOOP".toList]).1
    (by decide)).2.1

end HackC

namespace HackC

/-! ## Pass 1 and label resolution -/

/-- Bindings that are present survive every call of `Add_New_Symbol`. -/
theorem Add_New_Symbol_lookup (st : State) (symbol : Str) (value : Int) (name : Str) (v : Nat)
    (h : st.SYMBOLS.lookup name = some v) :
    (Add_New_Symbol st symbol value).SYMBOLS.lookup name = some v := by
  unfold Add_New_Symbol
  split
  · exact h
  · split <;> simp [List.lookup_append, h]

/-- The label-binding call keeps the counter and the output, and binds an absent name
to the program counter. -/
theorem Add_New_Symbol_label (st : State) (symbol : Str) (PC : Nat) :
    (Add_New_Symbol st symbol (PC : Int)).NEXT_SYMBOL_VALUE = st.NEXT_SYMBOL_VALUE ∧
      (Add_New_Symbol st symbol (PC : Int)).BINARY = st.BINARY ∧
      (st.SYMBOLS.lookup symbol = Option.none →
        (Add_New_Symbol st symbol (PC : Int)).SYMBOLS = st.SYMBOLS ++ [(symbol, PC % 2 ^ 32)]) := by
  have hpos : (PC : Int) > -1 := by omega
  have hval : ((PC : Int) % 2 ^ 32).toNat = PC % 2 ^ 32 := by
    have : ((PC : Int) % 2 ^ 32) = ((PC % 2 ^ 32 : Nat) : Int) := by
      simp [Int.ofNat_emod]
    rw [this, Int.toNat_ofNat]
  by_cases hs : (st.SYMBOLS.lookup symbol).isSome = true
  · have hst : Add_New_Symbol st symbol (PC : Int) = st := by
      simp only [Add_New_Symbol, hs, if_true]
    rw [hst]
    refine ⟨rfl, rfl, ?_⟩
    intro hn
    rw [hn] at hs
    cases hs
  · have hst : Add_New_Symbol st symbol (PC : Int) =
        ⟨st.SYMBOLS ++ [(symbol, PC % 2 ^ 32)], st.NEXT_SYMBOL_VALUE, st.BINARY⟩ := by
      simp only [Add_New_Symbol, hs, if_false, hpos, if_true, hval, Bool.false_eq_true]
    rw [hst]
    exact ⟨rfl, rfl, fun _ => rfl⟩

/-- A stripped line that begins with `//` is matched by the comment pattern unless it
is exactly `//`. -/
theorem comment_or_bare (raw : Str) (hp : slashes.isPrefixOf (Strip raw) = true) :
    regex_match (Strip raw) commentRx = true ∨ Strip raw = slashes := by
  obtain ⟨t, ht⟩ := (slashes_isPrefixOf_iff _).mp hp
  by_cases htne : t = []
  · right
    rw [ht, htne]
    rfl
  · left
    rw [commentRx_iff]
    refine ⟨t, ht, htne, ?_⟩
    intro c hc
    apply anyChar_of_not_isspace
    apply isspace_of_mem_Strip raw
    rw [ht]
    simp [hc]

theorem Compile_Line_bare (n : Nat) (st : State) (raw : Str) (h : Strip raw = slashes) :
    Compile_Line n st raw = .error Err.OutOfRange := by
  unfold Compile_Line
  rw [h]
  rfl

/-- A line with non-empty text in front of the comment, which pass 2 does not take
for a label or an address instruction and which holds neither `=` nor `;`, fails. -/
theorem Compile_Line_no_separator (n : Nat) (st : State) (raw : Str)
    (hne : beforeComment (Strip raw) ≠ [])
    (hlab : regex_match (Strip raw) labelRx = false)
    (hadr : regex_match (beforeComment (Strip raw)) addressRx = false)
    (heq : '=' ∉ beforeComment (Strip raw)) (hsemi : ';' ∉ beforeComment (Strip raw)) :
    Compile_Line n st raw = .error (Err.SyntaxError (errorMessage n raw)) := by
  obtain ⟨hemp, hcom, hsplit, -⟩ := Strip_facts_of_beforeComment raw hne
  unfold Compile_Line
  simp only [hcom, hemp, hlab, Bool.or_false, Bool.false_eq_true, if_false, hsplit, hadr,
    parseCompute, destCompJumpRx_false_of_not_mem_eq _ heq, destCompRx_false_of_not_mem _ heq,
    compJumpRx_false_of_not_mem _ hsemi]

/-- In a line that pass 2 accepts as a real instruction, the text in front of the
comment is not of the form `(name)`. -/
theorem labelRx_beforeComment_of_ok (n : Nat) (st st1 : State) (raw : Str)
    (h : Compile_Line n st raw = .ok st1) (hreal : realInstruction raw = true) :
    regex_match (beforeComment (Strip raw)) labelRx = false := by
  obtain ⟨hne, hlab⟩ := (realInstruction_iff raw).mp hreal
  apply Bool.eq_false_iff.mpr
  intro hm
  have hadr : regex_match (beforeComment (Strip raw)) addressRx = false := by
    apply Bool.eq_false_iff.mpr
    intro ha
    obtain ⟨t, ht⟩ := addressRx_head _ ha
    obtain ⟨u, hu⟩ := labelRx_head _ hm
    rw [ht] at hu
    cases hu
  have heq : '=' ∉ beforeComment (Strip raw) := by
    intro hmem
    have := labelRx_false_of_mem _ '=' hmem (by decide) (by decide) (by decide)
    rw [hm] at this
    cases this
  have hsemi : ';' ∉ beforeComment (Strip raw) := by
    intro hmem
    have := labelRx_false_of_mem _ ';' hmem (by decide) (by decide) (by decide)
    rw [hm] at this
    cases this
  rw [Compile_Line_no_separator n st raw hne hlab hadr heq hsemi] at h
  cases h

theorem substr_labelName (s : Str) : substr s 1 (s.length - 2) = labelName s := by
  simp only [substr, labelName, List.dropLast_eq_take, List.length_drop]
  rfl

/-- One step of pass 1 on a line that pass 2 processes without error: a real
instruction advances the program counter, a label definition binds its name to the
program counter, every other line is skipped. -/
theorem Process_Labels.loop_cons (PC : Nat) (st : State) (raw : Str) (rest : List Str)
    (n : Nat) (st2 st3 : State) (hok : Compile_Line n st2 raw = .ok st3) :
    Process_Labels.loop PC st (raw :: rest) =
      if realInstruction raw then Process_Labels.loop ((PC + 1) % 2 ^ 32) st rest
      else if isLabelDefinition (Strip raw) then
        Process_Labels.loop PC (Add_New_Symbol st (labelName (Strip raw)) (PC : Int)) rest
      else Process_Labels.loop PC st rest := by
  by_cases hreal : realInstruction raw = true
  · obtain ⟨hne, hlab⟩ := (realInstruction_iff raw).mp hreal
    obtain ⟨hemp, hcom, hsplit, -⟩ := Strip_facts_of_beforeComment raw hne
    have hlab2 := labelRx_beforeComment_of_ok n st2 st3 raw hok hreal
    simp only [Process_Labels.loop, hcom, hemp, Bool.or_false, Bool.false_eq_true, if_false,
      hsplit, hlab2, hreal, if_true]
  · have hf : realInstruction raw = false := by simpa using hreal
    simp only [hf, Bool.false_eq_true, if_false]
    by_cases hlab : regex_match (Strip raw) labelRx = true
    · have hslash := labelRx_not_mem_slash _ hlab
      obtain ⟨u, hu⟩ := labelRx_head _ hlab
      have hne : beforeComment (Strip raw) ≠ [] := by
        rw [beforeComment_eq_self _ hslash, hu]
        simp
      obtain ⟨hemp, hcom, hsplit, -⟩ := Strip_facts_of_beforeComment raw hne
      rw [beforeComment_eq_self _ hslash] at hsplit
      simp only [Process_Labels.loop, hcom, hemp, Bool.or_false, Bool.false_eq_true, if_false,
        hsplit, hlab, isLabelDefinition, if_true, substr_labelName]
    · have hlabf : regex_match (Strip raw) labelRx = false := by simpa using hlab
      have hbc : beforeComment (Strip raw) = [] := by
        by_contra hne
        have := (realInstruction_iff raw).mpr ⟨hne, hlabf⟩
        rw [hf] at this
        cases this
      have hskip : (regex_match (Strip raw) commentRx || (Strip raw).isEmpty) = true := by
        rcases (beforeComment_eq_nil_iff _).mp hbc with h0 | hp
        · simp [h0]
        · rcases comment_or_bare raw hp with hc | hb
          · simp [hc]
          · rw [Compile_Line_bare n st2 raw hb] at hok
            cases hok
      simp only [Process_Labels.loop, hskip, if_true, isLabelDefinition, hlabf,
        Bool.false_eq_true, if_false]

end HackC

namespace HackC

theorem Compile_Hack_Code.loop_all_ok (prog : List Str) (n : Nat) (st st' : State)
    (h : Compile_Hack_Code.loop n st prog = (st', Option.none)) (hn0 : n ≤ INT_MAX) :
    (∀ raw ∈ prog, ∃ m st2 st3, Compile_Line m st2 raw = .ok st3) ∧
      n + prog.length ≤ INT_MAX := by
  induction prog generalizing n st with
  | nil => exact ⟨by simp, by simpa using hn0⟩
  | cons l prog ih =>
    obtain ⟨st1, hl, hn, hrest⟩ := Compile_Hack_Code.loop_cons_ok n st st' l prog h
    obtain ⟨h1, h2⟩ := ih (n + 1) st1 hrest (by omega)
    refine ⟨?_, ?_⟩
    · intro raw hraw
      rcases List.mem_cons.mp hraw with rfl | hraw
      · exact ⟨n, st, st1, hl⟩
      · exact h1 raw hraw
    · simp only [List.length_cons]
      omega

/-- Pass 1 keeps the allocation counter, the output and every binding that is present. -/
theorem Process_Labels.loop_frame (prog : List Str) (PC : Nat) (st st1 : State)
    (hok : ∀ raw ∈ prog, ∃ m st2 st3, Compile_Line m st2 raw = .ok st3)
    (h : Process_Labels.loop PC st prog = .ok st1) :
    st1.NEXT_SYMBOL_VALUE = st.NEXT_SYMBOL_VALUE ∧ st1.BINARY = st.BINARY ∧
      ∀ x v, st.SYMBOLS.lookup x = some v → st1.SYMBOLS.lookup x = some v := by
  induction prog generalizing PC st with
  | nil =>
    simp only [Process_Labels.loop, Except.ok.injEq] at h
    subst h
    exact ⟨rfl, rfl, fun _ _ hx => hx⟩
  | cons raw prog ih =>
    obtain ⟨m, st2, st3, hraw⟩ := hok raw (List.mem_cons_self _ _)
    have hok2 : ∀ r ∈ prog, ∃ m st2 st3, Compile_Line m st2 r = .ok st3 :=
      fun r hr => hok r (List.mem_cons_of_mem _ hr)
    rw [Process_Labels.loop_cons PC st raw prog m st2 st3 hraw] at h
    split at h
    · exact ih _ _ hok2 h
    · split at h
      · obtain ⟨a, b, c⟩ := ih _ _ hok2 h
        obtain ⟨a2, b2, -⟩ := Add_New_Symbol_label st (labelName (Strip raw)) PC
        exact ⟨a.trans a2, b.trans b2,
          fun x v hx => c x v (Add_New_Symbol_lookup st _ _ x v hx)⟩
      · exact ih _ _ hok2 h

theorem labelName_paren (L : Str) : labelName ('(' :: (L ++ [')'])) = L := by
  simp [labelName]

/-- Pass 1 binds a label that is not yet in the table to the number of real
instructions in front of its first definition (as an `unsigned` value). -/
theorem Process_Labels.loop_binds (prog : List Str) (PC : Nat) (st st1 : State) (L : Str)
    (i : Nat) (raw : Str)
    (hok : ∀ r ∈ prog, ∃ m st2 st3, Compile_Line m st2 r = .ok st3)
    (h : Process_Labels.loop PC st prog = .ok st1)
    (habs : st.SYMBOLS.lookup L = Option.none)
    (hi : prog[i]? = some raw) (hdef : Strip raw = '(' :: (L ++ [')']))
    (hlab : isLabelDefinition (Strip raw) = true)
    (hfirst : ∀ k r, k < i → prog[k]? = some r → Strip r ≠ '(' :: (L ++ [')'])) :
    st1.SYMBOLS.lookup L = some ((PC + realCount (prog.take i)) % 2 ^ 32) := by
  induction prog generalizing PC st i with
  | nil => simp at hi
  | cons l prog ih =>
    obtain ⟨m, st2, st3, hl⟩ := hok l (List.mem_cons_self _ _)
    have hok2 : ∀ r ∈ prog, ∃ m st2 st3, Compile_Line m st2 r = .ok st3 :=
      fun r hr => hok r (List.mem_cons_of_mem _ hr)
    rw [Process_Labels.loop_cons PC st l prog m st2 st3 hl] at h
    cases i with
    | zero =>
      simp only [List.getElem?_cons_zero, Option.some.injEq] at hi
      subst hi
      have hnot : realInstruction l = false := by
        simp only [realInstruction, hlab, Bool.not_true, Bool.and_false]
      simp only [hnot, Bool.false_eq_true, if_false, hlab, if_true] at h
      rw [hdef, labelName_paren] at h
      obtain ⟨-, -, hkeep⟩ := Process_Labels.loop_frame prog PC _ st1 hok2 h
      have hb := (Add_New_Symbol_label st L PC).2.2 habs
      have : (Add_New_Symbol st L (PC : Int)).SYMBOLS.lookup L = some (PC % 2 ^ 32) := by
        rw [hb, List.lookup_append, habs]
        simp [List.lookup]
      simpa [realCount] using hkeep L _ this
    | succ i =>
      simp only [List.getElem?_cons_succ] at hi
      have hfirst2 : ∀ k r, k < i → prog[k]? = some r → Strip r ≠ '(' :: (L ++ [')']) := by
        intro k r hk hr
        exact hfirst (k + 1) r (by omega) (by simpa using hr)
      have hl0 : Strip l ≠ '(' :: (L ++ [')']) := hfirst 0 l (by omega) (by simp)
      have hcount : realCount ((l :: prog).take (i + 1)) =
          (if realInstruction l then 1 else 0) + realCount (prog.take i) := by
        by_cases hr : realInstruction l = true
        · simp only [realCount, List.take_succ_cons, List.countP_cons, hr, if_true]
          omega
        · simp only [realCount, List.take_succ_cons, List.countP_cons, hr, if_false]
          omega
      rw [hcount]
      split at h
      · rename_i hreal
        rw [ih _ _ i hok2 h habs hi hfirst2]
        simp only [hreal, if_true, show (2 : Nat) ^ 32 = 4294967296 from rfl]
        congr 1
        omega
      · rename_i hreal
        simp only [hreal, Bool.false_eq_true, if_false, Nat.zero_add]
        split at h
        · rename_i hlabl
          have hne : labelName (Strip l) ≠ L := by
            intro he
            apply hl0
            obtain ⟨c, t, hs, -⟩ := (labelRx_iff _).mp hlabl
            rw [hs] at he ⊢
            have : labelName ('(' :: c :: (t ++ [')'])) = c :: t := by
              have := labelName_paren (c :: t)
              simpa using this
            rw [this] at he
            rw [← he]
            simp
          have hkeep : (Add_New_Symbol st (labelName (Strip l)) (PC : Int)).SYMBOLS.lookup L =
              Option.none := by
            by_cases hs : st.SYMBOLS.lookup (labelName (Strip l)) = Option.none
            · rw [(Add_New_Symbol_label st _ PC).2.2 hs, List.lookup_append, habs]
              have : (L == labelName (Strip l)) = false := by
                simpa using fun e => hne e.symm
              simp [List.lookup, this]
            · have hpres : labelName (Strip l) ∈ st.SYMBOLS.map Prod.fst := by
                apply (lookup_isSome_iff_mem_keys _ _).mp
                cases hq : st.SYMBOLS.lookup (labelName (Strip l)) with
                | none => exact absurd hq hs
                | some v => rfl
              rw [Add_New_Symbol_present st _ _ hpres]
              exact habs
          exact ih _ _ i hok2 h hkeep hi hfirst2
        · exact ih _ _ i hok2 h habs hi hfirst2

end HackC

namespace HackC

theorem identStart_not_digit (c : Char) (h : identStart c = true) : isdigit c = false := by
  simp only [identStart, isLetter, Bool.or_eq_true, Bool.and_eq_true, decide_eq_true_eq,
    beq_iff_eq] at h
  simp only [isdigit, Bool.and_eq_false_iff, decide_eq_false_iff_not]
  rcases h with ((((h | h) | rfl) | rfl) | rfl) | rfl
  · omega
  · omega
  · decide
  · decide
  · decide
  · decide

/-- The name of a label definition is an identifier, so `@name` is an address
instruction whose target is not a number. -/
theorem address_of_label (L : Str) (h : regex_match ('(' :: (L ++ [')'])) labelRx = true) :
    regex_match ('@' :: L) addressRx = true ∧ Is_String_Number L = false := by
  obtain ⟨c, t, hs, hc, ht⟩ := (labelRx_iff _).mp h
  have hL : L = c :: t := by
    have h1 : L ++ [')'] = (c :: t) ++ [')'] := by
      simpa using hs
    exact List.append_cancel_right h1
  subst hL
  refine ⟨(addressRx_iff _).mpr ⟨_, rfl, Or.inl ⟨c, t, rfl, hc, ht⟩⟩, ?_⟩
  simp [Is_String_Number, identStart_not_digit c hc]

theorem split_at_index (prog : List Str) (j : Nat) (lj : Str) (hj : prog[j]? = some lj) :
    prog = prog.take j ++ lj :: prog.drop (j + 1) := by
  obtain ⟨hlt, hget⟩ := List.getElem?_eq_some.mp hj
  conv_lhs => rw [← List.take_append_drop j prog, List.drop_eq_getElem_cons hlt, hget]

/-- Claim C3 (label resolution across both passes).  Let pass 1, started from the
predefined symbol table, and then pass 2 both complete on a program.  Let `L` be a
name that is not predefined and whose first label definition `(L)` is line `i`
(counted from 0), and let `p` be the number of real instructions in front of that line.
Then pass 1 binds `L` to `p`, and every address instruction `@L`, on whatever line `j`
in front of or behind line `i`, emits the word `0` followed by the 15 binary digits of
`p`: that word is the output word whose index is the number of real instructions in
front of line `j`.  Label definitions are not counted by `p`. -/
theorem label_resolution (hack_code : List Str) (st1 st2 : State) (L : Str) (i j : Nat)
    (li lj : Str)
    (h1 : Process_Labels State.initial hack_code = .ok st1)
    (h2 : Compile_Hack_Code st1 hack_code = (st2, Option.none))
    (hpre : L ∉ SYMBOLS.map Prod.fst)
    (hi : hack_code[i]? = some li) (hdef : Strip li = '(' :: (L ++ [')']))
    (hlab : isLabelDefinition (Strip li) = true)
    (hfirst : ∀ k r, k < i → hack_code[k]? = some r → Strip r ≠ '(' :: (L ++ [')']))
    (hj : hack_code[j]? = some lj) (hat : beforeComment (Strip lj) = '@' :: L) :
    st1.SYMBOLS.lookup L = some (realCount (hack_code.take i)) ∧
      st2.BINARY[realCount (hack_code.take j)]? =
        some ('0' :: bitset15 (realCount (hack_code.take i))) := by
  obtain ⟨hok, hlen⟩ := Compile_Hack_Code.loop_all_ok hack_code 1 st1 st2 h2 (by decide)
  have habs : State.initial.SYMBOLS.lookup L = Option.none := by
    cases hl : State.initial.SYMBOLS.lookup L with
    | none => rfl
    | some v =>
      have hsome : (State.initial.SYMBOLS.lookup L).isSome = true := by rw [hl]; rfl
      exact absurd ((lookup_isSome_iff_mem_keys _ L).mp hsome) hpre
  have hbind := Process_Labels.loop_binds hack_code 0 State.initial st1 L i li hok h1 habs hi
    hdef hlab hfirst
  have hp : realCount (hack_code.take i) < 2 ^ 32 := by
    have h3 : realCount (hack_code.take i) ≤ (hack_code.take i).length :=
      List.countP_le_length _
    have h4 : (hack_code.take i).length ≤ hack_code.length := by
      simp [List.length_take]
    simp only [INT_MAX] at hlen
    omega
  rw [Nat.zero_add, Nat.mod_eq_of_lt hp] at hbind
  refine ⟨hbind, ?_⟩
  obtain ⟨hnext, hbin, -⟩ := Process_Labels.loop_frame hack_code 0 State.initial st1 hok h1
  have hsplit := split_at_index hack_code j lj hj
  have h2' : Compile_Hack_Code.loop 1 st1 (hack_code.take j ++ lj :: hack_code.drop (j + 1)) =
      (st2, Option.none) := by
    rw [← hsplit]
    exact h2
  obtain ⟨stj, hj1, hj2⟩ := Compile_Hack_Code.loop_split _ _ 1 st1 st2 h2'
  obtain ⟨stj1, hline, -, hrest⟩ := Compile_Hack_Code.loop_cons_ok _ stj st2 lj _ hj2
  obtain ⟨new1, hb1, hc1⟩ := Compile_Hack_Code.loop_count _ 1 st1 stj hj1
  obtain ⟨new2, hb2, -⟩ := Compile_Hack_Code.loop_count _ _ stj1 st2 hrest
  have hsym := (Compile_Hack_Code.loop_symbols _ 1 st1 stj hj1
    (by rw [hnext]; simp only [INT_MAX, State.initial]; omega)).1
  have hLj : stj.SYMBOLS.lookup L = some (realCount (hack_code.take i)) := by
    rw [hsym, List.lookup_append, hbind]
    rfl
  have hmem : L ∈ stj.SYMBOLS.map Prod.fst :=
    (lookup_isSome_iff_mem_keys _ L).mp (by simp [hLj])
  obtain ⟨hadr, hnum⟩ := address_of_label L (by
    have := hlab
    rwa [isLabelDefinition, hdef] at this)
  rw [Compile_Line_address _ stj lj L hat hadr, hnum, if_neg (by simp),
    Add_New_Symbol_present stj L _ hmem, hLj] at hline
  injection hline with hline
  rw [hb2, ← hline, hb1, hbin]
  simp only [State.initial, List.nil_append, Option.getD_some]
  rw [← hc1, List.append_assoc, List.getElem?_append_right (Nat.le_refl _), Nat.sub_self]
  simp

/-- Witness for claim C3: `(LOOP)`, `@LOOP`, `0;JMP` binds `LOOP` to 0 and `@LOOP` gives
`0000000000000000`; in the second program the forward reference `@END` on the first
line resolves to 2. -/
theorem label_resolution_witness :
    (Compile_Hack_Code (⟨SYMBOLS ++ [("LOOP".toList, 0)], 16, []⟩ : State)
        ["(LOOP)".toList, "@LOOP".toList, "0;JMP".toList]).1.BINARY[0]? =
      some "0000000000000000".toList ∧
    (Compile_Hack_Code (⟨SYMBOLS ++ [("END".toList, 2)], 16, []⟩ : State)
        ["@END // jump".toList, "0;JMP".toList, " ( END ) ".toList, "D=A".toList]).1.BINARY[0]? =
      some "0000000000000010".toList :=
  ⟨(label_resolution ["(LOOP)".toList, "@LOOP".toList, "0;JMP".toList]
      ⟨SYMBOLS ++ [("LOOP".toList, 0)], 16, []⟩
      (Compile_Hack_Code (⟨SYMBOLS ++ [("LOOP".toList, 0)], 16, []⟩ : State)
        ["(LOOP)".toList, "@LOOP".toList, "0;JMP".toList]).1
      "LOOP".toList 0 1 "(LOOP)".toList "@LOOP".toList rfl (by decide) (by decide) rfl
      (by decide) (by decide) (fun k r hk => absurd hk (Nat.not_lt_zero k)) rfl
      (by decide)).2,
   (label_resolution
      ["@END // jump".toList, "0;JMP".toList, " ( END ) ".toList, "D=A".toList]
      ⟨SYMBOLS ++ [("END".toList, 2)], 16, []⟩
      (Compile_Hack_Code (⟨SYMBOLS ++ [("END".toList, 2)], 16, []⟩ : State)
        ["@END // jump".toList, "0;JMP".toList, " ( END ) ".toList, "D=A".toList]).1
      "END".toList 2 0 " ( END ) ".toList "@END // jump".toList rfl (by decide) (by decide) rfl
      (by decide) (by decide)
      (fun k r hk hr => by
        have hk2 : k = 0 ∨ k = 1 := by omega
        rcases hk2 with rfl | rfl
        · simp only [List.getElem?_cons_zero, Option.some.injEq] at hr
          subst hr
          decide
        · simp only [List.getElem?_cons_succ, List.getElem?_cons_zero, Option.some.injEq] at hr
          subst hr
          decide)
      rfl (by decide)).2⟩

end HackC

namespace HackC

/-! ## Termination of the loop of `Split_String` -/

theorem findAux_ge (delim s : Str) (i p : Nat) (h : findAux delim s i = some p) : i ≤ p := by
  induction s generalizing i with
  | nil =>
    simp only [findAux] at h
    split at h
    · injection h with h
      omega
    · cases h
  | cons c s ih =>
    simp only [findAux] at h
    split at h
    · injection h with h
      omega
    · have := ih (i + 1) h
      omega

/-- The bound on the iterations of the loop of `Split_String` is never reached: for a
non-empty delimiter, any larger bound gives the same tokens. -/
theorem Split_String.loop_fuel (str delim : Str) (hd : delim ≠ []) (fuel extra prev : Nat)
    (tokens : List Str) (h : str.length < prev + fuel) :
    Split_String.loop str delim (fuel + extra) prev tokens =
      Split_String.loop str delim fuel prev tokens := by
  have hdl : 0 < delim.length := List.length_pos.mpr hd
  induction fuel generalizing prev tokens with
  | zero =>
    cases extra with
    | zero => rfl
    | succ extra =>
      have hfind : find str delim prev = Option.none := by
        simp only [find]
        rw [if_neg (by omega)]
      have hdrop : List.drop prev str = [] := List.drop_eq_nil_of_le (by omega)
      simp [Split_String.loop, hfind, substr, hdrop]
  | succ fuel ih =>
    rw [show fuel + 1 + extra = (fuel + extra) + 1 by omega]
    simp only [Split_String.loop]
    split
    · rename_i hcond
      simp only [Bool.and_eq_true, decide_eq_true_eq] at hcond
      apply ih
      cases hf : find str delim prev with
      | none =>
        rw [hf] at hcond
        simp at hcond
      | some p =>
        simp only [find] at hf
        split at hf
        · have := findAux_ge _ _ _ _ hf
          simp only [Option.getD_some]
          omega
        · cases hf
    · rfl

/-- The function `Split_String` is total: the result does not depend on the iteration
bound, however large it is taken. -/
theorem Split_String_total (str delim : Str) (hd : delim ≠ []) (extra : Nat) :
    Split_String.loop str delim (str.length + 1 + extra) 0 [] = Split_String str delim :=
  Split_String.loop_fuel str delim hd (str.length + 1) extra 0 [] (by omega)

end HackC

namespace HackC

/-! ## Identifiers and address instructions written without comment -/

theorem identChar_not_space (c : Char) (h : identChar c = true) :
    isspace c = false ∧ c ≠ '/' := by
  simp only [identChar, isLetter, isdigit, Bool.or_eq_true, Bool.and_eq_true,
    decide_eq_true_eq, beq_iff_eq] at h
  simp only [isspace, Bool.or_eq_false_iff, beq_eq_false_iff_ne, Bool.and_eq_false_iff,
    decide_eq_false_iff_not, ne_eq]
  rcases h with (((((h | h) | h) | rfl) | rfl) | rfl) | rfl
  · exact ⟨⟨by omega, by omega⟩, by rintro rfl; simp at h⟩
  · exact ⟨⟨by omega, by omega⟩, by rintro rfl; simp at h⟩
  · exact ⟨⟨by omega, by omega⟩, by rintro rfl; simp at h⟩
  · decide
  · decide
  · decide
  · decide

theorem identStart_iff (c : Char) :
    identStart c = true ↔ identChar c = true ∧ isdigit c = false := by
  constructor
  · intro h
    refine ⟨?_, identStart_not_digit c h⟩
    simp only [identStart, identChar, Bool.or_eq_true] at h ⊢
    tauto
  · rintro ⟨h1, h2⟩
    simp only [identStart, identChar, Bool.or_eq_true, h2, Bool.false_eq_true, or_false] at h1 ⊢
    exact h1

/-- A valid identifier is a character of the class `[a-zA-Z.:$_]` followed by
characters of the class `[a-zA-Z0-9.:$_]`. -/
theorem validIdentifier_iff (s : Str) :
    validIdentifier s = true ↔
      ∃ c t, s = c :: t ∧ identStart c = true ∧ ∀ x ∈ t, identChar x = true := by
  cases s with
  | nil => simp [validIdentifier]
  | cons c t =>
    simp only [validIdentifier, List.isEmpty_cons, Bool.not_false, Bool.true_and,
      List.all_cons, Bool.and_eq_true, List.all_eq_true, Bool.not_eq_true']
    constructor
    · rintro ⟨⟨hc, ht⟩, hd⟩
      exact ⟨c, t, rfl, (identStart_iff c).mpr ⟨hc, hd⟩, ht⟩
    · rintro ⟨c', t', he, hc, ht⟩
      injection he with h1 h2
      subst h1
      subst h2
      exact ⟨⟨((identStart_iff c).mp hc).1, ht⟩, ((identStart_iff c).mp hc).2⟩

/-- A line `@t` without white space and without `/` is its own text in front of the
comment. -/
theorem beforeComment_at (t : Str) (hws : ∀ c ∈ t, isspace c = false) (hsl : '/' ∉ t) :
    beforeComment (Strip ('@' :: t)) = '@' :: t := by
  have hstrip : Strip ('@' :: t) = '@' :: t := by
    apply Strip_eq_self
    intro c hc
    rcases List.mem_cons.mp hc with rfl | hc
    · decide
    · exact hws c hc
  rw [hstrip]
  apply beforeComment_eq_self
  intro hc
  rcases List.mem_cons.mp hc with h | hc
  · exact absurd h (by decide)
  · exact hsl hc

/-- The line `@x` for a valid identifier `x`: the call `Add_New_Symbol(x)`, then the
word of the value bound to `x`. -/
theorem Compile_Line_identifier (n : Nat) (st : State) (x : Str)
    (hx : validIdentifier x = true) :
    Compile_Line n st ('@' :: x) =
      .ok ⟨(Add_New_Symbol st x (-1)).SYMBOLS, (Add_New_Symbol st x (-1)).NEXT_SYMBOL_VALUE,
        (Add_New_Symbol st x (-1)).BINARY ++
          ['0' :: bitset15 (((Add_New_Symbol st x (-1)).SYMBOLS.lookup x).getD 0)]⟩ := by
  obtain ⟨c, t, rfl, hc, ht⟩ := (validIdentifier_iff x).mp hx
  have hall : ∀ y ∈ c :: t, identChar y = true := by
    intro y hy
    rcases List.mem_cons.mp hy with rfl | hy
    · exact ((identStart_iff _).mp hc).1
    · exact ht y hy
  have hbc := beforeComment_at (c :: t) (fun y hy => (identChar_not_space y (hall y hy)).1)
    (fun hm => (identChar_not_space _ (hall _ hm)).2 rfl)
  have hm : regex_match ('@' :: c :: t) addressRx = true :=
    (addressRx_iff _).mpr ⟨_, rfl, Or.inl ⟨c, t, rfl, hc, ht⟩⟩
  have hnum : Is_String_Number (c :: t) = false := by
    simp [Is_String_Number, identStart_not_digit c hc]
  rw [Compile_Line_address n st _ _ hbc hm, hnum, if_neg (by simp)]

/-- The line `@ds` for a non-empty string of digits `ds`. -/
theorem Compile_Line_digits (n : Nat) (st : State) (ds : Str) (hne : ds ≠ [])
    (hdig : ∀ x ∈ ds, isdigit x = true) :
    Compile_Line n st ('@' :: ds) =
      .ok ⟨st.SYMBOLS, st.NEXT_SYMBOL_VALUE, st.BINARY ++ ['0' :: bitset15 (atoi ds)]⟩ := by
  have hid : ∀ x ∈ ds, identChar x = true := by
    intro x hx
    simp [identChar, hdig x hx]
  have hbc := beforeComment_at ds (fun y hy => (identChar_not_space y (hid y hy)).1)
    (fun hm => (identChar_not_space _ (hid _ hm)).2 rfl)
  have hm : regex_match ('@' :: ds) addressRx = true :=
    (addressRx_iff _).mpr ⟨_, rfl, Or.inr ⟨hne, hdig⟩⟩
  rw [Compile_Line_address n st _ _ hbc hm, (Is_String_Number_iff _).mpr hdig, if_pos rfl]

/-- The value that `atoi` reads from a decimal numeral with leading zeros. -/
theorem atoi_literal (z n : Nat) (hn : n < 2 ^ 32) :
    atoi (List.replicate z '0' ++ (Nat.repr n).toList) = n := by
  simp only [atoi, decimalValue_zeros, (repr_spec n).2.2]
  omega

theorem literal_digits (z n : Nat) :
    List.replicate z '0' ++ (Nat.repr n).toList ≠ [] ∧
      ∀ x ∈ List.replicate z '0' ++ (Nat.repr n).toList, isdigit x = true := by
  obtain ⟨hne, hdig, -⟩ := repr_spec n
  refine ⟨fun h => hne (List.append_eq_nil.mp h).2, ?_⟩
  intro x hx
  rcases List.mem_append.mp hx with hx | hx
  · rw [(List.mem_replicate.mp hx).2]
    decide
  · exact hdig x hx

/-- The word of `std::bitset<15>` only depends on the 15 low bits of the number. -/
theorem bitset15_mod (n : Nat) : bitset15 (n % 2 ^ 15) = bitset15 n := by
  unfold bitset15
  apply List.map_congr_left
  intro i hi
  have hi15 : i < 15 := by simpa using hi
  have hpow : (2 : Nat) ^ 15 = 2 ^ i * 2 ^ (15 - i) := by
    rw [← Nat.pow_add]
    congr 1
    omega
  have h2 : 2 ∣ 2 ^ (15 - i) := dvd_pow_self 2 (by omega)
  have : n % 2 ^ 15 / 2 ^ i % 2 = n / 2 ^ i % 2 := by
    rw [hpow, Nat.mod_mul_right_div_self, Nat.mod_mod_of_dvd _ h2]
  rw [this]

end HackC

namespace HackC

/-! ## Truncation of address values -/

/-- Claim C20 (out-of-range address values are truncated).  For every number `n` with
`32768 ≤ n < 2 ^ 31`, written in decimal with `z` leading zeros, the line `@n` is
accepted in any state and appends `0` followed by the 15 binary digits of
`n mod 32768`; and for every valid identifier `x` bound to a value `v` (in particular
`v ≥ 32768`), the line `@x` appends `0` followed by the 15 binary digits of
`v mod 32768` and changes nothing else.  The first character of the word is `0` in
both cases. -/
theorem address_truncation (ln : Nat) (st : State) (z n : Nat) (h1 : 32768 ≤ n)
    (h2 : n < 2 ^ 31) :
    Compile_Line ln st ('@' :: (List.replicate z '0' ++ (Nat.repr n).toList)) =
        .ok ⟨st.SYMBOLS, st.NEXT_SYMBOL_VALUE,
          st.BINARY ++ ['0' :: bitset15 (n % 32768)]⟩ ∧
      bitsValue (bitset15 (n % 32768)) = n % 32768 ∧
      ∀ x v, validIdentifier x = true → st.SYMBOLS.lookup x = some v →
        Compile_Line ln st ('@' :: x) =
            .ok ⟨st.SYMBOLS, st.NEXT_SYMBOL_VALUE,
              st.BINARY ++ ['0' :: bitset15 (v % 32768)]⟩ ∧
          bitsValue (bitset15 (v % 32768)) = v % 32768 := by
  have hval : ∀ m, bitsValue (bitset15 (m % 32768)) = m % 32768 := by
    intro m
    rw [bitsValue_bitset15]
    omega
  have hmod : ∀ m, bitset15 (m % 32768) = bitset15 m := fun m => bitset15_mod m
  refine ⟨?_, hval n, ?_⟩
  · obtain ⟨hne, hdig⟩ := literal_digits z n
    rw [Compile_Line_digits ln st _ hne hdig, atoi_literal z n (by omega), hmod]
  · intro x v hx hv
    have hmem : x ∈ st.SYMBOLS.map Prod.fst :=
      (lookup_isSome_iff_mem_keys _ x).mp (by rw [hv]; rfl)
    refine ⟨?_, hval v⟩
    rw [Compile_Line_identifier ln st x hx, Add_New_Symbol_present st x _ hmem, hv, hmod]
    rfl

/-- Witness for claim C20: `@32768` gives `0000000000000000`. -/
theorem address_truncation_witness :
    Compile_Line 1 State.initial "@32768".toList =
      .ok ⟨SYMBOLS, 16, ["0000000000000000".toList]⟩ :=
  (address_truncation 1 State.initial 0 32768 (by decide) (by decide)).1

/-! ## Aliases in the tables -/

theorem encodeCompute_no_jump (n : Nat) (st : State) (fill d c : Str) :
    encodeCompute n st fill d c [] = encodeCompute n st fill d c "NULL".toList := by
  simp [encodeCompute]

theorem encodeCompute_no_destination (n : Nat) (st : State) (fill c j : Str) :
    encodeCompute n st fill [] c j = encodeCompute n st fill "NULL".toList c j := by
  simp [encodeCompute]

/-- The three forms of compute instruction on entries of the tables. -/
theorem Compile_Line_entries (n : Nat) (st : State) (d db c cb j jb : Str)
    (hd : (d, db) ∈ DESTINATIONS) (hc : (c, cb) ∈ COMPUTATIONS) (hj : (j, jb) ∈ JUMPS) :
    Compile_Line n st (d ++ '=' :: (c ++ ';' :: j)) =
        .ok ⟨st.SYMBOLS, st.NEXT_SYMBOL_VALUE,
          st.BINARY ++ ["111".toList ++ cb ++ db ++ jb]⟩ ∧
    Compile_Line n st (d ++ '=' :: c) =
        .ok ⟨st.SYMBOLS, st.NEXT_SYMBOL_VALUE,
          st.BINARY ++ ["111".toList ++ cb ++ db ++ "000".toList]⟩ ∧
    Compile_Line n st (c ++ ';' :: j) =
        .ok ⟨st.SYMBOLS, st.NEXT_SYMBOL_VALUE,
          st.BINARY ++ ["111".toList ++ cb ++ "000".toList ++ jb]⟩ := by
  have hd1 := (DESTINATIONS_entries _ hd).1
  have hc1 := (COMPUTATIONS_entries _ hc).1
  have hj1 := (JUMPS_entries _ hj).1
  simp only at hd1 hc1 hj1
  obtain ⟨-, hdw, -, -, hdl⟩ := (plainToken_iff d).mp hd1
  obtain ⟨-, hcw, -, -, hcl⟩ := (plainToken_iff c).mp hc1
  obtain ⟨-, hjw, -, -, hjl⟩ := (plainToken_iff j).mp hj1
  refine ⟨?_, ?_, ?_⟩
  · rw [Compile_Line_compute n st _
        (plainToken_line_isspace d _ _ hd1 (by decide)
          (plainToken_line_isspace c _ _ hc1 (by decide) hjw))
        (by simp [hdl, hcl, hjl]) (Or.inl (by simp)),
      parseCompute_dest_comp_jump n _ d c j hd1 hc1 hj1]
    exact encodeCompute_ok n st _ d db c cb j jb hd hc hj
  · rw [Compile_Line_compute n st _ (plainToken_line_isspace d _ _ hd1 (by decide) hcw)
        (by simp [hdl, hcl]) (Or.inl (by simp)),
      parseCompute_dest_comp n _ d c hd1 hc1]
    simp only
    rw [encodeCompute_no_jump]
    exact encodeCompute_ok n st _ d db c cb _ _ hd hc (by decide)
  · rw [Compile_Line_compute n st _ (plainToken_line_isspace c _ _ hc1 (by decide) hjw)
        (by simp [hcl, hjl]) (Or.inr (by simp)),
      parseCompute_comp_jump n _ c j hc1 hj1]
    simp only
    rw [encodeCompute_no_destination]
    exact encodeCompute_ok n st _ _ _ c cb j jb (by decide) hc hj

/-- The line `@x` for a predefined symbol `x`, in a state whose table begins with the
predefined symbols. -/
theorem Compile_Line_predefined (n : Nat) (st : State) (ext : List (Str × Nat)) (x : Str)
    (v : Nat) (hst : st.SYMBOLS = SYMBOLS ++ ext) (hx : validIdentifier x = true)
    (hv : SYMBOLS.lookup x = some v) :
    Compile_Line n st ('@' :: x) =
      .ok ⟨st.SYMBOLS, st.NEXT_SYMBOL_VALUE, st.BINARY ++ ['0' :: bitset15 v]⟩ := by
  have hl : st.SYMBOLS.lookup x = some v := by
    rw [hst, List.lookup_append, hv]
    rfl
  have hmem : x ∈ st.SYMBOLS.map Prod.fst :=
    (lookup_isSome_iff_mem_keys _ x).mp (by rw [hl]; rfl)
  rw [Compile_Line_identifier n st x hx, Add_New_Symbol_present st x _ hmem, hl]
  rfl

/-- Claim C15 (table aliases).  The mnemonics `D+M` and `M+D` have the same code
`1000010`, so for every entry `(d, db)` of `DESTINATIONS` and `(j, jb)` of `JUMPS` the
instructions built from `D+M` and from `M+D`, in each of the forms `d=c;j`, `d=c` and
`c;j`, append the same word; and `R2` and `R12` are both predefined as 2, so in every
state whose table begins with the predefined symbols `@R2` and `@R12` append the same
word `0000000000000010`. -/
theorem table_aliases (n : Nat) (st : State) (ext : List (Str × Nat)) (d db j jb : Str)
    (hd : (d, db) ∈ DESTINATIONS) (hj : (j, jb) ∈ JUMPS) (hst : st.SYMBOLS = SYMBOLS ++ ext) :
    (tableAt COMPUTATIONS "D+M".toList = "1000010".toList ∧
      tableAt COMPUTATIONS "M+D".toList = "1000010".toList) ∧
    (Compile_Line n st (d ++ '=' :: ("D+M".toList ++ ';' :: j)) =
        .ok ⟨st.SYMBOLS, st.NEXT_SYMBOL_VALUE,
          st.BINARY ++ ["111".toList ++ "1000010".toList ++ db ++ jb]⟩ ∧
      Compile_Line n st (d ++ '=' :: ("M+D".toList ++ ';' :: j)) =
        Compile_Line n st (d ++ '=' :: ("D+M".toList ++ ';' :: j))) ∧
    (Compile_Line n st (d ++ '=' :: "D+M".toList) =
        .ok ⟨st.SYMBOLS, st.NEXT_SYMBOL_VALUE,
          st.BINARY ++ ["111".toList ++ "1000010".toList ++ db ++ "000".toList]⟩ ∧
      Compile_Line n st (d ++ '=' :: "M+D".toList) =
        Compile_Line n st (d ++ '=' :: "D+M".toList)) ∧
    (Compile_Line n st ("D+M".toList ++ ';' :: j) =
        .ok ⟨st.SYMBOLS, st.NEXT_SYMBOL_VALUE,
          st.BINARY ++ ["111".toList ++ "1000010".toList ++ "000".toList ++ jb]⟩ ∧
      Compile_Line n st ("M+D".toList ++ ';' :: j) =
        Compile_Line n st ("D+M".toList ++ ';' :: j)) ∧
    (SYMBOLS.lookup "R2".toList = some 2 ∧ SYMBOLS.lookup "R12".toList = some 2) ∧
    (Compile_Line n st "@R2".toList =
        .ok ⟨st.SYMBOLS, st.NEXT_SYMBOL_VALUE, st.BINARY ++ ["0000000000000010".toList]⟩ ∧
      Compile_Line n st "@R12".toList = Compile_Line n st "@R2".toList) := by
  obtain ⟨a1, a2, a3⟩ := Compile_Line_entries n st d db "D+M".toList "1000010".toList j jb
    hd (by decide) hj
  obtain ⟨b1, b2, b3⟩ := Compile_Line_entries n st d db "M+D".toList "1000010".toList j jb
    hd (by decide) hj
  have r2 := Compile_Line_predefined n st ext "R2".toList 2 hst (by decide) (by decide)
  have r12 := Compile_Line_predefined n st ext "R12".toList 2 hst (by decide) (by decide)
  exact ⟨⟨by decide, by decide⟩, ⟨a1, b1.trans a1.symm⟩, ⟨a2, b2.trans a2.symm⟩,
    ⟨a3, b3.trans a3.symm⟩, ⟨by decide, by decide⟩, ⟨r2, r12.trans r2.symm⟩⟩

/-- Witness for claim C15: `M=D+M;JGT` and `M=M+D;JGT`, and `@R12`. -/
theorem table_aliases_witness :
    Compile_Line 1 State.initial "M=M+D;JGT".toList =
        Compile_Line 1 State.initial "M=D+M;JGT".toList ∧
      Compile_Line 1 State.initial "@R12".toList = Compile_Line 1 State.initial "@R2".toList :=
  ⟨(table_aliases 1 State.initial [] "M".toList "001".toList "JGT".toList "001".toList
      (by decide) (by decide) rfl).2.1.2,
   (table_aliases 1 State.initial [] "M".toList "001".toList "JGT".toList "001".toList
      (by decide) (by decide) rfl).2.2.2.2.2.2⟩

end HackC

namespace HackC

/-! ## Accesses outside the result of `Split_String` -/

/-- Pass 1 follows the branch named by `pass1Class`. -/
theorem Process_Labels.loop_class (PC : Nat) (st : State) (raw : Str) (rest : List Str) :
    Process_Labels.loop PC st (raw :: rest) =
      match pass1Class raw with
      | LineClass.Skip => Process_Labels.loop PC st rest
      | LineClass.Fault => .error Err.OutOfRange
      | LineClass.LabelDef =>
        Process_Labels.loop PC
          (Add_New_Symbol st (labelName (((Split_String (Strip raw) slashes)[0]?).getD []))
            (PC : Int)) rest
      | LineClass.Real => Process_Labels.loop ((PC + 1) % 2 ^ 32) st rest := by
  simp only [Process_Labels.loop, pass1Class]
  split
  · rfl
  · cases hs : (Split_String (Strip raw) slashes)[0]? with
    | none => rfl
    | some line =>
      simp only [Option.getD_some]
      split
      · rw [substr_labelName]
      · rfl

/-- Pass 1 completes on every program without a line on which `Split_String(line, "//")`
is empty. -/
theorem Process_Labels.loop_total (prog : List Str) (PC : Nat) (st : State)
    (h : ∀ raw ∈ prog, pass1Class raw ≠ LineClass.Fault) :
    ∃ st1, Process_Labels.loop PC st prog = .ok st1 := by
  induction prog generalizing PC st with
  | nil => exact ⟨st, rfl⟩
  | cons raw prog ih =>
    have hrest : ∀ r ∈ prog, pass1Class r ≠ LineClass.Fault :=
      fun r hr => h r (List.mem_cons_of_mem _ hr)
    rw [Process_Labels.loop_class]
    cases hc : pass1Class raw with
    | Skip => exact ih _ _ hrest
    | Fault => exact absurd hc (h raw (List.mem_cons_self _ _))
    | LabelDef => exact ih _ _ hrest
    | Real => exact ih _ _ hrest

/-- The only line on which `Split_String(line, "//")` is empty after the comment test
is the bare `//`. -/
theorem pass1Class_fault_iff (raw : Str) :
    pass1Class raw = LineClass.Fault ↔ Strip raw = slashes := by
  constructor
  · intro h
    by_contra hne
    by_cases hbc : beforeComment (Strip raw) = []
    · rcases (beforeComment_eq_nil_iff _).mp hbc with h0 | hp
      · simp [pass1Class, h0] at h
      · rcases comment_or_bare raw hp with hc | hb
        · simp [pass1Class, hc] at h
        · exact hne hb
    · obtain ⟨hemp, hcom, hsplit, -⟩ := Strip_facts_of_beforeComment raw hbc
      simp only [pass1Class, hcom, hemp, Bool.or_false, Bool.false_eq_true, if_false,
        hsplit] at h
      split at h <;> cases h
  · intro h
    simp only [pass1Class, h]
    rfl

/-- Claim C11, evaluated at the failing input.  On the four-line program `@2`, `D=A`,
`//`, `@3` pass 1 reaches the line `//`, which is neither matched by the comment
pattern nor empty; `Split_String(line, "//")` has no token, and the access to `[0]` is
outside the vector. -/
theorem pass1_bare_comment_fails :
    regex_match (Strip "//".toList) commentRx = false ∧
      (Split_String (Strip "//".toList) slashes)[0]? = Option.none ∧
      pass1Class "//".toList = LineClass.Fault ∧
      Process_Labels State.initial ["@2".toList, "D=A".toList, "//".toList, "@3".toList] =
        .error Err.OutOfRange :=
  ⟨by decide, by decide, by decide, rfl⟩

/-- Claim C12, evaluated at the failing input.  The line `(LOOP) // top` is a label
definition for pass 1, which removes the comment before it tests the label pattern and
binds `LOOP` to 0; pass 2 tests the label pattern on the line with its comment, takes
the line for a real instruction and stops with the syntax error. -/
theorem label_with_comment_diverges :
    pass1Class "(LOOP) // top".toList = LineClass.LabelDef ∧
      pass2Class "(LOOP) // top".toList = LineClass.Real ∧
      Process_Labels State.initial
          ["(LOOP) // top".toList, "@LOOP".toList, "0;JMP".toList] =
        .ok ⟨SYMBOLS ++ [("LOOP".toList, 0)], 16, []⟩ ∧
      Compile_Hack_Code ⟨SYMBOLS ++ [("LOOP".toList, 0)], 16, []⟩
          ["(LOOP) // top".toList, "@LOOP".toList, "0;JMP".toList] =
        (⟨SYMBOLS ++ [("LOOP".toList, 0)], 16, []⟩,
          some (Err.SyntaxError "Error on line: 1 => (LOOP) // top".toList)) :=
  ⟨by decide, by decide, rfl, by decide⟩

/-- The output path when neither the base name nor the extension holds a dot. -/
theorem outputPath_plain (base ext : Str) (hb : base ≠ []) (he : ext ≠ [])
    (hbd : '.' ∉ base) (hed : '.' ∉ ext) :
    outputPath (base ++ '.' :: ext) = .ok (base ++ ".hack".toList) := by
  simp [outputPath, Split_String_single_two '.' base ext hb he hbd hed]

/-- Claim C16, evaluated at failing inputs.  For the paths `./prog.asm`, `../x.asm` and
`a.b.asm` (base names `./prog`, `../x`, `a.b`; extension `asm`) the computed output
paths are `/prog.hack`, `/x.hack` and `a.hack`: the first non-empty piece between dots,
not the base name. -/
theorem output_path_with_dots :
    outputPath "./prog.asm".toList = .ok "/prog.hack".toList ∧
      outputPath "../x.asm".toList = .ok "/x.hack".toList ∧
      outputPath "a.b.asm".toList = .ok "a.hack".toList :=
  ⟨rfl, rfl, rfl⟩

/-- Claim C17, evaluated at failing inputs.  The line `==D` matches the guard `.+=.+`,
but `Split_String(line, "=")` has the single token `D`, so `splits[1]` is outside the
vector; the line `a==;b` matches the guard `.+=.+;.+`, but `Split_String(";b", ";")`
has the single token `b`, so its element `[1]` does not exist; and on the line `//` it
is `Split_String(line, "//")` that has no element `[0]`.  In each case the line neither
is skipped, nor appends a word, nor raises the syntax error. -/
theorem guarded_index_out_of_range :
    (regex_match "==D".toList destCompRx = true ∧
      Split_String "==D".toList ['='] = ["D".toList] ∧
      Compile_Line 1 State.initial "==D".toList = .error Err.OutOfRange) ∧
    (regex_match "a==;b".toList destCompJumpRx = true ∧
      Split_String "a==;b".toList ['='] = ["a".toList, ";b".toList] ∧
      Split_String ";b".toList [';'] = ["b".toList] ∧
      Compile_Line 1 State.initial "a==;b".toList = .error Err.OutOfRange) ∧
    Compile_Line 1 State.initial "//".toList = .error Err.OutOfRange :=
  ⟨⟨by decide, by decide, rfl⟩, ⟨by decide, by decide, by decide, rfl⟩, rfl⟩

end HackC

namespace HackC

/-! ## The grammar of identifiers -/

/-- The classification of a non-empty line without white space and without `/`. -/
theorem classes_of_plain (line : Str) (hws : ∀ c ∈ line, isspace c = false)
    (hsl : '/' ∉ line) (hne : line ≠ []) :
    pass1Class line =
        (if regex_match line labelRx then LineClass.LabelDef else LineClass.Real) ∧
      pass2Class line =
        (if regex_match line labelRx then LineClass.LabelDef else LineClass.Real) ∧
      isAddressInstruction line = (!regex_match line labelRx && regex_match line addressRx) := by
  have hstrip := Strip_eq_self line hws
  have hbc : beforeComment (Strip line) = line := by
    rw [hstrip]
    exact beforeComment_eq_self line hsl
  obtain ⟨hemp, hcom, hsplit, -⟩ := Strip_facts_of_beforeComment line (by rw [hbc]; exact hne)
  rw [hbc] at hsplit
  rw [hstrip] at hemp hcom hsplit
  refine ⟨?_, ?_, ?_⟩
  · simp only [pass1Class, hstrip, hcom, hemp, Bool.or_false, Bool.false_eq_true, if_false,
      hsplit]
  · simp only [pass2Class, hstrip, hcom, hemp, Bool.or_false, Bool.false_eq_true, if_false,
      hsplit]
  · simp only [isAddressInstruction, hstrip, hcom, hemp, Bool.or_false, Bool.false_or, hsplit]
    cases regex_match line labelRx <;> simp

theorem labelRx_paren_iff (s : Str) :
    regex_match ('(' :: (s ++ [')'])) labelRx = true ↔ validIdentifier s = true := by
  rw [labelRx_iff, validIdentifier_iff]
  constructor
  · rintro ⟨c, t, hs, hc, ht⟩
    have h1 : s ++ [')'] = (c :: t) ++ [')'] := by simpa using hs
    exact ⟨c, t, List.append_cancel_right h1, hc, ht⟩
  · rintro ⟨c, t, rfl, hc, ht⟩
    exact ⟨c, t, by simp, hc, ht⟩

/-- Claim C13 (identifier grammar).  For every string `s` without white space and
without `/`: the line `(s)` takes the label-definition branch of pass 1, and likewise of
pass 2, if and only if `s` is a valid identifier (non-empty, made of letters, digits,
`.`, `:`, `$`, `_`, not starting with a digit); and the line `@s` takes the
address-instruction branch of pass 2 if and only if `s` is a valid identifier or a
non-empty string of decimal digits. -/
theorem identifier_grammar (s : Str) (hws : ∀ c ∈ s, isspace c = false) (hsl : '/' ∉ s) :
    (pass1Class ('(' :: (s ++ [')'])) = LineClass.LabelDef ↔ validIdentifier s = true) ∧
      (pass2Class ('(' :: (s ++ [')'])) = LineClass.LabelDef ↔ validIdentifier s = true) ∧
      (isAddressInstruction ('@' :: s) = true ↔
        (validIdentifier s = true ∨ (s ≠ [] ∧ ∀ c ∈ s, isdigit c = true))) := by
  have hws1 : ∀ c ∈ '(' :: (s ++ [')']), isspace c = false := by
    intro c hc
    simp only [List.mem_cons, List.mem_append, List.mem_singleton, List.not_mem_nil,
      or_false] at hc
    rcases hc with rfl | hc | rfl
    · decide
    · exact hws c hc
    · decide
  have hsl1 : '/' ∉ '(' :: (s ++ [')']) := by
    intro hc
    simp only [List.mem_cons, List.mem_append, List.mem_singleton, List.not_mem_nil,
      or_false] at hc
    rcases hc with h | hc | h
    · exact absurd h (by decide)
    · exact hsl hc
    · exact absurd h (by decide)
  have hws2 : ∀ c ∈ '@' :: s, isspace c = false := by
    intro c hc
    rcases List.mem_cons.mp hc with rfl | hc
    · decide
    · exact hws c hc
  have hsl2 : '/' ∉ '@' :: s := by
    intro hc
    rcases List.mem_cons.mp hc with h | hc
    · exact absurd h (by decide)
    · exact hsl hc
  obtain ⟨p1, p2, -⟩ := classes_of_plain _ hws1 hsl1 (by simp)
  obtain ⟨-, -, p3⟩ := classes_of_plain _ hws2 hsl2 (by simp)
  refine ⟨?_, ?_, ?_⟩
  · rw [p1, ← labelRx_paren_iff]
    split <;> simp_all
  · rw [p2, ← labelRx_paren_iff]
    split <;> simp_all
  · have hlab : regex_match ('@' :: s) labelRx = false :=
      labelRx_false_of_mem _ '@' (by simp) (by decide) (by decide) (by decide)
    rw [p3, hlab, Bool.not_false, Bool.true_and, addressRx_iff, validIdentifier_iff]
    constructor
    · rintro ⟨t, ht, h⟩
      injection ht with _ ht
      subst ht
      exact h
    · intro h
      exact ⟨s, rfl, h⟩

/-- Witness for claim C13: `sum.1` is a valid identifier, `1sum` is not, `42` is a
number. -/
theorem identifier_grammar_witness :
    pass1Class "(sum.1)".toList = LineClass.LabelDef ∧
      pass2Class "(sum.1)".toList = LineClass.LabelDef ∧
      isAddressInstruction "@sum.1".toList = true ∧
      pass2Class "(1sum)".toList ≠ LineClass.LabelDef ∧
      isAddressInstruction "@1sum".toList ≠ true ∧
      isAddressInstruction "@42".toList = true :=
  ⟨(identifier_grammar "sum.1".toList (by decide) (by decide)).1.mpr (by decide),
   (identifier_grammar "sum.1".toList (by decide) (by decide)).2.1.mpr (by decide),
   (identifier_grammar "sum.1".toList (by decide) (by decide)).2.2.mpr (Or.inl (by decide)),
   fun h => absurd ((identifier_grammar "1sum".toList (by decide) (by decide)).2.1.mp h)
     (by decide),
   fun h => absurd ((identifier_grammar "1sum".toList (by decide) (by decide)).2.2.mp h)
     (by decide),
   (identifier_grammar "42".toList (by decide) (by decide)).2.2.mpr
     (Or.inr ⟨by decide, by decide⟩)⟩

end HackC

namespace HackC

/-! ## Allocation by a single line -/

theorem newVariables_length_le (prog : List Str) (known : List Str) :
    (newVariables known prog).length ≤ prog.length := by
  induction prog generalizing known with
  | nil => simp [newVariables]
  | cons l prog ih =>
    simp only [newVariables, List.length_cons]
    cases referencedIdentifier l with
    | none =>
      have := ih known
      simp only
      omega
    | some y =>
      simp only
      split
      · have := ih known
        omega
      · have := ih (known ++ [y])
        simp only [List.length_cons]
        omega

/-- In every state that pass 2 reaches from a counter of 16, the allocation counter is
below the largest `unsigned` value: the next allocation does not wrap. -/
theorem reachable_counter (T : List (Str × Nat)) (out : List Str) (pre : List Str)
    (st : State) (h : Compile_Hack_Code ⟨T, 16, out⟩ pre = (st, Option.none)) :
    st.NEXT_SYMBOL_VALUE + 1 < 2 ^ 32 := by
  have hlen := (Compile_Hack_Code.loop_all_ok pre 1 ⟨T, 16, out⟩ st h (by decide)).2
  have hnext := (Compile_Hack_Code.loop_symbols pre 1 ⟨T, 16, out⟩ st h
    (by simp only [INT_MAX]; omega)).2
  have hle := newVariables_length_le pre (T.map Prod.fst)
  simp only [INT_MAX] at hlen
  simp only at hnext
  omega

/-- The line of an address instruction on an identifier `x` calls `Add_New_Symbol(x)`
and appends the word of the value then bound to `x`. -/
theorem Compile_Line_referenced (n : Nat) (st : State) (raw x : Str)
    (h : referencedIdentifier raw = some x) :
    Compile_Line n st raw =
      .ok ⟨(Add_New_Symbol st x (-1)).SYMBOLS, (Add_New_Symbol st x (-1)).NEXT_SYMBOL_VALUE,
        (Add_New_Symbol st x (-1)).BINARY ++
          ['0' :: bitset15 (((Add_New_Symbol st x (-1)).SYMBOLS.lookup x).getD 0)]⟩ := by
  simp only [referencedIdentifier, addressTarget] at h
  by_cases hadr : regex_match (beforeComment (Strip raw)) addressRx = true
  · obtain ⟨t, ht⟩ := addressRx_head _ hadr
    have hadr2 : regex_match ('@' :: t) addressRx = true := ht ▸ hadr
    simp only [ht, hadr2, if_true, List.drop_succ_cons, List.drop_zero, Option.filter] at h
    by_cases hnum : Is_String_Number t = true
    · simp [hnum] at h
    · have hnum2 : Is_String_Number t = false := by simpa using hnum
      simp only [hnum2, Bool.not_false, if_true, Option.some.injEq] at h
      subst h
      rw [Compile_Line_address n st raw t ht hadr2, hnum2, if_neg (by simp)]
  · simp [hadr, Option.filter] at h

/-- The state after the loop body of pass 2 has run on one line. -/
theorem Compile_Hack_Code.loop_single (n : Nat) (st : State) (raw : Str) :
    (Compile_Hack_Code.loop n st [raw]).1 =
      match Compile_Line n st raw with
      | .ok st1 => st1
      | .error _ => st := by
  simp only [Compile_Hack_Code.loop]
  cases Compile_Line n st raw with
  | error e => rfl
  | ok st1 =>
    simp only
    split <;> rfl

/-- The variable-allocating call on a name that is absent: one binding is appended and
the `unsigned` counter is incremented. -/
theorem Add_New_Symbol_allocate (st : State) (x : Str) (h : st.SYMBOLS.lookup x = Option.none) :
    Add_New_Symbol st x (-1) =
      ⟨st.SYMBOLS ++ [(x, st.NEXT_SYMBOL_VALUE)], (st.NEXT_SYMBOL_VALUE + 1) % 2 ^ 32,
        st.BINARY⟩ := by
  simp only [Add_New_Symbol, h, Option.isSome_none, Bool.false_eq_true, if_false]
  rw [if_neg (by decide)]

theorem mem_keys_of_lookup (T : List (Str × Nat)) (x : Str) (v : Nat)
    (h : T.lookup x = some v) : x ∈ T.map Prod.fst :=
  (lookup_isSome_iff_mem_keys T x).mp (by rw [h]; rfl)

/-- Claim C14 (idempotent resolution).  In every state, for every valid identifier `x`
absent from the table: the first line `@x` binds `x` to the current
`NEXT_SYMBOL_VALUE`, increments the `unsigned` counter and appends the word of that
value; a second line `@x` right after it, and every later line `@x` in any state whose
table still binds `x` to that value, appends the same word and leaves the table and the
counter unchanged.  In every state that pass 2 reaches (from any table, the counter at
16) the increment does not wrap: the counter grows by exactly 1. -/
theorem idempotent_resolution (st : State) (x : Str) (n : Nat)
    (hx : validIdentifier x = true) (habs : st.SYMBOLS.lookup x = Option.none) :
    Compile_Line n st ('@' :: x) =
        .ok ⟨st.SYMBOLS ++ [(x, st.NEXT_SYMBOL_VALUE)], (st.NEXT_SYMBOL_VALUE + 1) % 2 ^ 32,
          st.BINARY ++ ['0' :: bitset15 st.NEXT_SYMBOL_VALUE]⟩ ∧
      Compile_Line (n + 1)
          ⟨st.SYMBOLS ++ [(x, st.NEXT_SYMBOL_VALUE)], (st.NEXT_SYMBOL_VALUE + 1) % 2 ^ 32,
            st.BINARY ++ ['0' :: bitset15 st.NEXT_SYMBOL_VALUE]⟩ ('@' :: x) =
        .ok ⟨st.SYMBOLS ++ [(x, st.NEXT_SYMBOL_VALUE)], (st.NEXT_SYMBOL_VALUE + 1) % 2 ^ 32,
          st.BINARY ++ ['0' :: bitset15 st.NEXT_SYMBOL_VALUE] ++
            ['0' :: bitset15 st.NEXT_SYMBOL_VALUE]⟩ ∧
      (∀ (st2 : State) (m : Nat), st2.SYMBOLS.lookup x = some st.NEXT_SYMBOL_VALUE →
        Compile_Line m st2 ('@' :: x) =
          .ok ⟨st2.SYMBOLS, st2.NEXT_SYMBOL_VALUE,
            st2.BINARY ++ ['0' :: bitset15 st.NEXT_SYMBOL_VALUE]⟩) ∧
      (∀ (T : List (Str × Nat)) (out pre : List Str),
        Compile_Hack_Code ⟨T, 16, out⟩ pre = (st, Option.none) →
          (st.NEXT_SYMBOL_VALUE + 1) % 2 ^ 32 = st.NEXT_SYMBOL_VALUE + 1) := by
  have hlater : ∀ (st2 : State) (m : Nat), st2.SYMBOLS.lookup x = some st.NEXT_SYMBOL_VALUE →
      Compile_Line m st2 ('@' :: x) =
        .ok ⟨st2.SYMBOLS, st2.NEXT_SYMBOL_VALUE,
          st2.BINARY ++ ['0' :: bitset15 st.NEXT_SYMBOL_VALUE]⟩ := by
    intro st2 m h2
    rw [Compile_Line_identifier m st2 x hx,
      Add_New_Symbol_present st2 x _ (mem_keys_of_lookup _ x _ h2), h2]
    rfl
  have hfirst : (st.SYMBOLS ++ [(x, st.NEXT_SYMBOL_VALUE)]).lookup x =
      some st.NEXT_SYMBOL_VALUE := by
    rw [List.lookup_append, habs]
    simp [List.lookup]
  refine ⟨?_, hlater _ _ hfirst, hlater, ?_⟩
  · rw [Compile_Line_identifier n st x hx, Add_New_Symbol_allocate st x habs]
    simp only [hfirst, Option.getD_some]
  · intro T out pre hreach
    exact Nat.mod_eq_of_lt (reachable_counter T out pre st hreach)

/-- Witness for claim C14: after the line `@2`, two lines `@i` give the word of 16 twice
and bind `i` once. -/
theorem idempotent_resolution_witness :
    Compile_Line 2 ⟨SYMBOLS, 16, ["0000000000000010".toList]⟩ "@i".toList =
        .ok ⟨SYMBOLS ++ [("i".toList, 16)], 17,
          ["0000000000000010".toList, "0000000000010000".toList]⟩ ∧
      Compile_Line 3 ⟨SYMBOLS ++ [("i".toList, 16)], 17,
          ["0000000000000010".toList, "0000000000010000".toList]⟩ "@i".toList =
        .ok ⟨SYMBOLS ++ [("i".toList, 16)], 17,
          ["0000000000000010".toList, "0000000000010000".toList,
            "0000000000010000".toList]⟩ :=
  ⟨(idempotent_resolution ⟨SYMBOLS, 16, ["0000000000000010".toList]⟩
      "i".toList 2 (by decide) (by decide)).1,
   (idempotent_resolution ⟨SYMBOLS, 16, ["0000000000000010".toList]⟩
      "i".toList 2 (by decide) (by decide)).2.1⟩

/-- Claim C18 (frame of pass 2 on the symbol state).  Let the loop body of pass 2 run
on one line, in any state.  If the line is an address instruction whose target is an
identifier `x` absent from the table, the table becomes the old one followed by the
single binding of `x` to the old `NEXT_SYMBOL_VALUE`, and the `unsigned` counter is
incremented.  For every other line (blank, comment, label, address instruction on a
number or on a name that is present, compute instruction, whether it is accepted or
fails) the table and the counter are unchanged.  In every state that pass 2 reaches
(from any table, the counter at 16) the increment does not wrap: the counter grows by
exactly 1. -/
theorem pass2_frame (st : State) (n : Nat) (raw : Str) :
    (∀ x, referencedIdentifier raw = some x → st.SYMBOLS.lookup x = Option.none →
        (Compile_Hack_Code.loop n st [raw]).1.SYMBOLS =
            st.SYMBOLS ++ [(x, st.NEXT_SYMBOL_VALUE)] ∧
          (Compile_Hack_Code.loop n st [raw]).1.NEXT_SYMBOL_VALUE =
            (st.NEXT_SYMBOL_VALUE + 1) % 2 ^ 32) ∧
      ((referencedIdentifier raw = Option.none ∨
          ∃ x v, referencedIdentifier raw = some x ∧ st.SYMBOLS.lookup x = some v) →
        (Compile_Hack_Code.loop n st [raw]).1.SYMBOLS = st.SYMBOLS ∧
          (Compile_Hack_Code.loop n st [raw]).1.NEXT_SYMBOL_VALUE = st.NEXT_SYMBOL_VALUE) ∧
      (∀ (T : List (Str × Nat)) (out pre : List Str),
        Compile_Hack_Code ⟨T, 16, out⟩ pre = (st, Option.none) →
          (st.NEXT_SYMBOL_VALUE + 1) % 2 ^ 32 = st.NEXT_SYMBOL_VALUE + 1) := by
  rw [Compile_Hack_Code.loop_single]
  refine ⟨?_, ?_, ?_⟩
  · intro x hx habs
    rw [Compile_Line_referenced n st raw x hx, Add_New_Symbol_allocate st x habs]
    exact ⟨rfl, rfl⟩
  · rintro (hnone | ⟨x, v, hx, hv⟩)
    · cases hl : Compile_Line n st raw with
      | error e => exact ⟨rfl, rfl⟩
      | ok st1 =>
        obtain ⟨h1, h2⟩ := Compile_Line_ok_spec n st st1 raw hl
        by_cases hreal : realInstruction raw = true
        · obtain ⟨w, -, -, hs⟩ := h2 hreal
          rw [hnone] at hs
          exact hs
        · have hf : realInstruction raw = false := by simpa using hreal
          rw [h1 hf]
          exact ⟨rfl, rfl⟩
    · rw [Compile_Line_referenced n st raw x hx,
        Add_New_Symbol_present st x _ (mem_keys_of_lookup _ x _ hv)]
      exact ⟨rfl, rfl⟩
  · intro T out pre hreach
    exact Nat.mod_eq_of_lt (reachable_counter T out pre st hreach)

/-- Witness for claim C18: after `@2`, the line ` @sum // total` allocates `sum` at 16. -/
theorem pass2_frame_witness :
    (Compile_Hack_Code.loop 2 ⟨SYMBOLS, 16, ["0000000000000010".toList]⟩
        [" @sum // total".toList]).1.SYMBOLS = SYMBOLS ++ [("sum".toList, 16)] ∧
      (Compile_Hack_Code.loop 2 ⟨SYMBOLS, 16, ["0000000000000010".toList]⟩
        [" @sum // total".toList]).1.NEXT_SYMBOL_VALUE = 17 :=
  (pass2_frame ⟨SYMBOLS, 16, ["0000000000000010".toList]⟩ 2
    " @sum // total".toList).1 "sum".toList (by decide) (by decide)

end HackC

namespace HackC

/-! ## White space -/

theorem parseCompute_relabel (n : Nat) (f g line : Str) :
    parseCompute n f line = relabel n f (parseCompute n g line) := by
  simp only [parseCompute]
  split
  · split
    · split <;> rfl
    · rfl
  · split
    · split <;> rfl
    · split
      · split <;> rfl
      · rfl

theorem relabel_ite (n : Nat) (f g : Str) (b : Bool) (x : State) :
    (if b = true then Except.error (Err.SyntaxError (errorMessage n f)) else Except.ok x) =
      relabel n f
        (if b = true then Except.error (Err.SyntaxError (errorMessage n g)) else Except.ok x) := by
  cases b <;> rfl

theorem encodeCompute_relabel (n : Nat) (st : State) (f g d c j : Str) :
    encodeCompute n st f d c j = relabel n f (encodeCompute n st g d c j) := by
  simp only [encodeCompute]
  exact relabel_ite n f g _ _

/-- The loop body of pass 2 reads a line only through its stripped text, except for the
line quoted in the syntax error. -/
theorem Compile_Line_relabel (n : Nat) (st : State) (r1 r2 : Str) (h : Strip r1 = Strip r2) :
    Compile_Line n st r1 = relabel n r1 (Compile_Line n st r2) := by
  simp only [Compile_Line, h]
  split
  · rfl
  · split
    · rfl
    · split
      · split <;> rfl
      · rw [parseCompute_relabel n r1 r2]
        cases hp : parseCompute n r2 _ with
        | error e =>
          cases e <;> rfl
        | ok t =>
          obtain ⟨d, c, j⟩ := t
          simp only [relabel]
          rw [encodeCompute_relabel n st r1 r2]
          rfl

/-- The message of a syntax error is the one of the line and line number at hand. -/
theorem Compile_Line_message (n : Nat) (st : State) (raw m : Str)
    (h : Compile_Line n st raw = .error (Err.SyntaxError m)) : m = errorMessage n raw := by
  have := Compile_Line_relabel n st raw raw rfl
  rw [h] at this
  simp only [relabel] at this
  injection this with this
  injection this

theorem Process_Labels.loop_stripped (p q : List Str) (PC : Nat) (st : State)
    (h : p.map Strip = q.map Strip) :
    Process_Labels.loop PC st p = Process_Labels.loop PC st q := by
  induction p generalizing q PC st with
  | nil =>
    cases q with
    | nil => rfl
    | cons _ _ => simp at h
  | cons r1 p ih =>
    cases q with
    | nil => simp at h
    | cons r2 q =>
      simp only [List.map_cons, List.cons.injEq] at h
      simp only [Process_Labels.loop, h.1]
      split
      · exact ih q _ _ h.2
      · split
        · rfl
        · split
          · exact ih q _ _ h.2
          · exact ih q _ _ h.2

theorem sameFailure_refl_of_not_syntax (e : Option Err)
    (h : ∀ m, e ≠ some (Err.SyntaxError m)) : sameFailure e e := by
  cases e with
  | none => trivial
  | some e =>
    cases e with
    | SyntaxError m => exact absurd rfl (h m)
    | OutOfRange => trivial
    | IntOverflow => trivial

theorem Compile_Hack_Code.loop_strip (p q : List Str) (n : Nat) (st : State)
    (h : p.map Strip = q.map Strip) :
    (Compile_Hack_Code.loop n st p).1 = (Compile_Hack_Code.loop n st q).1 ∧
      sameFailure (Compile_Hack_Code.loop n st p).2 (Compile_Hack_Code.loop n st q).2 := by
  induction p generalizing q n st with
  | nil =>
    cases q with
    | nil => exact ⟨rfl, trivial⟩
    | cons _ _ => simp at h
  | cons r1 p ih =>
    cases q with
    | nil => simp at h
    | cons r2 q =>
      simp only [List.map_cons, List.cons.injEq] at h
      have hrel := Compile_Line_relabel n st r1 r2 h.1
      simp only [Compile_Hack_Code.loop]
      cases h2 : Compile_Line n st r2 with
      | ok st1 =>
        rw [h2] at hrel
        simp only [relabel] at hrel
        rw [hrel]
        simp only
        split
        · exact ih q _ _ h.2
        · exact ⟨rfl, trivial⟩
      | error e =>
        rw [h2] at hrel
        cases e with
        | SyntaxError m =>
          simp only [relabel] at hrel
          rw [hrel]
          exact ⟨rfl, n, r1, r2, rfl, Compile_Line_message n st r2 m h2, h.1⟩
        | OutOfRange =>
          simp only [relabel] at hrel
          rw [hrel]
          exact ⟨rfl, trivial⟩
        | IntOverflow =>
          simp only [relabel] at hrel
          rw [hrel]
          exact ⟨rfl, trivial⟩

theorem sameFailure_none_iff (e1 e2 : Option Err) (h : sameFailure e1 e2) :
    e1 = Option.none ↔ e2 = Option.none := by
  cases e1 with
  | none =>
    cases e2 with
    | none => simp
    | some e => cases e <;> simp [sameFailure] at h
  | some e =>
    cases e2 with
    | none => cases e <;> simp [sameFailure] at h
    | some e' => simp

/-- Claim C19 (white space does not matter).  Let two programs have the same number of
lines, corresponding lines being equal once all white space is removed.  Then from the
same state pass 1 gives the same result on both; the two passes leave the same state
(output sequence, symbol table, counter); and they end alike: both complete, or both
stop with the same kind of error, a syntax error naming the same line number and
quoting lines that differ in white space only.  Moreover, for every `k` and every
state, pass 2 gets through the first `k` lines of one program exactly when it gets
through the first `k` lines of the other, so a failure is at the same line. -/
theorem whitespace_insensitive (st : State) (p q : List Str) (h : p.map Strip = q.map Strip) :
    Process_Labels st p = Process_Labels st q ∧
      (mainPasses st p).1 = (mainPasses st q).1 ∧
      sameFailure (mainPasses st p).2 (mainPasses st q).2 ∧
      ∀ (st1 : State) (k : Nat),
        (Compile_Hack_Code st1 (p.take k)).2 = Option.none ↔
          (Compile_Hack_Code st1 (q.take k)).2 = Option.none := by
  have h1 : Process_Labels st p = Process_Labels st q := Process_Labels.loop_stripped p q 0 st h
  refine ⟨h1, ?_, ?_, ?_⟩
  · simp only [mainPasses, h1]
    cases Process_Labels st q with
    | error e => rfl
    | ok st1 => exact (Compile_Hack_Code.loop_strip p q 1 st1 h).1
  · simp only [mainPasses, h1]
    cases hq : Process_Labels st q with
    | error e =>
      apply sameFailure_refl_of_not_syntax
      intro m hm
      simp only [Option.some.injEq] at hm
      subst hm
      have hall : ∀ (prog : List Str) (PC : Nat) (s : State) (msg : Str),
          Process_Labels.loop PC s prog ≠ .error (Err.SyntaxError msg) := by
        intro prog
        induction prog with
        | nil => intro PC s msg hc; cases hc
        | cons r prog ihp =>
          intro PC s msg
          rw [Process_Labels.loop_class]
          split
          · exact ihp _ _ _
          · intro hc; cases hc
          · exact ihp _ _ _
          · exact ihp _ _ _
      exact hall q 0 st m hq
    | ok st1 => exact (Compile_Hack_Code.loop_strip p q 1 st1 h).2
  · intro st1 k
    have hk : (p.take k).map Strip = (q.take k).map Strip := by
      rw [List.map_take, List.map_take, h]
    exact sameFailure_none_iff _ _ (Compile_Hack_Code.loop_strip _ _ 1 st1 hk).2

/-- Witness for claim C19: two spellings of the same three lines, the last malformed. -/
theorem whitespace_insensitive_witness :
    (mainPasses State.initial ["@2".toList, "D = A".toList, " D + A".toList]).1 =
        (mainPasses State.initial [" @ 2 ".toList, "D=A".toList, "D+A ".toList]).1 ∧
      sameFailure
        (mainPasses State.initial ["@2".toList, "D = A".toList, " D + A".toList]).2
        (mainPasses State.initial [" @ 2 ".toList, "D=A".toList, "D+A ".toList]).2 :=
  ⟨(whitespace_insensitive State.initial ["@2".toList, "D = A".toList, " D + A".toList]
      [" @ 2 ".toList, "D=A".toList, "D+A ".toList] (by decide)).2.1,
   (whitespace_insensitive State.initial ["@2".toList, "D = A".toList, " D + A".toList]
      [" @ 2 ".toList, "D=A".toList, "D+A ".toList] (by decide)).2.2.1⟩

end HackC

namespace HackC

/-- Pass 2 follows the branch named by `pass2Class`: no effect on a skipped line and on
a label definition, the access outside the vector on a `Fault` line, and the address or
compute branch on a real instruction. -/
theorem Compile_Line_class (n : Nat) (st : State) (raw : Str) :
    Compile_Line n st raw =
      match pass2Class raw with
      | LineClass.Skip => .ok st
      | LineClass.LabelDef => .ok st
      | LineClass.Fault => .error Err.OutOfRange
      | LineClass.Real =>
        if isAddressInstruction raw then
          Compile_Line n st (((Split_String (Strip raw) slashes)[0]?).getD [])
        else
          match parseCompute n raw (((Split_String (Strip raw) slashes)[0]?).getD []) with
          | .error e => .error e
          | .ok (destination, computation, jump) =>
            encodeCompute n st raw destination computation jump := by
  by_cases h1 : (regex_match (Strip raw) commentRx || (Strip raw).isEmpty) = true
  · simp [Compile_Line, pass2Class, h1]
  · by_cases h2 : regex_match (Strip raw) labelRx = true
    · simp [Compile_Line, pass2Class, h1, h2]
    · have h1' : (regex_match (Strip raw) commentRx || (Strip raw).isEmpty) = false := by
        simpa using h1
      have h2' : regex_match (Strip raw) labelRx = false := by simpa using h2
      cases hs : (Split_String (Strip raw) slashes)[0]? with
      | none => simp [Compile_Line, pass2Class, h1', h2', hs]
      | some line =>
        by_cases ha : regex_match line addressRx = true
        · obtain ⟨t, rfl⟩ := addressRx_head line ha
          have hbc : beforeComment (Strip raw) = '@' :: t := by
            have hne : beforeComment (Strip raw) ≠ [] := by
              intro hnil
              rcases (beforeComment_eq_nil_iff _).mp hnil with h0 | hp
              · simp [h0] at h1'
              · rcases comment_or_bare raw hp with hc | hb
                · simp [hc] at h1'
                · rw [hb] at hs
                  cases hs
            have := Split_String_slashes_head _ hne
            rw [hs] at this
            injection this with this
            exact this.symm
          have hws : ∀ c ∈ t, isspace c = false := by
            intro c hc
            apply isspace_of_mem_Strip raw
            rw [beforeComment_append (Strip raw), hbc]
            simp [hc]
          have hsl : '/' ∉ t := by
            intro hm
            have := addressRx_false_of_mem ('@' :: t) '/' (by simp [hm]) (by decide)
              (by decide)
            rw [ha] at this
            cases this
          have hself := beforeComment_at t hws hsl
          simp only [pass2Class, h1', h2', hs, isAddressInstruction, Bool.false_or, ha,
            Bool.false_eq_true, if_false, if_true, Option.getD_some]
          rw [Compile_Line_address n st raw t hbc ha, Compile_Line_address n st _ t hself ha]
        · simp [Compile_Line, pass2Class, isAddressInstruction, h1', h2', hs, ha]

end HackC
